import Mathlib

/-!
# Verification of the ScratchABit analysis/rendering core (`engine.py`)

A shallow embedding of the interactive disassembler core: the address-space
byte/flag store, annotation tables, the analysis driver, the line-rendering
model, and the text persistence codecs.  Python strings are modelled as
`List Char`, byte buffers as `List Nat` (each element `< 256` in reachable
states), Python `dict`s as insertion-ordered association lists, and Python
exceptions as an explicit `PyErr` error type threaded through `Except`.
Machine integers do not occur: all Python integers involved are unbounded.
-/

set_option maxRecDepth 10000
set_option maxHeartbeats 1000000
set_option synthInstance.maxSize 2000

namespace SAB

/-- Python strings, modelled as lists of unicode scalar values. -/
abbrev Str := List Char

/-- Python exceptions raised by the core.

* `invalidAddr a`  – `InvalidAddrException(a)` (engine.py line 44);
* `typeError`      – e.g. subscripting `None` when `addr2area` found no area;
* `indexError`     – out-of-range index into a `bytearray`;
* `assertionError` – a failed `assert`;
* `valueError`     – failed unpacking / `int(s, b)` on a malformed string;
* `fuelOut`        – marker used by the fuelled rendering loop for runs that
  would not terminate in Python (it never occurs under the hypotheses of the
  theorems below). -/
inductive PyErr where
  | invalidAddr (a : Nat)
  | typeError
  | indexError
  | keyError
  | assertionError
  | valueError
  | fuelOut
deriving DecidableEq, Repr

/-- Flag constants (engine.py lines 50–55). -/
def UNK : Nat := 0
def CODE : Nat := 0x01
def CODE_CONT : Nat := 0x02
def DATA : Nat := 0x04
def DATA_CONT : Nat := 0x08
def STR : Nat := 0x10

/-- A memory area: the tuple `(start, end, props, bytes, flags)` built by
`add_area` (engine.py lines 78–84).  `end` is a Lean keyword, so the field is
called `stop`; `props` is the opaque descriptor the core passes through. -/
structure Area where
  start : Nat
  stop : Nat
  props : Str
  bytes : List Nat
  flags : List Nat
deriving DecidableEq, Repr

/-- A label table value: Python stores either the address itself (an `int`,
the auto-label marker written by `make_auto_label`) or a user string. -/
inductive LabelVal where
  | num (n : Nat)
  | str (s : Str)
deriving DecidableEq, Repr

/-- The `AddressSpace` object (engine.py lines 49–76): the area list plus the
annotation tables.  Python dicts become insertion-ordered association lists.
The one-slot `last_area` cache is modelled separately (see `addr2area_cached`)
and proved observationally irrelevant, so the operations below use the pure
linear scan. -/
structure AddressSpace where
  area_list : List Area
  labels : List (Nat × LabelVal)
  comments : List (Nat × Str)
  xrefs : List (Nat × List (Nat × Str))
  arg_props : List (Nat × List (Nat × List (Str × Nat)))
deriving DecidableEq, Repr

/-- An address space with no areas and empty tables. -/
def emptyAS : AddressSpace := ⟨[], [], [], [], []⟩

instance {ε α : Type} [DecidableEq ε] [DecidableEq α] : DecidableEq (Except ε α) := fun x y =>
  match x, y with
  | .error a, .error b =>
      if h : a = b then isTrue (by rw [h]) else isFalse (by simp [h])
  | .ok a, .ok b =>
      if h : a = b then isTrue (by rw [h]) else isFalse (by simp [h])
  | .error _, .ok _ => isFalse (by simp)
  | .ok _, .error _ => isFalse (by simp)

/-- `add_area(start, end, props)` (engine.py lines 78–84): appends an area
whose byte and flag buffers are zero-filled of size `end - start + 1`. -/
def add_area (s : AddressSpace) (start stop : Nat) (props : Str) : AddressSpace :=
  { s with area_list :=
      s.area_list ++ [⟨start, stop, props, List.replicate (stop - start + 1) 0,
                       List.replicate (stop - start + 1) 0⟩] }

/-- Python dict assignment `d[k] = v`: replace the value in place if the key
is present (keeping its position, as CPython dicts do), else append. -/
def dictSet {K V : Type} [DecidableEq K] (l : List (K × V)) (k : K) (v : V) :
    List (K × V) :=
  if (l.lookup k).isSome then
    l.map (fun p => if p.1 = k then (k, v) else p)
  else l ++ [(k, v)]

/-- Index of the first area containing `addr`, if any (the linear scan of
`addr2area`, engine.py lines 94–98). -/
def addr2idx (s : AddressSpace) (addr : Nat) : Option Nat :=
  s.area_list.findIdx? (fun a => a.start ≤ addr ∧ addr ≤ a.stop)

/-- `addr2area(addr)` without the cache: `(addr - start, area)` for the first
area containing `addr`, else the Python `(None, None)`. -/
def addr2area (s : AddressSpace) (addr : Nat) : Option (Nat × Area) :=
  match addr2idx s addr with
  | none => none
  | some i => match s.area_list[i]? with
              | none => none
              | some a => some (addr - a.start, a)

/-- `addr2area` with the one-slot `last_area` cache exactly as written
(engine.py lines 89–98): consult the cache first, else scan and refresh the
cache on a hit.  Returns the result together with the new cache contents. -/
def addr2area_cached (last : Option Area) (areas : List Area) (addr : Nat) :
    Option (Nat × Area) × Option Area :=
  match last with
  | some a =>
      if a.start ≤ addr ∧ addr ≤ a.stop then (some (addr - a.start, a), some a)
      else cacheScan areas
  | none => cacheScan areas
where
  /-- The fallback linear scan, refreshing the cache on a hit and leaving it
  unchanged on a miss. -/
  cacheScan : List Area → Option (Nat × Area) × Option Area
    | [] => (none, last)
    | a :: rest =>
        if a.start ≤ addr ∧ addr ≤ a.stop then (some (addr - a.start, a), some a)
        else cacheScan rest

/-- The bare linear scan of `addr2area` (the `for a in self.area_list` loop,
engine.py lines 94–98) as a direct recursion, with no cache involved: the
reference the cached lookup is compared against. -/
def pureScan (addr : Nat) : List Area → Option (Nat × Area)
  | [] => none
  | a :: rest =>
      if a.start ≤ addr ∧ addr ≤ a.stop then some (addr - a.start, a)
      else pureScan addr rest

/-- `is_valid_addr(addr)` (engine.py lines 108–110). -/
def is_valid_addr (s : AddressSpace) (addr : Nat) : Bool :=
  (addr2area s addr).isSome

/-- `get_byte(addr)` (engine.py lines 112–116): raises `InvalidAddr` outside
every area, `IndexError` if the byte buffer is shorter than the flag range
(unreachable for well-formed areas). -/
def get_byte (s : AddressSpace) (addr : Nat) : Except PyErr Nat :=
  match addr2area s addr with
  | none => .error (.invalidAddr addr)
  | some (off, a) =>
      match a.bytes[off]? with
      | none => .error .indexError
      | some b => .ok b

/-- `get_bytes(addr, sz)` (engine.py lines 118–122): Python slicing clamps,
so no index error is possible once the area is found. -/
def get_bytes (s : AddressSpace) (addr sz : Nat) : Except PyErr (List Nat) :=
  match addr2area s addr with
  | none => .error (.invalidAddr addr)
  | some (off, a) => .ok ((a.bytes.drop off).take sz)

/-- The accumulation loop of `get_data` (engine.py lines 126–128):
`val = val | (area[BYTES][off + i] << 8 * i)` for `i` in `range(sz)`, acting
directly on the `(off, area)` pair that `addr2area` returned.  When no area
was found the pair is Python's `(None, None)`: the body's first subscript
`area[BYTES]` is then `None[...]` and raises `TypeError` — but only if the
body runs at all; with `sz = 0` the loop exits immediately and `val` is
returned unchanged.  The middle argument counts the remaining iterations
(`sz - i`). -/
def getDataLoop (oa : Option (Nat × Area)) : Nat → Nat → Nat → Except PyErr Nat
  | _, 0, val => .ok val
  | i, rem + 1, val =>
      match oa with
      | none => .error .typeError
      | some (off, a) =>
          match a.bytes[off + i]? with
          | none => .error .indexError
          | some b => getDataLoop oa (i + 1) rem (val ||| (b <<< (8 * i)))

/-- `get_data(addr, sz)` (engine.py lines 124–129).  Note: unlike `get_byte`,
it does **not** check for a missing area before the loop, so an address
outside every area raises `TypeError` (subscripting `None` inside the loop,
for `sz ≥ 1`) rather than `InvalidAddrException`, and returns `0` for
`sz = 0` because the loop body never runs. -/
def get_data (s : AddressSpace) (addr sz : Nat) : Except PyErr Nat :=
  getDataLoop (addr2area s addr) 0 sz 0

/-- `get_flags(addr)` (engine.py lines 131–135). -/
def get_flags (s : AddressSpace) (addr : Nat) : Except PyErr Nat :=
  match addr2area s addr with
  | none => .error (.invalidAddr addr)
  | some (off, a) =>
      match a.flags[off]? with
      | none => .error .indexError
      | some f => .ok f

/-- Fuelled body of `scanCont`; the fuel equals `flags.length - off` at
every call, so the fuel-out branch is unreachable. -/
def scanContAux (flags : List Nat) (f : Nat) : Nat → Nat → Nat → Except PyErr Nat
  | fuel, off, sz =>
    if _h : off < flags.length then
      match fuel with
      | 0 => .error .fuelOut
      | fuel + 1 =>
          if flags[off] = f then scanContAux flags f fuel (off + 1) (sz + 1) else .ok sz
    else .error .indexError

/-- The scan `while flags[off] == f: off += 1; sz += 1` shared by
`get_unit_size` (engine.py lines 148–150) and the renderer's data/string
continuation scans.  Faithful to Python: reading past the end of the buffer
raises `IndexError`. -/
def scanCont (flags : List Nat) (f : Nat) (off sz : Nat) : Except PyErr Nat :=
  scanContAux flags f (flags.length - off) off sz

/-- `get_unit_size(addr)` (engine.py lines 137–151).  A missing area makes
`area[FLAGS]` subscript `None` (`TypeError`). -/
def get_unit_size (s : AddressSpace) (addr : Nat) : Except PyErr Nat :=
  match addr2area s addr with
  | none => .error .typeError
  | some (off, a) =>
      match a.flags[off]? with
      | none => .error .indexError
      | some f0 =>
          if f0 = CODE then scanCont a.flags CODE_CONT (off + 1) 1
          else if f0 = DATA ∨ f0 = STR then scanCont a.flags DATA_CONT (off + 1) 1
          else .ok 1

/-- `adjust_offset_reverse(off, area)` (engine.py lines 154–162): walk `off`
backwards while the flag there is a continuation flag. -/
def adjust_offset_reverse : Nat → Area → Except PyErr Nat
  | 0, _ => .ok 0
  | off + 1, a =>
      match a.flags[off + 1]? with
      | none => .error .indexError
      | some f =>
          if f = CODE_CONT ∨ f = DATA_CONT then adjust_offset_reverse off a
          else .ok (off + 1)

/-- Replace the element of `l` at index `k` by `g` applied to it (helper for
in-place area mutation: Python mutates the found area object). -/
def listModify {α : Type} : List α → Nat → (α → α) → List α
  | [], _, _ => []
  | x :: rest, 0, g => g x :: rest
  | x :: rest, k + 1, g => x :: listModify rest k g

/-- Write `v` at indices `off, off+1, …, off+cnt-1` of `l`
(the loop `for i in range(cnt): l[off + i] = v`). -/
def writeRun (l : List Nat) (off cnt v : Nat) : List Nat :=
  match cnt with
  | 0 => l
  | c + 1 => writeRun (l.set off v) (off + 1) c v

/-- Bitwise-or `v` into indices `off, …, off+cnt-1` of `l`
(the loop `for i in range(cnt): l[off + i] |= v`). -/
def orRun (l : List Nat) (off cnt v : Nat) : List Nat :=
  match cnt with
  | 0 => l
  | c + 1 => orRun (l.set off (l.getD off 0 ||| v)) (off + 1) c v

/-- `set_flags(addr, sz, head_fl, rest_fl)` (engine.py lines 165–171):
`flags[off] = head_fl`, then `rest_fl` at the next `sz - 1` positions.
A missing area raises `TypeError`. -/
def set_flags (s : AddressSpace) (addr sz head_fl rest_fl : Nat) :
    Except PyErr AddressSpace :=
  match addr2idx s addr with
  | none => .error .typeError
  | some k =>
      match s.area_list[k]? with
      | none => .error .typeError
      | some a =>
          let off := addr - a.start
          let nf := writeRun (a.flags.set off head_fl) (off + 1) (sz - 1) rest_fl
          .ok { s with area_list := listModify s.area_list k (fun ar => { ar with flags := nf }) }

/-- `make_undefined(addr, sz)` (engine.py lines 173–174). -/
def make_undefined (s : AddressSpace) (addr sz : Nat) : Except PyErr AddressSpace :=
  set_flags s addr sz UNK UNK

/-- The flag update of `make_code` (engine.py lines 178–181): or `CODE` into
the head flag at `off`, `CODE_CONT` into the following `sz - 1` flags. -/
def mkCodeFlags (a : Area) (off sz : Nat) : List Nat :=
  orRun (a.flags.set off (a.flags.getD off 0 ||| CODE)) (off + 1) (sz - 1) CODE_CONT

/-- `make_code(addr, sz)` (engine.py lines 176–181). -/
def make_code (s : AddressSpace) (addr sz : Nat) : Except PyErr AddressSpace :=
  match addr2idx s addr with
  | none => .error .typeError
  | some k =>
      match s.area_list[k]? with
      | none => .error .typeError
      | some a =>
          .ok { s with area_list := listModify s.area_list k (fun ar => { ar with flags := mkCodeFlags a (addr - a.start) sz }) }

/-- The flag update of `make_data` (engine.py lines 185–188). -/
def mkDataFlags (a : Area) (off sz : Nat) : List Nat :=
  orRun (a.flags.set off (a.flags.getD off 0 ||| DATA)) (off + 1) (sz - 1) DATA_CONT

/-- `make_data(addr, sz)` (engine.py lines 183–188). -/
def make_data (s : AddressSpace) (addr sz : Nat) : Except PyErr AddressSpace :=
  match addr2idx s addr with
  | none => .error .typeError
  | some k =>
      match s.area_list[k]? with
      | none => .error .typeError
      | some a =>
          .ok { s with area_list := listModify s.area_list k (fun ar => { ar with flags := mkDataFlags a (addr - a.start) sz }) }

/-! ## Text helpers: `%x` / `%08x` / `%d` formatting, `int(s, base)`,
whitespace splitting -/

/-- Lowercase hex digit character for `n < 16`. -/
def hexChar (n : Nat) : Char :=
  if n < 10 then Char.ofNat (48 + n) else Char.ofNat (87 + n)

/-- Decimal digit character for `n < 10`. -/
def decChar (n : Nat) : Char := Char.ofNat (48 + n)

/-- Fuelled digit expansion for `natToHex` (the fuel bounds the recursion
depth; `n` itself is always sufficient). -/
def natToHexAux : Nat → Nat → Str
  | 0, n => [hexChar (n % 16)]
  | fuel + 1, n =>
      if n < 16 then [hexChar n]
      else natToHexAux fuel (n / 16) ++ [hexChar (n % 16)]

/-- `"%x" % n`: lowercase hex without padding (`"0"` for zero). -/
def natToHex (n : Nat) : Str := natToHexAux n n

/-- Fuelled digit expansion for `natToDec`. -/
def natToDecAux : Nat → Nat → Str
  | 0, n => [decChar (n % 10)]
  | fuel + 1, n =>
      if n < 10 then [decChar n]
      else natToDecAux fuel (n / 10) ++ [decChar (n % 10)]

/-- `"%d" % n` / `str(n)` for natural `n`. -/
def natToDec (n : Nat) : Str := natToDecAux n n

/-- Left-pad with `c` to width `w`. -/
def padLeft (c : Char) (w : Nat) (s : Str) : Str :=
  List.replicate (w - s.length) c ++ s

/-- `"%08x" % n`. -/
def hex8 (n : Nat) : Str := padLeft '0' 8 (natToHex n)

/-- Value of a hex digit character, if it is one (both cases). -/
def hexDigit? (c : Char) : Option Nat :=
  let v := c.toNat
  if 48 ≤ v ∧ v ≤ 57 then some (v - 48)
  else if 97 ≤ v ∧ v ≤ 102 then some (v - 87)
  else if 65 ≤ v ∧ v ≤ 70 then some (v - 55)
  else none

/-- Value of a decimal digit character, if it is one. -/
def decDigit? (c : Char) : Option Nat :=
  let v := c.toNat
  if 48 ≤ v ∧ v ≤ 57 then some (v - 48) else none

/-- Accumulating digit-string parser. -/
def parseDigits (digit? : Char → Option Nat) (base : Nat) : Str → Nat → Option Nat
  | [], acc => some acc
  | c :: cs, acc =>
      match digit? c with
      | none => none
      | some d => parseDigits digit? base cs (acc * base + d)

/-- Python `int(s, 16)` restricted to plain digit strings (the only form the
persistence formats produce); anything else raises `ValueError`. -/
def int16 (s : Str) : Except PyErr Nat :=
  match s, parseDigits hexDigit? 16 s 0 with
  | [], _ => .error .valueError
  | _, none => .error .valueError
  | _, some n => .ok n

/-- Python `int(s)` restricted to plain decimal digit strings. -/
def int10 (s : Str) : Except PyErr Nat :=
  match s, parseDigits decDigit? 10 s 0 with
  | [], _ => .error .valueError
  | _, none => .error .valueError
  | _, some n => .ok n

/-- Python's `str.split` whitespace set: space, `\t`, `\n`, `\r`, `\x0b`, `\x0c`. -/
def isWs (c : Char) : Bool :=
  c = ' ' || c = '\t' || c = '\n' || c = '\r' || c.toNat = 11 || c.toNat = 12

/-- Helper for `splitWs`, accumulating the current token reversed. -/
def splitWsAux : Str → Str → List Str
  | [], cur => if cur = [] then [] else [cur.reverse]
  | c :: cs, cur =>
      if isWs c then
        if cur = [] then splitWsAux cs [] else cur.reverse :: splitWsAux cs []
      else splitWsAux cs (c :: cur)

/-- Python `s.split()`: split on whitespace runs, no empty tokens. -/
def splitWs (s : Str) : List Str := splitWsAux s []

/-- Python `s.split(None, 1)` followed by unpacking into exactly two values:
`none` models the `ValueError` when there is no second field. -/
def splitN1 (s : Str) : Option (Str × Str) :=
  let t := s.dropWhile (fun c => isWs c)
  let tok := t.takeWhile (fun c => !(isWs c))
  let rest := (t.dropWhile (fun c => !(isWs c))).dropWhile (fun c => isWs c)
  if tok = [] then none else if rest = [] then none else some (tok, rest)

/-- Python `s.rstrip()`. -/
def rstripWs (s : Str) : Str := (s.reverse.dropWhile (fun c => isWs c)).reverse

/-! ## Label, comment, arg-prop and xref tables -/

/-- `get_default_label_prefix(ea)` (engine.py lines 190–198); the name is
shortened to `pfx`.  `loc_` for a `CODE` head, `dat_` when the `DATA` bit is
set, else `unk_`. -/
def get_default_label_pfx (s : AddressSpace) (ea : Nat) : Except PyErr Str :=
  match get_flags s ea with
  | .error e => .error e
  | .ok fl =>
      if fl = CODE then .ok ("loc_".data)
      else if fl &&& DATA ≠ 0 then .ok ("dat_".data)
      else .ok ("unk_".data)

/-- `get_default_label(ea)` (engine.py lines 200–202): `"%s%08x"`. -/
def get_default_label (s : AddressSpace) (ea : Nat) : Except PyErr Str :=
  match get_default_label_pfx s ea with
  | .error e => .error e
  | .ok p => .ok (p ++ hex8 ea)

/-- `make_label(prefix, ea)` (engine.py lines 204–209): no-op when a label
already exists; an empty/missing prefix falls back to the default one. -/
def make_label (s : AddressSpace) (pfx : Option Str) (ea : Nat) :
    Except PyErr AddressSpace :=
  if (s.labels.lookup ea).isSome then .ok s
  else
    match (match pfx with
           | none => get_default_label_pfx s ea
           | some p => if p = [] then get_default_label_pfx s ea else .ok p) with
    | .error e => .error e
    | .ok p => .ok { s with labels := dictSet s.labels ea (.str (p ++ hex8 ea)) }

/-- `make_auto_label(ea)` (engine.py lines 213–216): store the address itself
as the auto-label marker, unless a label already exists. -/
def make_auto_label (s : AddressSpace) (ea : Nat) : AddressSpace :=
  if (s.labels.lookup ea).isSome then s
  else { s with labels := dictSet s.labels ea (.num ea) }

/-- `get_label(ea)` (engine.py lines 218–222): materialize an auto label as
`"%s%08x" % (default_prefix(ea), stored_int)`. -/
def get_label (s : AddressSpace) (ea : Nat) : Except PyErr (Option Str) :=
  match s.labels.lookup ea with
  | none => .ok none
  | some (.str l) => .ok (some l)
  | some (.num n) =>
      match get_default_label_pfx s ea with
      | .error e => .error e
      | .ok p => .ok (some (p ++ hex8 n))

/-- `set_label(ea, label)` (engine.py lines 224–225). -/
def set_label (s : AddressSpace) (ea : Nat) (l : Str) : AddressSpace :=
  { s with labels := dictSet s.labels ea (.str l) }

/-- The loop of `resolve_label(label)` over `labels.items()` (engine.py
lines 245–251): a user string matches by equality; an integer marker matches
when its materialized default label equals the query. -/
def resolveLoop (s : AddressSpace) (label : Str) :
    List (Nat × LabelVal) → Except PyErr (Option Nat)
  | [] => .ok none
  | (ea, .str t) :: rest =>
      if t = label then .ok (some ea) else resolveLoop s label rest
  | (ea, .num n) :: rest =>
      match get_default_label s n with
      | .error e => .error e
      | .ok d => if d = label then .ok (some ea) else resolveLoop s label rest

/-- `resolve_label(label)` (engine.py lines 245–251). -/
def resolve_label (s : AddressSpace) (label : Str) : Except PyErr (Option Nat) :=
  resolveLoop s label s.labels

/-- Materialized label string of one table entry: a user string as-is, an
auto marker as the default label of its stored integer — the string both
`get_label` produces and `resolve_label` compares against. -/
def labelMat (s : AddressSpace) (p : Nat × LabelVal) : Except PyErr Str :=
  match p.2 with
  | .str t => .ok t
  | .num n => get_default_label s n

/-- `get_comment(ea)` (engine.py lines 256–257). -/
def get_comment (s : AddressSpace) (ea : Nat) : Option Str :=
  s.comments.lookup ea

/-- `set_comment(ea, comm)` (engine.py lines 259–260). -/
def set_comment (s : AddressSpace) (ea : Nat) (c : Str) : AddressSpace :=
  { s with comments := dictSet s.comments ea c }

/-- `set_arg_prop(ea, arg_no, prop, prop_val)` (engine.py lines 262–269).
Property values are modelled as naturals: the only values the core stores are
the plugin's small operand-type constants. -/
def set_arg_prop (s : AddressSpace) (ea arg_no : Nat) (prop : Str) (v : Nat) :
    AddressSpace :=
  let ap := (s.arg_props.lookup ea).getD []
  let props := (ap.lookup arg_no).getD []
  { s with arg_props := dictSet s.arg_props ea (dictSet ap arg_no (dictSet props prop v)) }

/-- `get_arg_prop(ea, arg_no, prop)` (engine.py lines 271–272). -/
def get_arg_prop (s : AddressSpace) (ea arg_no : Nat) (prop : Str) : Option Nat :=
  ((s.arg_props.lookup ea).getD []).lookup arg_no |>.getD [] |>.lookup prop

/-- `add_xref(from_ea, to_ea, type)` (engine.py lines 274–275). -/
def add_xref (s : AddressSpace) (from_ea to_ea : Nat) (ty : Str) : AddressSpace :=
  let inner := (s.xrefs.lookup to_ea).getD []
  { s with xrefs := dictSet s.xrefs to_ea (dictSet inner from_ea ty) }

/-- Python `del d[k]` on an association list (key known present). -/
def dictDel {K V : Type} [DecidableEq K] (l : List (K × V)) (k : K) : List (K × V) :=
  l.filter (fun p => p.1 ≠ k)

/-- `del_xref(from_ea, to_ea, type)` (engine.py lines 277–280): no-op when the
target has no entry; otherwise assert the tag matches and delete the edge
(`KeyError` when the source is missing). -/
def del_xref (s : AddressSpace) (from_ea to_ea : Nat) (ty : Str) :
    Except PyErr AddressSpace :=
  match s.xrefs.lookup to_ea with
  | none => .ok s
  | some inner =>
      match inner.lookup from_ea with
      | none => .error .keyError
      | some t =>
          if t = ty then
            .ok { s with xrefs := dictSet s.xrefs to_ea (dictDel inner from_ea) }
          else .error .assertionError

/-- `get_xrefs(ea)` (engine.py lines 282–283). -/
def get_xrefs (s : AddressSpace) (ea : Nat) : Option (List (Nat × Str)) :=
  s.xrefs.lookup ea

/-! ## Sorting by key (Python `sorted(d.keys())` over a dict) -/

/-- Insert one pair into a key-sorted association list. -/
def insertByKey {V : Type} (p : Nat × V) : List (Nat × V) → List (Nat × V)
  | [] => [p]
  | q :: rest => if p.1 ≤ q.1 then p :: q :: rest else q :: insertByKey p rest

/-- Insertion sort of an association list by key: the model of iterating a
dict in `sorted(keys)` order (dict keys are distinct, so stability and the
handling of equal keys are irrelevant). -/
def sortByKey {V : Type} : List (Nat × V) → List (Nat × V)
  | [] => []
  | p :: rest => insertByKey p (sortByKey rest)

/-! ## The analysis driver (engine.py lines 394–429) -/

/-- The processor plugin as seen by `analyze()`, over an opaque plugin-state
type `σ` (the mutable `cmd` descriptor and any decoder state).

* `ana st ea` models `init_cmd(ea)` followed by `_processor.ana()`: it
  returns the decoded instruction size (0 = not an instruction) and the new
  plugin state, or raises;
* `emu st ea spc` models `_processor.emu()`: it returns the success flag, the
  list of addresses pushed (in push order) via `analisys_stack_push`, the new
  plugin state and the possibly-updated address space (the plugin may record
  labels/xrefs);
* `out st` models `_processor.out()`.

The contract assumed by the spec — `ana`/`emu`/`out` terminate and `emu`
pushes finitely many addresses — is expressed by these being total functions
returning lists. -/
structure Proc (σ : Type) where
  ana : σ → Nat → Except PyErr (Nat × σ)
  emu : σ → Nat → AddressSpace → Bool × List Nat × σ × AddressSpace
  out : σ → σ

/-- Result of one `analyze()` invocation: final plugin state, address space,
remaining worklist, number of decoded instructions, the arguments of the
progress-callback invocations in order, and the exception (if one escaped). -/
structure AnalyzeResult (σ : Type) where
  st : σ
  spc : AddressSpace
  stack : List Nat
  cnt : Nat
  callbacks : List Nat
  err : Option PyErr

/-- The `while analisys_stack and limit` loop of `analyze()` (engine.py
lines 404–427).  The worklist is LIFO with its top at the head; `emu`'s
pushes therefore land reversed on the front.  Termination is by the
lexicographic measure (budget, worklist length): unproductive iterations pop
without pushing, productive ones decrement the budget. -/
def analyzeLoop {σ : Type} (p : Proc σ) (st : σ) (spc : AddressSpace)
    (stack : List Nat) (limit cnt : Nat) (cbs : List Nat) : AnalyzeResult σ :=
  match stack, limit with
  | [], _ => ⟨st, spc, [], cnt, cbs, none⟩
  | _ :: _, 0 => ⟨st, spc, stack, cnt, cbs, none⟩
  | ea :: rest, limit' + 1 =>
      match p.ana st ea with
      | .error (.invalidAddr _) => analyzeLoop p st spc rest (limit' + 1) cnt cbs
      | .error e => ⟨st, spc, rest, cnt, cbs, some e⟩
      | .ok (insn_sz, st1) =>
          if insn_sz = 0 then analyzeLoop p st1 spc rest (limit' + 1) cnt cbs
          else
            match p.emu st1 ea spc with
            | (false, _, st2, spc2) => ⟨st2, spc2, rest, cnt, cbs, some .assertionError⟩
            | (true, pushed, st2, spc2) =>
                match make_code spc2 ea insn_sz with
                | .error e => ⟨st2, spc2, pushed.reverse ++ rest, cnt, cbs, some e⟩
                | .ok spc3 =>
                    let st3 := p.out st2
                    let cnt' := cnt + 1
                    let cbs' := if cnt' % 1000 = 0 then cbs ++ [cnt'] else cbs
                    analyzeLoop p st3 spc3 (pushed.reverse ++ rest) limit' cnt' cbs'
termination_by (limit, stack.length)

/-- `analyze(callback)` (engine.py lines 404–427): budget 40000, counter 0. -/
def analyze {σ : Type} (p : Proc σ) (st : σ) (spc : AddressSpace)
    (stack : List Nat) : AnalyzeResult σ :=
  analyzeLoop p st spc stack 40000 0 []

/-! ## Display objects and the rendering model (engine.py lines 433–789) -/

/-- Display-object variants (the `DisasmObj` class hierarchy), with the data
each carries that the model records: `Literal`, `Unknown`, `Data`, `String`,
`Instruction`, `Label`, `Xref`. -/
inductive Line where
  | literal (ea : Nat) (s : Str)
  | unknown (ea val : Nat)
  | data (ea sz val : Nat)
  | strL (ea sz : Nat) (chars : Str)
  | instr (ea sz : Nat)
  | label (ea : Nat)
  | xref (ea from_ea : Nat) (ty : Str)
deriving DecidableEq, Repr

/-- The `ea` field every display object carries. -/
def Line.ea : Line → Nat
  | .literal e _ => e
  | .unknown e _ => e
  | .data e _ _ => e
  | .strL e _ _ => e
  | .instr e _ => e
  | .label e => e
  | .xref e _ _ => e

/-- The `virtual` class attribute: true for labels, xrefs and literals. -/
def Line.virtual : Line → Bool
  | .literal _ _ => true
  | .label _ => true
  | .xref _ _ _ => true
  | .unknown _ _ => false
  | .data _ _ _ => false
  | .strL _ _ _ => false
  | .instr _ _ => false

/-- A rendered line: the display object plus the `subno` that `add_line`
assigned to it. -/
structure LineObj where
  line : Line
  subno : Nat
deriving DecidableEq, Repr

/-- The `Model` object (engine.py lines 433–446).  `_lines`, `_cnt`,
`_subcnt`, `_last_addr`, `_addr2line` keep their meanings; `addr2line` keys
are `(address, subno)` with `-1` for the "real" line of an address. -/
structure Model where
  lines : List LineObj
  cnt : Nat
  subcnt : Nat
  last_addr : Int
  addr2line : List ((Nat × Int) × Nat)
  target_addr : Int
  target_subno : Int
  target_addr_lineno_0 : Int
  target_addr_lineno : Int
  target_addr_lineno_real : Int
deriving DecidableEq, Repr

/-- `Model(target_addr, target_subno)` (engine.py lines 435–446). -/
def Model.init (target_addr target_subno : Int) : Model :=
  ⟨[], 0, 0, -1, [], target_addr, target_subno, -1, -1, -1⟩

/-- `Model.add_line(addr, line)` (engine.py lines 451–473), statement for
statement: reset the sub-counter on an address change, latch the three
target line numbers, append the line (recording its `subno`), update both
`addr2line` indices, bump the counters. -/
def Model.add_line (m : Model) (addr : Nat) (l : Line) : Model :=
  let m := if (addr : Int) ≠ m.last_addr then
             { m with last_addr := (addr : Int), subcnt := 0 } else m
  let m :=
    if (addr : Int) = m.target_addr then
      let m := if m.subcnt = 0 then { m with target_addr_lineno_0 := (m.cnt : Int) } else m
      let m := if (m.subcnt : Int) = m.target_subno then
                 { m with target_addr_lineno := (m.cnt : Int) } else m
      if !l.virtual then { m with target_addr_lineno_real := (m.cnt : Int) } else m
    else m
  let m := { m with lines := m.lines ++ [LineObj.mk l m.subcnt],
                    addr2line := dictSet m.addr2line (addr, (m.subcnt : Int)) m.cnt }
  let m := if !l.virtual then
             { m with addr2line := dictSet m.addr2line (addr, -1) m.cnt } else m
  { m with cnt := m.cnt + 1, subcnt := m.subcnt + 1 }

/-- Why a rendering run stopped: all areas exhausted (the outer `while`
ended), the line budget hit zero (`return`), a Python exception, or the
fuel-out marker standing for a run that would not terminate. -/
inductive RStop where
  | finished
  | budget
  | err (e : PyErr)
  | fuelOut
deriving DecidableEq, Repr

/-- Fuelled body of `scanStr` (fuel = `flags.length - j`, so the fuel-out
branch is unreachable). -/
def scanStrAux (flags bytes : List Nat) : Nat → Nat → Nat → Str → Except PyErr (Nat × Str)
  | fuel, j, sz, acc =>
    if _h : j < flags.length then
      match fuel with
      | 0 => .error .fuelOut
      | fuel + 1 =>
          if flags[j] = DATA_CONT then
            match bytes[j]? with
            | none => .error .indexError
            | some b => scanStrAux flags bytes fuel (j + 1) (sz + 1) (acc ++ [Char.ofNat b])
          else .ok (sz, acc)
    else .error .indexError

/-- The `STR` continuation scan of `render_partial` (engine.py lines
764–771): collect characters while the flag is `DATA_CONT`. -/
def scanStr (flags bytes : List Nat) (j sz : Nat) (acc : Str) : Except PyErr (Nat × Str) :=
  scanStrAux flags bytes (flags.length - j) j sz acc

/-- The unit dispatch of `render_partial` on the head flag `f` at offset `i`
(engine.py lines 752–781): produces the real display object and the next
offset, or the exception Python would raise (including the `assert 0` for a
continuation/unknown flag value). -/
def renderUnit (s : AddressSpace) (ana : Nat → Except PyErr Nat) (a : Area)
    (i addr f : Nat) : Except PyErr (Line × Nat) :=
  if f = UNK then
    match a.bytes[i]? with
    | none => .error .indexError
    | some b => .ok (.unknown addr b, i + 1)
  else if f = DATA then
    match scanCont a.flags DATA_CONT (i + 1) 1 with
    | .error e => .error e
    | .ok sz =>
        match get_data s addr sz with
        | .error e => .error e
        | .ok v => .ok (.data addr sz v, i + sz)
  else if f = STR then
    match a.bytes[i]? with
    | none => .error .indexError
    | some b =>
        match scanStr a.flags a.bytes (i + 1) 1 [Char.ofNat b] with
        | .error e => .error e
        | .ok (sz, cs) => .ok (.strL addr sz cs, i + sz)
  else if f = CODE then
    match ana addr with
    | .error e => .error e
    | .ok insn_sz => .ok (.instr addr insn_sz, i + insn_sz)
  else .error .assertionError

/-- The inner `while i < len(flags)` loop of `render_partial` (engine.py
lines 735–787) on one area: per byte position, possibly credit the budget
(before the target), emit xref lines (sorted by source), a label line if a
non-empty label exists, then the unit's real line; debit the budget and stop
when it reaches zero.  Fuelled because a processor returning size 0 makes the
Python loop spin forever. -/
def renderArea (s : AddressSpace) (ana : Nat → Except PyErr Nat) (a : Area) :
    Model → Nat → Int → Int → Nat → Model × Int × Option RStop
  | m, i, num_lines, target_addr, fuel =>
    match fuel with
    | 0 => (m, num_lines, some .fuelOut)
    | fuel + 1 =>
      if hi : i < a.flags.length then
        let addr := a.start + i
        let nl := if target_addr ≥ 0 ∧ (addr : Int) < target_addr then num_lines + 1
                  else num_lines
        let m := match get_xrefs s addr with
          | none => m
          | some x => (sortByKey x).foldl
              (fun mm q => mm.add_line addr (.xref addr q.1 q.2)) m
        match get_label s addr with
        | .error e => (m, nl, some (.err e))
        | .ok lab =>
          let m := match lab with
            | some t => if t = [] then m else m.add_line addr (.label addr)
            | none => m
          match renderUnit s ana a i addr a.flags[i] with
          | .error e => (m, nl, some (.err e))
          | .ok (out, i') =>
              let m := m.add_line addr out
              let nl := nl - 1
              if nl = 0 then (m, nl, some .budget)
              else renderArea s ana a m i' nl target_addr fuel
      else (m, num_lines, none)

/-- The `"; Start of 0x%x area"` literal text. -/
def startLit (start : Nat) : Str := ("; Start of 0x".data) ++ natToHex start ++ (" area".data)

/-- The `"; End of 0x%x area"` literal text (also keyed by the area start). -/
def endLit (start : Nat) : Str := ("; End of 0x".data) ++ natToHex start ++ (" area".data)

/-- The outer area loop of `render_partial` (engine.py lines 724–789): the
first processed area starts at `offset` and gets no start delimiter; every
subsequent area starts at 0 after a `"; Start of …"` literal; a completed
area appends its `"; End of …"` literal keyed by the area's end address. -/
def renderAreas (s : AddressSpace) (ana : Nat → Except PyErr Nat) :
    Model → Nat → Nat → Bool → Int → Int → Nat → Nat → Model × RStop
  | m, area_no, offset, start, num_lines, target_addr, fuel, afuel =>
    if h : area_no < s.area_list.length then
      match afuel with
      | 0 => (m, .fuelOut)
      | afuel + 1 =>
        let a := s.area_list[area_no]
        let mi : Model × Nat :=
          if start then (m, offset)
          else (m.add_line a.start (.literal a.start (startLit a.start)), 0)
        match renderArea s ana a mi.1 mi.2 num_lines target_addr fuel with
        | (m, _, some st) => (m, st)
        | (m, nl, none) =>
            let m := m.add_line a.stop (.literal a.stop (endLit a.start))
            renderAreas s ana m (area_no + 1) 0 false nl target_addr fuel afuel
    else (m, .finished)

/-- Fuel sufficient for any terminating rendering run: one inner iteration
consumes at least one byte of some area whenever every unit has positive
size. -/
def renderFuel (s : AddressSpace) : Nat :=
  (s.area_list.map (fun a => a.flags.length)).sum + 1

/-- Embeds `render_partial(model, area_no, offset, num_lines, target_addr)`
(engine.py lines 720–789). -/
def render_win (s : AddressSpace) (ana : Nat → Except PyErr Nat) (m : Model)
    (area_no offset : Nat) (num_lines target_addr : Int) : Model × RStop :=
  renderAreas s ana m area_no offset true num_lines target_addr (renderFuel s)
    (s.area_list.length + 1)

/-- `MAX_UNIT_SIZE` (engine.py line 682). -/
def MAX_UNIT_SIZE : Nat := 4

/-- `self.area_list.index(area)` / `area_no(area)` (engine.py lines 86–87):
index of the first structurally equal area (`ValueError` when absent). -/
def indexOfArea (s : AddressSpace) (a : Area) : Except PyErr Nat :=
  match s.area_list.findIdx? (fun x => x == a) with
  | none => .error .valueError
  | some i => .ok i

/-- The backwards area walk of `render_partial_around` (engine.py lines
692–699): starting from area index `area_no` and a negative offset, add area
sizes until the offset becomes non-negative; the last visited area is kept
even when the walk runs past the first area. -/
def backWalkLoop (s : AddressSpace) : Nat → Int → Int → Area → Area × Int
  | 0, _, off, cur => (cur, off)
  | fuel + 1, area_no, off, cur =>
    if 0 ≤ area_no then
      match s.area_list[area_no.toNat]? with
      | none => (cur, off)
      | some a =>
          let off := off + ((a.stop : Int) - (a.start : Int) + 1)
          if 0 ≤ off then (a, off) else backWalkLoop s fuel (area_no - 1) off a
    else (cur, off)

/-- Embeds `render_partial_around(addr, subno, context_lines)` (engine.py
lines 684–717): back off `context_lines * MAX_UNIT_SIZE` bytes, walking into
earlier areas and clamping at the start of the address space, snap to a unit
head with `adjust_offset_reverse`, render with `target_addr = addr`, then
assert `target_addr_lineno_0 ≥ 0` and fall back to it when the exact `subno`
was not found.  Returns `none` for an invalid address, an error for a Python
exception (or the fuel-out marker). -/
def render_around (s : AddressSpace) (ana : Nat → Except PyErr Nat)
    (addr : Nat) (subno : Int) (context_lines : Nat) : Except PyErr (Option Model) :=
  match addr2area s addr with
  | none => .ok none
  | some (off0, area0) =>
      let back := context_lines * MAX_UNIT_SIZE
      let offI : Int := (off0 : Int) - (back : Int)
      match (if offI < 0 then
               match indexOfArea s area0 with
               | .error e => .error e
               | .ok idx => .ok (backWalkLoop s (s.area_list.length + 1) ((idx : Int) - 1) offI area0)
             else .ok (area0, offI) : Except PyErr (Area × Int)) with
      | .error e => .error e
      | .ok (area, offI1) =>
        let offI2 := if offI1 < 0 then 0 else offI1
        match adjust_offset_reverse offI2.toNat area with
        | .error e => .error e
        | .ok off =>
          match indexOfArea s area with
          | .error e => .error e
          | .ok idx =>
            let model := Model.init (addr : Int) subno
            match render_win s ana model idx off (context_lines : Int) (addr : Int) with
            | (_, .err e) => .error e
            | (_, .fuelOut) => .error .fuelOut
            | (model, _) =>
              if model.target_addr_lineno_0 < 0 then .error .assertionError
              else
                let model := if model.target_addr_lineno = -1 then
                               { model with target_addr_lineno := model.target_addr_lineno_0 }
                             else model
                .ok (some model)

/-! ## Persistence (engine.py lines 286–375)

Streams are modelled as lists of lines, each line without its trailing
newline (`save_*` writes exactly one `"\n"` per line; `load_*` iterates
lines / `readline`s). -/

/-- One line of `save_labels` (engine.py lines 286–293): an auto label whose
stored integer equals the address saves as the bare address; anything else as
`"%08x %s"` (an integer value prints in decimal via `%s`). -/
def labelLine (addr : Nat) (l : LabelVal) : Str :=
  match l with
  | .num n => if n = addr then hex8 addr else hex8 addr ++ [' '] ++ natToDec n
  | .str t => hex8 addr ++ [' '] ++ t

/-- `save_labels(stream)` (engine.py lines 286–293): one line per label in
increasing address order. -/
def save_labels (labels : List (Nat × LabelVal)) : List Str :=
  (sortByKey labels).map (fun p => labelLine p.1 p.2)

/-- `load_labels(stream)` (engine.py lines 295–303): split each line; a lone
hex address records the auto marker, otherwise the second field is the label
(extra fields are ignored, as `vals[1]` ignores them). -/
def load_labels (lines : List Str) (tbl : List (Nat × LabelVal)) :
    Except PyErr (List (Nat × LabelVal)) :=
  match lines with
  | [] => .ok tbl
  | l :: rest =>
      match splitWs l with
      | [] => .error .indexError
      | v0 :: vrest =>
          match int16 v0 with
          | .error e => .error e
          | .ok addr =>
              let lab : LabelVal := match vrest with
                | [] => .num addr
                | v1 :: _ => .str v1
              load_labels rest (dictSet tbl addr lab)

/-! ### `json.dumps` / `json.loads` for strings (the comment codec)

`json.dumps` with its defaults (`ensure_ascii=True`): escape `"` and `\`,
use the short escapes for the five control characters that have them, `\u00xx`
for other controls, pass printable ASCII through, `\uxxxx` for every
character above `0x7e`, surrogate pairs above `0xffff`.  `json.loads` of a
string literal reverses this; the model rejects lone surrogates (a Lean
`Char` cannot hold one; the encoder never produces them). -/

/-- `"%04x"`. -/
def hex4 (n : Nat) : Str := padLeft '0' 4 (natToHex n)

/-- `json.dumps` escaping of one character. -/
def escChar (c : Char) : Str :=
  let v := c.toNat
  if c = '"' then ['\\', '"']
  else if c = '\\' then ['\\', '\\']
  else if v = 10 then ['\\', 'n']
  else if v = 13 then ['\\', 'r']
  else if v = 9 then ['\\', 't']
  else if v = 8 then ['\\', 'b']
  else if v = 12 then ['\\', 'f']
  else if v < 0x20 then '\\' :: 'u' :: hex4 v
  else if v < 0x7f then [c]
  else if v < 0x10000 then '\\' :: 'u' :: hex4 v
  else
    let u := v - 0x10000
    ('\\' :: 'u' :: hex4 (0xd800 + u / 0x400)) ++ '\\' :: 'u' :: hex4 (0xdc00 + u % 0x400)

/-- `json.dumps(s)` for a string `s`. -/
def jsonDumpsStr (s : Str) : Str :=
  '"' :: s.foldr (fun c acc => escChar c ++ acc) ['"']

/-- Numeric value of four hex digit characters. -/
def unescHex4 (a b c d : Char) : Option Nat :=
  match hexDigit? a, hexDigit? b, hexDigit? c, hexDigit? d with
  | some x, some y, some z, some w => some (((x * 16 + y) * 16 + z) * 16 + w)
  | _, _, _, _ => none

/-- Prepend a character to the parsed-content component. -/
def consFst (c : Char) (p : Str × List Char) : Str × List Char := (c :: p.1, p.2)

/-- Parse the body of a JSON string literal after the opening quote: the
content and the remaining input after the closing quote.  Raw control
characters are rejected (`json.loads` is strict); `\uXXXX` high surrogates
must be followed by a low surrogate. -/
def parseJStrAux : Nat → List Char → Option (Str × List Char)
  | 0, _ => none
  | fuel + 1, cs =>
    match cs with
    | [] => none
    | '"' :: rest => some ([], rest)
    | '\\' :: '"' :: r => consFst '"' <$> parseJStrAux fuel r
    | '\\' :: '\\' :: r => consFst '\\' <$> parseJStrAux fuel r
    | '\\' :: '/' :: r => consFst '/' <$> parseJStrAux fuel r
    | '\\' :: 'b' :: r => consFst (Char.ofNat 8) <$> parseJStrAux fuel r
    | '\\' :: 'f' :: r => consFst (Char.ofNat 12) <$> parseJStrAux fuel r
    | '\\' :: 'n' :: r => consFst '\n' <$> parseJStrAux fuel r
    | '\\' :: 'r' :: r => consFst (Char.ofNat 13) <$> parseJStrAux fuel r
    | '\\' :: 't' :: r => consFst '\t' <$> parseJStrAux fuel r
    | '\\' :: 'u' :: a :: b :: c :: d :: r =>
        match unescHex4 a b c d with
        | none => none
        | some v =>
            if 0xd800 ≤ v ∧ v < 0xdc00 then
              match r with
              | '\\' :: 'u' :: e :: f :: g :: h :: r2 =>
                  match unescHex4 e f g h with
                  | none => none
                  | some w =>
                      if 0xdc00 ≤ w ∧ w < 0xe000 then
                        consFst (Char.ofNat (0x10000 + (v - 0xd800) * 0x400 + (w - 0xdc00))) <$>
                          parseJStrAux fuel r2
                      else none
              | _ => none
            else if 0xdc00 ≤ v ∧ v < 0xe000 then none
            else consFst (Char.ofNat v) <$> parseJStrAux fuel r
    | '\\' :: _ => none
    | c :: r => if c.toNat < 0x20 then none else consFst c <$> parseJStrAux fuel r

/-- Parse the body of a JSON string literal after the opening quote (fuelled
wrapper; the fuel is sufficient for any input). -/
def parseJStr (cs : List Char) : Option (Str × List Char) :=
  parseJStrAux (cs.length + 1) cs

/-- JSON whitespace skipping (`json.loads` tolerates surrounding space). -/
def skipWsJ (s : List Char) : List Char := s.dropWhile (fun c => isWs c)

/-- `json.loads(s)` for a string literal. -/
def jsonLoadsStr (s : Str) : Option Str :=
  match skipWsJ s with
  | '"' :: r =>
      match parseJStr r with
      | none => none
      | some (content, rest) => if skipWsJ rest = [] then some content else none
  | _ => none

/-- `save_comments(stream)` (engine.py lines 305–307). -/
def save_comments (comments : List (Nat × Str)) : List Str :=
  (sortByKey comments).map (fun p => hex8 p.1 ++ [' '] ++ jsonDumpsStr p.2)

/-- `load_comments(stream)` (engine.py lines 309–313). -/
def load_comments (lines : List Str) (tbl : List (Nat × Str)) :
    Except PyErr (List (Nat × Str)) :=
  match lines with
  | [] => .ok tbl
  | l :: rest =>
      match splitN1 l with
      | none => .error .valueError
      | some (v0, v1) =>
          match int16 v0 with
          | .error e => .error e
          | .ok addr =>
              match jsonLoadsStr v1 with
              | none => .error .valueError
              | some c => load_comments rest (dictSet tbl addr c)

/-! ### `json.dumps` / `json.loads` for the arg-props objects

An arg-props value is a dict from operand index (int) to a dict from
property name (string) to a value; values are modelled as naturals (the core
stores the plugin's operand-type constants).  `json.dumps` prints int keys
as quoted decimal strings with `", "` and `": "` separators in insertion
order; the loader turns the outer string keys back into ints. -/

/-- Join with a separator. -/
def joinSep (sep : Str) : List Str → Str
  | [] => []
  | [x] => x
  | x :: y :: rest => x ++ sep ++ joinSep sep (y :: rest)

/-- `json.dumps` of a `{str: int}` dict. -/
def dumpsInnerObj (m : List (Str × Nat)) : Str :=
  ['\x7b'] ++ joinSep (", ".data) (m.map (fun p => jsonDumpsStr p.1 ++ (": ".data) ++ natToDec p.2))
    ++ ['\x7d']

/-- `json.dumps` of one arg-props table value (a `{int: {str: int}}` dict). -/
def dumpsArgProps (m : List (Nat × List (Str × Nat))) : Str :=
  ['\x7b'] ++ joinSep (", ".data)
      (m.map (fun p => jsonDumpsStr (natToDec p.1) ++ (": ".data) ++ dumpsInnerObj p.2))
    ++ ['\x7d']

/-- Parse a run of decimal digits as a natural number. -/
def parseNatDec (cs : List Char) : Option (Nat × List Char) :=
  let ds := cs.takeWhile (fun c => (decDigit? c).isSome)
  let rest := cs.dropWhile (fun c => (decDigit? c).isSome)
  match ds, parseDigits decDigit? 10 ds 0 with
  | [], _ => none
  | _, none => none
  | _, some n => some (n, rest)

/-- Parse the entries of a `{str: int}` object after its opening brace
(first entry pending). -/
def parseInnerEntries : Nat → List Char → Option (List (Str × Nat) × List Char)
  | 0, _ => none
  | fuel + 1, cs =>
      match skipWsJ cs with
      | '"' :: r =>
          match parseJStr r with
          | none => none
          | some (key, r1) =>
              match skipWsJ r1 with
              | ':' :: r2 =>
                  match parseNatDec (skipWsJ r2) with
                  | none => none
                  | some (v, r3) =>
                      match skipWsJ r3 with
                      | ',' :: r4 =>
                          match parseInnerEntries fuel r4 with
                          | none => none
                          | some (es, r5) => some ((key, v) :: es, r5)
                      | '\x7d' :: r4 => some ([(key, v)], r4)
                      | _ => none
              | _ => none
      | _ => none

/-- Parse a `{str: int}` object. -/
def parseInnerObj (fuel : Nat) (cs : List Char) : Option (List (Str × Nat) × List Char) :=
  match skipWsJ cs with
  | '\x7b' :: r =>
      match skipWsJ r with
      | '\x7d' :: r2 => some ([], r2)
      | _ => parseInnerEntries fuel r
  | _ => none

/-- Parse the entries of the outer `{str: {str: int}}` object. -/
def parseOuterEntries : Nat → List Char → Option (List (Str × List (Str × Nat)) × List Char)
  | 0, _ => none
  | fuel + 1, cs =>
      match skipWsJ cs with
      | '"' :: r =>
          match parseJStr r with
          | none => none
          | some (key, r1) =>
              match skipWsJ r1 with
              | ':' :: r2 =>
                  match parseInnerObj fuel r2 with
                  | none => none
                  | some (v, r3) =>
                      match skipWsJ r3 with
                      | ',' :: r4 =>
                          match parseOuterEntries fuel r4 with
                          | none => none
                          | some (es, r5) => some ((key, v) :: es, r5)
                      | '\x7d' :: r4 => some ([(key, v)], r4)
                      | _ => none
              | _ => none
      | _ => none

/-- Parse the outer object of an arg-props JSON value. -/
def parseOuterObj (fuel : Nat) (cs : List Char) :
    Option (List (Str × List (Str × Nat)) × List Char) :=
  match skipWsJ cs with
  | '\x7b' :: r =>
      match skipWsJ r with
      | '\x7d' :: r2 => some ([], r2)
      | _ => parseOuterEntries fuel r
  | _ => none

/-- `json.loads` of an arg-props value: the whole input must be one object. -/
def loadsArgProps (s : Str) : Option (List (Str × List (Str × Nat))) :=
  match parseOuterObj (s.length + 1) s with
  | none => none
  | some (obj, rest) => if skipWsJ rest = [] then some obj else none

/-- `save_arg_props(stream)` (engine.py lines 315–317). -/
def save_arg_props (ap : List (Nat × List (Nat × List (Str × Nat)))) : List Str :=
  (sortByKey ap).map (fun p => hex8 p.1 ++ [' '] ++ dumpsArgProps p.2)

/-- `load_arg_props(stream)` (engine.py lines 319–326): parse the JSON
object, then convert its keys back to integers (`{int(k): v}`). -/
def load_arg_props (lines : List Str) (tbl : List (Nat × List (Nat × List (Str × Nat)))) :
    Except PyErr (List (Nat × List (Nat × List (Str × Nat)))) :=
  match lines with
  | [] => .ok tbl
  | l :: rest =>
      match splitN1 l with
      | none => .error .valueError
      | some (v0, v1) =>
          match int16 v0 with
          | .error e => .error e
          | .ok addr =>
              match loadsArgProps v1 with
              | none => .error .valueError
              | some obj =>
                  match obj.mapM (fun p => (int10 p.1).map (fun k => (k, p.2))) with
                  | .error e => .error e
                  | .ok props => load_arg_props rest (dictSet tbl addr props)

/-- `save_xrefs(stream)` (engine.py lines 328–334): per target in increasing
order, the target line, one `"%08x %s"` line per source in increasing order,
then a blank line. -/
def save_xrefs (xr : List (Nat × List (Nat × Str))) : List Str :=
  ((sortByKey xr).map (fun p =>
      hex8 p.1 :: (sortByKey p.2).map (fun q => hex8 q.1 ++ [' '] ++ q.2) ++ [[]])).flatten

/-- `load_xrefs(stream)` (engine.py lines 336–347) as a two-mode line
machine: in outer mode a blank (or EOF) stops, otherwise the line is the
target address; in inner mode a blank returns to outer mode, otherwise the
line is `"<from> <tag>"` recorded via `setdefault`. -/
def loadXrefsLoop (tbl : List (Nat × List (Nat × Str))) (cur : Option Nat) :
    List Str → Except PyErr (List (Nat × List (Nat × Str)))
  | [] => .ok tbl
  | l :: rest =>
      let l' := rstripWs l
      match cur with
      | none =>
          if l' = [] then .ok tbl
          else
            match int16 l' with
            | .error e => .error e
            | .ok addr => loadXrefsLoop tbl (some addr) rest
      | some addr =>
          if l' = [] then loadXrefsLoop tbl none rest
          else
            match splitWs l' with
            | [v0, v1] =>
                match int16 v0 with
                | .error e => .error e
                | .ok fa =>
                    let inner := (tbl.lookup addr).getD []
                    loadXrefsLoop (dictSet tbl addr (dictSet inner fa v1)) (some addr) rest
            | _ => .error .valueError

/-- `load_xrefs(stream)` (engine.py lines 336–347). -/
def load_xrefs (lines : List Str) (tbl : List (Nat × List (Nat × Str))) :
    Except PyErr (List (Nat × List (Nat × Str))) :=
  loadXrefsLoop tbl none lines

/-- Fuelled body of `chunksOf32` (the fuel bounds the number of chunks). -/
def chunksAux : Nat → List Nat → List (List Nat)
  | 0, _ => []
  | fuel + 1, l =>
      match l with
      | [] => []
      | c :: rest => ((c :: rest).take 32) :: chunksAux fuel ((c :: rest).drop 32)

/-- `flags[i:i+32]` chunking of `save_areas` (engine.py lines 353–359). -/
def chunksOf32 (l : List Nat) : List (List Nat) := chunksAux l.length l

/-- `binascii.hexlify` (lowercase, two digits per byte). -/
def hexlify (bs : List Nat) : Str :=
  (bs.map (fun b => [hexChar (b / 16), hexChar (b % 16)])).flatten

/-- `binascii.unhexlify`: hex digit pairs back to bytes; odd length or a
non-hex digit raises. -/
def unhexlify : Str → Except PyErr (List Nat)
  | [] => .ok []
  | [_] => .error .valueError
  | a :: b :: rest =>
      match hexDigit? a, hexDigit? b with
      | some x, some y =>
          match unhexlify rest with
          | .error e => .error e
          | .ok t => .ok ((x * 16 + y) :: t)
      | _, _ => .error .valueError

/-- `save_areas(stream)` (engine.py lines 349–360): per area, the
`"%08x %08x"` header, the hexlified flag bytes in 32-byte chunks, a blank
line. -/
def save_areas (areas : List Area) : List Str :=
  (areas.map (fun a =>
      (hex8 a.start ++ [' '] ++ hex8 a.stop) :: (chunksOf32 a.flags).map hexlify ++ [[]])).flatten

/-- The slice assignment `flags[i:i+len(l)] = l` (in-range form). -/
def overwriteAt (buf : List Nat) (i : Nat) (seg : List Nat) : List Nat :=
  buf.take i ++ seg ++ buf.drop (i + seg.length)

/-- The chunk-reading loop of `load_areas` (engine.py lines 368–375): read
lines until a blank (or EOF), unhexlify each and write it into the flag
buffer at the running offset; returns the new buffer and the rest of the
stream. -/
def loadAreaChunks (flags : List Nat) (i : Nat) :
    List Str → Except PyErr (List Nat × List Str)
  | [] => .ok (flags, [])
  | l :: rest =>
      let l' := rstripWs l
      if l' = [] then .ok (flags, rest)
      else
        match unhexlify l' with
        | .error e => .error e
        | .ok seg => loadAreaChunks (overwriteAt flags i seg) (i + seg.length) rest

/-- `load_areas(stream)` (engine.py lines 362–375): for each area in order,
read and check the `(start, end)` header (assertion failure on mismatch),
then overwrite its flag buffer chunk by chunk. -/
def load_areas (areas : List Area) (lines : List Str) : Except PyErr (List Area) :=
  match areas with
  | [] => .ok []
  | a :: rest =>
      match lines with
      | [] => .error .indexError
      | l :: ls =>
          match splitWs l with
          | v0 :: v1 :: _ =>
              match int16 v0 with
              | .error e => .error e
              | .ok s0 =>
                  match int16 v1 with
                  | .error e => .error e
                  | .ok s1 =>
                      if a.start = s0 ∧ a.stop = s1 then
                        match loadAreaChunks a.flags 0 ls with
                        | .error e => .error e
                        | .ok (nf, ls') =>
                            match load_areas rest ls' with
                            | .error e => .error e
                            | .ok rs => .ok ({ a with flags := nf } :: rs)
                      else .error .assertionError
          | _ => .error .indexError

/-! ## Spec-side comparison definitions and concrete fixtures -/

/-- The progress-callback schedule of `analyze()`: after `n` decoded
instructions the callback has been invoked exactly at 1000, 2000, …,
`1000 * (n / 1000)`. -/
def cbPattern (n : Nat) : List Nat :=
  (List.range (n / 1000)).map (fun i => 1000 * (i + 1))

/-- Spec formulation for `get_data`'s result: "the little-endian integer
formed from the `sz` bytes at `addr`" (least significant byte first). -/
def leVal : List Nat → Nat
  | [] => 0
  | b :: rest => b + 256 * leVal rest

/-- The frame property of a flag-writing operation: every annotation table,
every area other than the one at index `k`, and — within that area — every
field except the flag bytes at offsets `[off, off + sz)` are unchanged. -/
def framePreserved (s s' : AddressSpace) (k off sz : Nat) : Prop :=
  s'.labels = s.labels ∧ s'.comments = s.comments ∧ s'.xrefs = s.xrefs ∧
  s'.arg_props = s.arg_props ∧
  s'.area_list.length = s.area_list.length ∧
  (∀ j, j ≠ k → s'.area_list[j]? = s.area_list[j]?) ∧
  (∀ a a', s.area_list[k]? = some a → s'.area_list[k]? = some a' →
     a'.start = a.start ∧ a'.stop = a.stop ∧ a'.props = a.props ∧
     a'.bytes = a.bytes ∧ a'.flags.length = a.flags.length ∧
     (∀ p, p < off ∨ off + sz ≤ p → a'.flags[p]? = a.flags[p]?))

/-- Number of rendered lines whose address is at least `target`. -/
def countAtLeast (target : Int) (ls : List LineObj) : Nat :=
  (ls.filter (fun lo => (lo.line.ea : Int) ≥ target)).length

/-- Number of rendered non-virtual ("real") lines whose address is at least
`target`: one per unit, the lines that consume the budget. -/
def countRealAtLeast (target : Int) (ls : List LineObj) : Nat :=
  (ls.filter (fun lo => !lo.line.virtual && ((lo.line.ea : Int) ≥ target))).length

/-- Fixture: a single one-byte area `[0, 0]`. -/
def asOne : AddressSpace := add_area emptyAS 0 0 []

/-- Fixture: a single three-byte area `[0, 2]`. -/
def asThree : AddressSpace := add_area emptyAS 0 2 []

/-- Fixture: the render scenario — one area `[0, 3]`, all bytes and flags
zero, an auto label at 1 and an xref from 3 to 1 tagged `"j"`. -/
def asRender : AddressSpace :=
  add_xref (make_auto_label (add_area emptyAS 0 3 []) 1) 3 1 ("j".data)

/-- A processor stub for rendering runs that contain no `CODE` flags (the
decoder is never consulted; any call errors out). -/
def noAna : Nat → Except PyErr Nat := fun _ => .error .typeError


/-- The conditions under which a label entry survives the save/load cycle:
an integer marker must be the auto marker (the address itself), and a string
label must be nonempty without whitespace (the loader splits the line on
whitespace and keeps only the second field). -/
def labelOK : Nat × LabelVal → Bool
  | (a, .num n) => n = a
  | (_, .str t) => !t.isEmpty && t.all (fun c => !isWs c)

/-! ## Concrete fixtures for the persistence round-trip -/

def c3L : List (Nat × LabelVal) := [(1, .str ['L'])]
def c3C : List (Nat × Str) := [(2, [' ', '"'])]
def c3A : List (Nat × List (Nat × List (Str × Nat))) := [(3, [(0, [(['p'], 7)])])]
def c3X : List (Nat × List (Nat × Str)) := [(4, [(1, ['j'])])]
def c3Ar : List Area := [⟨0, 1, [], [0, 0], [4, 8]⟩]
def c3Ar2 : List Area := [⟨0, 1, [], [0, 0], [9, 9]⟩]


/-! ## Rendering around an address: supporting definitions (engine.py lines 684-789) -/

/-- A continuation flag (a byte inside a unit). -/
def isCont (f : Nat) : Bool := f = CODE_CONT || f = DATA_CONT

/-- Every flag strictly between `i` and `i'` is a continuation. -/
def contRange (a : Area) (i i' : Nat) : Bool :=
  ((a.flags.drop (i + 1)).take (i' - (i + 1))).all isCont

/-- Executable well-formedness of one area for the renderer: marching from
offset `i`, every visited position is a unit head (not a continuation flag),
the unit dispatch succeeds, makes progress, skips only continuation bytes,
and the march ends exactly at the end of the flag buffer. -/
def marchOK (s : AddressSpace) (ana : Nat → Except PyErr Nat) (a : Area) :
    Nat → Nat → Bool
  | fuel, i =>
    if i = a.flags.length then true
    else
      match fuel with
      | 0 => false
      | fuel + 1 =>
        if h : i < a.flags.length then
          !isCont a.flags[i] &&
          (match renderUnit s ana a i (a.start + i) a.flags[i] with
           | .error _ => false
           | .ok (_, i') =>
               decide (i < i') && decide (i' ≤ a.flags.length) &&
                 contRange a i i' && marchOK s ana a fuel i')
        else false

/-- The rendering scenario of the counterexample: one area `[0, 2]` holding a
two-byte data unit followed by an unknown byte. -/
def c6AS : AddressSpace :=
  ⟨[⟨0, 2, [], [7, 7, 7], [DATA, DATA_CONT, UNK]⟩], [], [], [], []⟩

/-- The model facts preserved by every rendering step: the target address is
unchanged and the latched line numbers are `-1` or genuine indices. -/
def mOK (T : Int) (m : Model) : Prop :=
  m.target_addr = T ∧
  (m.target_addr_lineno = -1 ∨ 0 ≤ m.target_addr_lineno) ∧
  (m.target_addr_lineno_0 = -1 ∨ 0 ≤ m.target_addr_lineno_0)

/-- `INV2`: either the march has not yet reached the target address, or the
first target line has already latched `target_addr_lineno_0`. -/
def inv2 (T : Int) (m : Model) : Prop :=
  m.last_addr < T ∨ 0 ≤ m.target_addr_lineno_0

/-- Bundled area well-formedness: sizes match the address ranges. -/
def areaLensOK (s : AddressSpace) : Prop :=
  ∀ a ∈ s.area_list, a.start ≤ a.stop ∧ a.flags.length = a.stop + 1 - a.start

/-- The xref lines the renderer emits at one address (engine.py lines
743–746), as a reusable function of the model. -/
def xrefLines (s : AddressSpace) (addr : Nat) (m : Model) : Model :=
  match get_xrefs s addr with
  | none => m
  | some x => (sortByKey x).foldl (fun mm q => mm.add_line addr (.xref addr q.1 q.2)) m

/-- The label line the renderer emits at one address (engine.py lines
748–750), as a reusable function of the model. -/
def labLineAdd (addr : Nat) (lab : Option Str) (m : Model) : Model :=
  match lab with
  | some t => if t = [] then m else m.add_line addr (.label addr)
  | none => m

end SAB

namespace SAB

/-! ## General helper lemmas -/

/-- Or-ing a value below `2 ^ k` with a value shifted left by `k` is
addition: the bit ranges are disjoint. -/
theorem lor_shiftLeft_eq_add (k : Nat) :
    ∀ a b : Nat, a < 2 ^ k → a ||| (b <<< k) = a + (b <<< k) := by
  induction k with
  | zero =>
      intro a b h
      have ha : a = 0 := by omega
      subst ha
      simp
  | succ k ih =>
      intro a b h
      have hb : b <<< (k + 1) = Nat.bit false (b <<< k) := by
        simp only [Nat.bit_val, Bool.toNat_false, Nat.shiftLeft_succ]
        omega
      have ha : a = Nat.bit (a.testBit 0) (a >>> 1) :=
        (Nat.bit_testBit_zero_shiftRight_one a).symm
      conv_lhs => rw [ha, hb]
      rw [Nat.lor_bit]
      have h1 : a >>> 1 < 2 ^ k := by
        rw [Nat.shiftRight_one]
        have h2 : 2 ^ (k + 1) = 2 * 2 ^ k := by ring
        omega
      rw [ih (a >>> 1) b h1]
      have ht : (a.testBit 0).toNat = a % 2 := by
        rw [Nat.testBit_zero a]
        rcases Nat.mod_two_eq_zero_or_one a with h2 | h2 <;> rw [h2] <;> simp
      have haval : a = 2 * (a >>> 1) + (a.testBit 0).toNat := by
        rw [Nat.shiftRight_one, ht]
        omega
      have hb2 : b <<< (k + 1) = 2 * (b <<< k) := by
        rw [Nat.shiftLeft_succ]
        try ring
      simp only [Nat.bit_val, Bool.or_false]
      omega

/-- The accumulation loop of `get_data` computes the little-endian value of
the byte window, provided the window is in range, the bytes are bytes, and
the accumulator fits below the next bit position. -/
theorem getDataLoop_ok (off : Nat) (a : Area) (hb : ∀ b ∈ a.bytes, b < 256) :
    ∀ n i val, off + i + n ≤ a.bytes.length → val < 2 ^ (8 * i) →
      getDataLoop (some (off, a)) i n val =
        .ok (val + 2 ^ (8 * i) * leVal ((a.bytes.drop (off + i)).take n)) := by
  intro n
  induction n with
  | zero =>
      intro i val hlen hv
      simp [getDataLoop, leVal]
  | succ n ih =>
      intro i val hlen hv
      have hoff : off + i < a.bytes.length := by omega
      simp only [getDataLoop]
      rw [List.getElem?_eq_getElem hoff]
      have hbv : a.bytes[off + i] < 256 := hb _ (List.getElem_mem hoff)
      have hor : val ||| (a.bytes[off + i] <<< (8 * i))
          = val + a.bytes[off + i] * 2 ^ (8 * i) := by
        rw [lor_shiftLeft_eq_add (8 * i) val a.bytes[off + i] hv, Nat.shiftLeft_eq]
      have hv' : val ||| (a.bytes[off + i] <<< (8 * i)) < 2 ^ (8 * (i + 1)) := by
        rw [hor]
        have h8 : 2 ^ (8 * (i + 1)) = 2 ^ (8 * i) * 256 := by
          have h9 : 8 * (i + 1) = 8 * i + 8 := by omega
          rw [h9, pow_add]
          norm_num
        have h10 : a.bytes[off + i] * 2 ^ (8 * i) ≤ 255 * 2 ^ (8 * i) :=
          Nat.mul_le_mul_right _ (by omega)
        omega
      show getDataLoop (some (off, a)) (i + 1) n (val ||| a.bytes[off + i] <<< (8 * i)) = _
      rw [ih (i + 1) _ (by omega) hv']
      have hdrop : a.bytes.drop (off + i) = a.bytes[off + i] :: a.bytes.drop (off + i + 1) :=
        List.drop_eq_getElem_cons hoff
      rw [hdrop, List.take_succ_cons]
      simp only [leVal]
      have h8 : 2 ^ (8 * (i + 1)) = 2 ^ (8 * i) * 256 := by
        have h9 : 8 * (i + 1) = 8 * i + 8 := by omega
        rw [h9, pow_add]
        norm_num
      rw [hor, h8]
      have harr : off + i + 1 = off + (i + 1) := by omega
      rw [harr]
      congr 1
      ring

/-- Fuelled version: `scanContAux` over a run of `m` copies of `f`
terminated by a different flag returns `sz + m` when the fuel exceeds `m`. -/
theorem scanContAux_ok (flags : List Nat) (f : Nat) :
    ∀ m fuel off sz, m < fuel →
      (∀ j, j < m → flags[off + j]? = some f) →
      (∃ v, flags[off + m]? = some v ∧ v ≠ f) →
      scanContAux flags f fuel off sz = .ok (sz + m) := by
  intro m
  induction m with
  | zero =>
      intro fuel off sz hfuel hrun hstop
      obtain ⟨v, hv, hvf⟩ := hstop
      rw [Nat.add_zero] at hv
      rcases List.getElem?_eq_some_iff.mp hv with ⟨hlt, hev⟩
      cases fuel with
      | zero => omega
      | succ fuel =>
          rw [scanContAux, dif_pos hlt]
          dsimp only
          rw [if_neg (by simp [hev, hvf])]
          simp
  | succ m ih =>
      intro fuel off sz hfuel hrun hstop
      have h0 : flags[off + 0]? = some f := hrun 0 (by omega)
      rw [Nat.add_zero] at h0
      rcases List.getElem?_eq_some_iff.mp h0 with ⟨hlt, hf⟩
      cases fuel with
      | zero => omega
      | succ fuel =>
          rw [scanContAux, dif_pos hlt]
          dsimp only
          rw [if_pos hf]
          have heq : scanContAux flags f fuel (off + 1) (sz + 1) = .ok ((sz + 1) + m) := by
            apply ih fuel (off + 1) (sz + 1) (by omega)
            · intro j hj
              have hx := hrun (j + 1) (by omega)
              have hy : off + (j + 1) = off + 1 + j := by omega
              rw [hy] at hx
              exact hx
            · obtain ⟨v, hv, hvf⟩ := hstop
              refine ⟨v, ?_, hvf⟩
              have hy : off + 1 + m = off + (m + 1) := by omega
              rw [hy]
              exact hv
          rw [heq]
          congr 1
          omega

/-- `scanCont` over a run of `m` copies of `f` terminated by a different
flag returns `sz + m`. -/
theorem scanCont_ok (flags : List Nat) (f : Nat) :
    ∀ m off sz, (∀ j, j < m → flags[off + j]? = some f) →
      (∃ v, flags[off + m]? = some v ∧ v ≠ f) →
      scanCont flags f off sz = .ok (sz + m) := by
  intro m off sz hrun hstop
  obtain ⟨v, hv, hvf⟩ := hstop
  have hm : off + m < flags.length := (List.getElem?_eq_some_iff.mp hv).1
  unfold scanCont
  exact scanContAux_ok flags f m (flags.length - off) off sz (by omega) hrun ⟨v, hv, hvf⟩

/-- Pointwise description of `listModify`. -/
theorem listModify_getElem? {α : Type} (g : α → α) :
    ∀ (l : List α) (k j : Nat),
      (listModify l k g)[j]? = if j = k then (l[j]?).map g else l[j]? := by
  intro l
  induction l with
  | nil => intro k j; simp [listModify]
  | cons x rest ih =>
      intro k j
      cases k with
      | zero =>
          cases j with
          | zero => simp [listModify]
          | succ j => simp [listModify]
      | succ k =>
          cases j with
          | zero => simp [listModify]
          | succ j =>
              simp only [listModify, List.getElem?_cons_succ]
              rw [ih k j]
              by_cases hjk : j = k <;> simp [hjk]

/-- `listModify` preserves length. -/
theorem listModify_length {α : Type} (g : α → α) :
    ∀ (l : List α) (k : Nat), (listModify l k g).length = l.length := by
  intro l
  induction l with
  | nil => intro k; simp [listModify]
  | cons x rest ih =>
      intro k
      cases k with
      | zero => simp [listModify]
      | succ k => simp [listModify, ih]

/-- Pointwise description of `writeRun`: positions in `[off, off + cnt)` hold
`v` (when in range), the rest are untouched. -/
theorem writeRun_getElem? (v : Nat) :
    ∀ (cnt : Nat) (l : List Nat) (off p : Nat),
      (writeRun l off cnt v)[p]? =
        if off ≤ p ∧ p < off + cnt then (l[p]?).map (fun _ => v) else l[p]? := by
  intro cnt
  induction cnt with
  | zero =>
      intro l off p
      simp only [writeRun]
      rw [if_neg (by omega)]
  | succ c ih =>
      intro l off p
      rw [writeRun, ih]
      by_cases hp : off ≤ p ∧ p < off + (c + 1)
      · rw [if_pos hp]
        by_cases hpo : off + 1 ≤ p ∧ p < off + 1 + c
        · rw [if_pos hpo]
          have hne : off ≠ p := by omega
          simp [List.getElem?_set, hne]
        · rw [if_neg hpo]
          have hpe : p = off := by omega
          subst hpe
          by_cases hl : p < l.length
          · simp [List.getElem?_set, hl, List.getElem?_eq_getElem hl]
          · have hnone : l[p]? = none := by
              rw [List.getElem?_eq_none_iff]
              omega
            simp [List.getElem?_set, hl, hnone]
      · rw [if_neg hp]
        have hpo : ¬(off + 1 ≤ p ∧ p < off + 1 + c) := by omega
        rw [if_neg hpo]
        have hne : off ≠ p := by omega
        simp [List.getElem?_set, hne]

/-- Pointwise description of `orRun`: positions in `[off, off + cnt)` get `v`
or-ed in, the rest are untouched. -/
theorem orRun_getElem? (v : Nat) :
    ∀ (cnt : Nat) (l : List Nat) (off p : Nat),
      (orRun l off cnt v)[p]? =
        if off ≤ p ∧ p < off + cnt then (l[p]?).map (fun x => x ||| v) else l[p]? := by
  intro cnt
  induction cnt with
  | zero =>
      intro l off p
      simp only [orRun]
      rw [if_neg (by omega)]
  | succ c ih =>
      intro l off p
      rw [orRun, ih]
      by_cases hp : off ≤ p ∧ p < off + (c + 1)
      · rw [if_pos hp]
        by_cases hpo : off + 1 ≤ p ∧ p < off + 1 + c
        · rw [if_pos hpo]
          have hne : off ≠ p := by omega
          simp [List.getElem?_set, hne]
        · rw [if_neg hpo]
          have hpe : p = off := by omega
          subst hpe
          by_cases hl : p < l.length
          · simp [List.getElem?_set, hl, List.getD_eq_getElem?_getD,
                  List.getElem?_eq_getElem hl]
          · have hnone : l[p]? = none := by
              rw [List.getElem?_eq_none_iff]
              omega
            simp [List.getElem?_set, hl, hnone]
      · rw [if_neg hp]
        have hpo : ¬(off + 1 ≤ p ∧ p < off + 1 + c) := by omega
        rw [if_neg hpo]
        have hne : off ≠ p := by omega
        simp [List.getElem?_set, hne]

/-- `writeRun` preserves length. -/
theorem writeRun_length (v : Nat) :
    ∀ (cnt : Nat) (l : List Nat) (off : Nat), (writeRun l off cnt v).length = l.length := by
  intro cnt
  induction cnt with
  | zero => intro l off; simp [writeRun]
  | succ c ih => intro l off; rw [writeRun, ih]; simp

/-- `orRun` preserves length. -/
theorem orRun_length (v : Nat) :
    ∀ (cnt : Nat) (l : List Nat) (off : Nat), (orRun l off cnt v).length = l.length := by
  intro cnt
  induction cnt with
  | zero => intro l off; simp [orRun]
  | succ c ih => intro l off; rw [orRun, ih]; simp

/-- `findIdx?` returning an index yields an element satisfying the predicate. -/
theorem findIdxP_some {α : Type} (p : α → Bool) (l : List α) (k : Nat)
    (h : l.findIdx? p = some k) : ∃ a, l[k]? = some a ∧ p a = true := by
  rcases List.findIdx?_eq_some_iff_getElem.mp h with ⟨hk, hp, _⟩
  exact ⟨l[k], by simp [List.getElem?_eq_getElem hk], hp⟩

/-- `findIdx?` only looks at the image of the predicate. -/
theorem findIdxP_congr {α β : Type} (p : α → Bool) (q : β → Bool) :
    ∀ (l₁ : List α) (l₂ : List β), l₁.map p = l₂.map q →
      ∀ i : Nat, l₁.findIdx? p i = l₂.findIdx? q i := by
  intro l₁
  induction l₁ with
  | nil =>
      intro l₂ h i
      cases l₂ with
      | nil => rfl
      | cons y r => simp at h
  | cons x rest ih =>
      intro l₂ h i
      cases l₂ with
      | nil => simp at h
      | cons y rest₂ =>
          simp only [List.map_cons, List.cons.injEq] at h
          rw [List.findIdx?_cons, List.findIdx?_cons, h.1]
          by_cases hq : q y
          · simp [hq]
          · simp only [hq, if_false]
            exact ih rest₂ h.2 (i + 1)

/-- `listModify` with a function preserving the predicate image leaves the
image unchanged. -/
theorem listModify_map_congr {α : Type} (p : α → Bool) (g : α → α)
    (hg : ∀ x, p (g x) = p x) :
    ∀ (l : List α) (k : Nat), (listModify l k g).map p = l.map p := by
  intro l
  induction l with
  | nil => intro k; simp [listModify]
  | cons x rest ih =>
      intro k
      cases k with
      | zero => simp [listModify, hg]
      | succ k => simp [listModify, ih]

/-- `findIdx?` is unchanged by `listModify` with a predicate-preserving
function. -/
theorem findIdxP_listModify {α : Type} (p : α → Bool) (g : α → α)
    (hg : ∀ x, p (g x) = p x) (l : List α) (k : Nat) :
    (listModify l k g).findIdx? p = l.findIdx? p :=
  findIdxP_congr p p (listModify l k g) l (listModify_map_congr p g hg l k) 0

/-! ## Address-resolution lemmas -/

/-- The area found by `addr2idx` contains the address. -/
theorem addr2idx_some (s : AddressSpace) (addr k : Nat)
    (h : addr2idx s addr = some k) :
    ∃ a, s.area_list[k]? = some a ∧ a.start ≤ addr ∧ addr ≤ a.stop := by
  obtain ⟨a, ha, hp⟩ := findIdxP_some _ _ _ h
  simp only [decide_eq_true_eq] at hp
  exact ⟨a, ha, hp.1, hp.2⟩

/-- `addr2area` in terms of `addr2idx`. -/
theorem addr2area_of_idx (s : AddressSpace) (addr k : Nat) (a : Area)
    (h : addr2idx s addr = some k) (ha : s.area_list[k]? = some a) :
    addr2area s addr = some (addr - a.start, a) := by
  unfold addr2area
  rw [h]
  dsimp only
  rw [ha]

/-- A flags-only modification of one area leaves `addr2idx` unchanged
(the containment predicate only reads `start` and `stop`). -/
theorem addr2idx_listModify_flags (s : AddressSpace) (k : Nat) (F : List Nat → List Nat)
    (addr : Nat) :
    addr2idx { s with area_list := listModify s.area_list k (fun ar => { ar with flags := F ar.flags }) } addr = addr2idx s addr := by
  unfold addr2idx
  exact findIdxP_listModify (fun a => decide (a.start ≤ addr ∧ addr ≤ a.stop))
    (fun ar => { ar with flags := F ar.flags }) (fun x => rfl) s.area_list k

/-! ## C2: `get_data` error kind and little-endian value

The claim says `get_data` fails with `InvalidAddr` outside every area, "the
same error kind raised by `get_byte` and `get_bytes`".  In the source,
`get_data` (engine.py lines 124–129) has no `area is None` check: it
subscripts `None` and raises `TypeError` instead.  The in-range little-endian
part of the claim is correct. -/

/-- Fixture: the three-byte area of `asThree`. -/
def areaThree : Area := ⟨0, 2, [], List.replicate 3 0, List.replicate 3 0⟩

/-- **C2 counterexample**: address 5 lies outside the only area of `asOne`;
`get_data` raises `TypeError`, not the `InvalidAddrException(5)` that the
claim asserts and that `get_byte`/`get_bytes` do raise. -/
theorem c2_counterexample :
    get_data asOne 5 1 = .error .typeError ∧
    get_data asOne 5 1 ≠ .error (.invalidAddr 5) ∧
    get_byte asOne 5 = .error (.invalidAddr 5) ∧
    get_bytes asOne 5 1 = .error (.invalidAddr 5) := by
  decide

/-- **C2 (amended)**: outside every area `get_data` with `sz ∈ {1, 2, 4}`
fails with `TypeError` — its loop subscripts the missing area — while
`get_byte` and `get_bytes` fail with `InvalidAddr`; with `sz = 0` the loop
never runs and `get_data` returns `0` without error.  For an address inside
an area with the `sz`-byte window in range, `get_data` returns the
little-endian integer of those bytes. -/
theorem c2_theorem :
    (∀ (s : AddressSpace) (addr sz : Nat), sz = 1 ∨ sz = 2 ∨ sz = 4 →
        addr2area s addr = none →
        get_data s addr sz = .error .typeError ∧
        get_byte s addr = .error (.invalidAddr addr) ∧
        get_bytes s addr sz = .error (.invalidAddr addr)) ∧
    (∀ (s : AddressSpace) (addr sz off : Nat) (a : Area),
        addr2area s addr = some (off, a) →
        off + sz ≤ a.bytes.length →
        (∀ b ∈ a.bytes, b < 256) →
        get_data s addr sz = .ok (leVal ((a.bytes.drop off).take sz))) ∧
    (∀ (s : AddressSpace) (addr : Nat), addr2area s addr = none →
        get_data s addr 0 = .ok 0) := by
  refine ⟨?_, ?_, ?_⟩
  · intro s addr sz hsz h
    unfold get_data get_byte get_bytes
    rw [h]
    rcases hsz with rfl | rfl | rfl <;> exact ⟨rfl, rfl, rfl⟩
  · intro s addr sz off a h hlen hb
    unfold get_data
    rw [h]
    have hrun := getDataLoop_ok off a hb sz 0 0 (by omega) (by norm_num)
    simpa using hrun
  · intro s addr h
    unfold get_data
    rw [h]
    rfl

/-- **C2 witness**: all three parts of the amended claim evaluated on
concrete address spaces. -/
theorem c2_witness :
    (addr2area asOne 5 = none ∧ get_data asOne 5 1 = .error .typeError ∧
     get_data asOne 5 0 = .ok 0) ∧
    (addr2area asThree 0 = some (0, areaThree) ∧
     get_data asThree 0 2 = .ok (leVal ((areaThree.bytes.drop 0).take 2))) :=
  ⟨⟨by decide, (c2_theorem.1 asOne 5 1 (Or.inl rfl) (by decide)).1,
    c2_theorem.2.2 asOne 5 (by decide)⟩,
   ⟨by decide, c2_theorem.2.1 asThree 0 2 0 areaThree (by decide) (by decide) (by decide)⟩⟩

/-! ## C10: frame property of the flag-writing operations

True for `sz ≥ 1`; for `sz = 0` the claim fails because all four operations
still write the head flag at `addr` even though `[addr, addr+0)` is empty. -/

/-- Core frame lemma: replacing the flags of area `k` by `F a.flags`, where
`F` preserves length and every position outside `[off, off + sz)`, satisfies
`framePreserved`. -/
theorem frame_of_listModify (s : AddressSpace) (k : Nat) (a : Area) (off sz : Nat)
    (ha : s.area_list[k]? = some a) (F : List Nat → List Nat)
    (hlen : (F a.flags).length = a.flags.length)
    (hout : ∀ p, p < off ∨ off + sz ≤ p → (F a.flags)[p]? = a.flags[p]?) :
    framePreserved s
      { s with area_list := listModify s.area_list k (fun ar => { ar with flags := F a.flags }) }
      k off sz := by
  refine ⟨rfl, rfl, rfl, rfl, listModify_length _ s.area_list k, ?_, ?_⟩
  · intro j hj
    show (listModify s.area_list k _)[j]? = s.area_list[j]?
    rw [listModify_getElem?, if_neg hj]
  · intro a0 a' ha0 ha'
    rw [ha] at ha0
    injection ha0 with h0
    subst h0
    have ha'' : (listModify s.area_list k
        (fun ar => { ar with flags := F a.flags }))[k]? = some a' := ha'
    rw [listModify_getElem?, if_pos rfl, ha] at ha''
    have ha3 : a' = { a with flags := F a.flags } := by
      simpa using ha''.symm
    subst ha3
    exact ⟨rfl, rfl, rfl, rfl, hlen, hout⟩

/-- Fixture: the result of `set_flags(asOne, 0, 0, CODE, 0)`: the head flag
is written even though the range `[0, 0)` is empty. -/
def asOneCode : AddressSpace := ⟨[⟨0, 0, [], [0], [CODE]⟩], [], [], [], []⟩

/-- **C10 counterexample**: with `sz = 0` the claimed frame property fails:
`set_flags(0, 0, CODE)` still writes the head flag at offset 0, which lies
outside the empty range `[0, 0)`. -/
theorem c10_counterexample :
    set_flags asOne 0 0 CODE 0 = .ok asOneCode ∧
    ¬ framePreserved asOne asOneCode 0 0 0 := by
  constructor
  · decide
  · intro h
    have harea := h.2.2.2.2.2.2 ⟨0, 0, [], [0], [0]⟩ ⟨0, 0, [], [0], [1]⟩ (by decide) (by decide)
    have hflag := harea.2.2.2.2.2 0 (by omega)
    simp [asOneCode] at hflag

/-- **C10 (amended)**: for `sz ≥ 1` and `[addr, addr + sz)` inside the found
area, each of `set_flags`, `make_undefined`, `make_code` and `make_data`
succeeds and modifies only the flag bytes at offsets
`[addr - start, addr - start + sz)` of that area: all other flag bytes, the
byte contents, all other areas and all annotation tables are unchanged. -/
theorem c10_theorem (s : AddressSpace) (addr sz k : Nat) (a : Area)
    (hidx : addr2idx s addr = some k) (ha : s.area_list[k]? = some a)
    (hsz : 1 ≤ sz) (hin : (addr - a.start) + sz ≤ a.flags.length)
    (head_fl rest_fl : Nat) :
    (∃ s₁, set_flags s addr sz head_fl rest_fl = .ok s₁ ∧
       framePreserved s s₁ k (addr - a.start) sz) ∧
    (∃ s₂, make_undefined s addr sz = .ok s₂ ∧
       framePreserved s s₂ k (addr - a.start) sz) ∧
    (∃ s₃, make_code s addr sz = .ok s₃ ∧
       framePreserved s s₃ k (addr - a.start) sz) ∧
    (∃ s₄, make_data s addr sz = .ok s₄ ∧
       framePreserved s s₄ k (addr - a.start) sz) := by
  have hset : ∀ head rest : Nat, ∃ s₁, set_flags s addr sz head rest = .ok s₁ ∧
      framePreserved s s₁ k (addr - a.start) sz := by
    intro head rest
    refine ⟨_, by unfold set_flags; rw [hidx]; dsimp only; rw [ha], ?_⟩
    apply frame_of_listModify s k a (addr - a.start) sz ha
      (fun l => writeRun (l.set (addr - a.start) head) ((addr - a.start) + 1) (sz - 1) rest)
    · rw [writeRun_length]
      simp
    · intro p hp
      rw [writeRun_getElem?, if_neg (by omega)]
      have hne : addr - a.start ≠ p := by omega
      simp [List.getElem?_set, hne]
  have hor : ∀ fl : Nat, ∀ cfl : Nat, ∀ l : List Nat,
      (∀ p, p < (addr - a.start) ∨ (addr - a.start) + sz ≤ p →
        (orRun (l.set (addr - a.start) (l.getD (addr - a.start) 0 ||| fl))
           ((addr - a.start) + 1) (sz - 1) cfl)[p]? = l[p]?) := by
    intro fl cfl l p hp
    rw [orRun_getElem?, if_neg (by omega)]
    have hne : addr - a.start ≠ p := by omega
    simp [List.getElem?_set, hne]
  refine ⟨hset head_fl rest_fl, hset UNK UNK, ?_, ?_⟩
  · refine ⟨_, by unfold make_code; rw [hidx]; dsimp only; rw [ha], ?_⟩
    apply frame_of_listModify s k a (addr - a.start) sz ha
      (fun l => orRun (l.set (addr - a.start) (l.getD (addr - a.start) 0 ||| CODE))
                  ((addr - a.start) + 1) (sz - 1) CODE_CONT)
    · rw [orRun_length]
      simp
    · exact fun p hp => hor CODE CODE_CONT a.flags p hp
  · refine ⟨_, by unfold make_data; rw [hidx]; dsimp only; rw [ha], ?_⟩
    apply frame_of_listModify s k a (addr - a.start) sz ha
      (fun l => orRun (l.set (addr - a.start) (l.getD (addr - a.start) 0 ||| DATA))
                  ((addr - a.start) + 1) (sz - 1) DATA_CONT)
    · rw [orRun_length]
      simp
    · exact fun p hp => hor DATA DATA_CONT a.flags p hp

/-! ## C1: `make_code` then `get_unit_size`

The claim as stated fails at the area boundary: `get_unit_size`'s scan
`while flags[off] == f` (engine.py line 148) reads one flag past the unit, so
a unit whose last byte is the last byte of its area raises `IndexError`.
The amended claim additionally requires the byte at `a + n` to exist in the
same area and to be `UNK` initially (which also rules out a stale
continuation flag at `a + n` extending the scan). -/

/-- **C1 counterexample**: on the one-byte area `[0,0]` with its single flag
`UNK`, `make_code(0, 1)` succeeds, but `get_unit_size(0)` raises
`IndexError` instead of returning 1: the continuation scan reads `flags[1]`
which is out of range. -/
theorem c1_counterexample :
    make_code asOne 0 1 = .ok asOneCode ∧
    get_unit_size asOneCode 0 = .error .indexError := by
  decide

/-- Head flag after `mkCodeFlags` on an initially-`UNK` head. -/
theorem mkCodeFlags_head (a : Area) (off n : Nat) (hoff : off < a.flags.length)
    (h0 : a.flags[off]? = some UNK) :
    (mkCodeFlags a off n)[off]? = some CODE := by
  unfold mkCodeFlags
  rw [orRun_getElem?, if_neg (by omega)]
  have hg0 : a.flags.getD off 0 = UNK := by
    rw [List.getD_eq_getElem?_getD, h0]
    rfl
  rw [hg0]
  simp [List.getElem?_set, hoff, UNK, CODE]

/-- Continuation flags after `mkCodeFlags` on initially-`UNK` positions. -/
theorem mkCodeFlags_cont (a : Area) (off n : Nat) (j : Nat) (h1 : 1 ≤ j) (h2 : j < n)
    (hj : a.flags[off + j]? = some UNK) :
    (mkCodeFlags a off n)[off + j]? = some CODE_CONT := by
  unfold mkCodeFlags
  rw [orRun_getElem?, if_pos (by omega)]
  have hne : off ≠ off + j := by omega
  rw [List.getElem?_set_ne hne, hj]
  rfl

/-- Positions at or past `off + n` are untouched by `mkCodeFlags`. -/
theorem mkCodeFlags_past (a : Area) (off n : Nat) (p : Nat) (hp : off + n ≤ p) (hn : 1 ≤ n) :
    (mkCodeFlags a off n)[p]? = a.flags[p]? := by
  unfold mkCodeFlags
  rw [orRun_getElem?, if_neg (by omega)]
  have hne : off ≠ p := by omega
  rw [List.getElem?_set_ne hne]

/-- **C1 (amended)**: if `[a, a + n]` (one byte beyond the new unit) lies
inside the found area and all flags in `[a, a + n]` are initially `UNK`,
then after `make_code(a, n)` the flag at `a` is `CODE`, `get_unit_size(a)`
returns `n`, and every flag in `[a + 1, a + n)` is `CODE_CONT`. -/
theorem c1_theorem (s : AddressSpace) (addr n k : Nat) (a : Area)
    (hidx : addr2idx s addr = some k) (ha : s.area_list[k]? = some a)
    (hn : 1 ≤ n) (hin : (addr - a.start) + n < a.flags.length)
    (hunk : ∀ j, j ≤ n → a.flags[(addr - a.start) + j]? = some UNK) :
    ∃ s' a', make_code s addr n = .ok s' ∧ s'.area_list[k]? = some a' ∧
      a'.flags[(addr - a.start)]? = some CODE ∧
      get_unit_size s' addr = .ok n ∧
      (∀ j, 1 ≤ j → j < n → a'.flags[(addr - a.start) + j]? = some CODE_CONT) := by
  have hoff : addr - a.start < a.flags.length := by omega
  have h0 : a.flags[(addr - a.start)]? = some UNK := by
    have hh := hunk 0 (by omega)
    rw [Nat.add_zero] at hh
    exact hh
  have hhead := mkCodeFlags_head a (addr - a.start) n hoff h0
  have hstop : (mkCodeFlags a (addr - a.start) n)[(addr - a.start) + n]? = some UNK := by
    rw [mkCodeFlags_past a (addr - a.start) n ((addr - a.start) + n) (by omega) hn]
    exact hunk n (by omega)
  have hidx' : addr2idx { s with area_list := listModify s.area_list k (fun ar => { ar with flags := mkCodeFlags a (addr - a.start) n }) } addr = some k := by
    have hmod := addr2idx_listModify_flags s k (fun _ => mkCodeFlags a (addr - a.start) n) addr
    rw [hmod]
    exact hidx
  have harea : (listModify s.area_list k (fun ar => { ar with flags := mkCodeFlags a (addr - a.start) n }))[k]? = some { a with flags := mkCodeFlags a (addr - a.start) n } := by
    rw [listModify_getElem?, if_pos rfl, ha]
    rfl
  refine ⟨_, { a with flags := mkCodeFlags a (addr - a.start) n },
      by unfold make_code; rw [hidx]; dsimp only; rw [ha], harea, hhead, ?_, ?_⟩
  · unfold get_unit_size
    have haa : addr2area { s with area_list := listModify s.area_list k (fun ar => { ar with flags := mkCodeFlags a (addr - a.start) n }) } addr = some (addr - a.start, { a with flags := mkCodeFlags a (addr - a.start) n }) :=
      addr2area_of_idx _ addr k _ hidx' harea
    rw [haa]
    dsimp only
    rw [hhead]
    dsimp only
    rw [if_pos rfl]
    have hscan : scanCont (mkCodeFlags a (addr - a.start) n) CODE_CONT
        ((addr - a.start) + 1) 1 = .ok (1 + (n - 1)) := by
      apply scanCont_ok
      · intro j hj
        have hh := mkCodeFlags_cont a (addr - a.start) n (j + 1) (by omega) (by omega)
          (hunk (j + 1) (by omega))
        have he : addr - a.start + (j + 1) = addr - a.start + 1 + j := by omega
        rw [he] at hh
        exact hh
      · refine ⟨UNK, ?_, by decide⟩
        have he : addr - a.start + 1 + (n - 1) = addr - a.start + n := by omega
        rw [he]
        exact hstop
    rw [hscan]
    congr 1
    omega
  · intro j h1 h2
    exact mkCodeFlags_cont a (addr - a.start) n j h1 h2 (hunk j (by omega))

/-- **C1 witness**: the amended statement at a concrete input: area `[0,2]`,
all flags `UNK`, `make_code(0, 2)`. -/
theorem c1_witness :
    addr2idx asThree 0 = some 0 ∧
    (∃ s' a', make_code asThree 0 2 = .ok s' ∧ s'.area_list[0]? = some a' ∧
      a'.flags[(0 - areaThree.start)]? = some CODE ∧
      get_unit_size s' 0 = .ok 2 ∧
      (∀ j, 1 ≤ j → j < 2 → a'.flags[(0 - areaThree.start) + j]? = some CODE_CONT)) :=
  ⟨by decide, c1_theorem asThree 0 2 0 areaThree (by decide) (by decide) (by decide)
      (by decide) (fun j hj => by interval_cases j <;> decide)⟩

/-! ## C4: the concrete rendering scenario

The claim's expected sequence begins with `Literal("; Start of 0x0 area")`,
but `render_partial` never emits a start delimiter for the first area it
processes (the `start` flag skips it, engine.py lines 728–732), regardless
of the offset.  The actual sequence is the claimed one without that first
literal, and `addr2line[(1, -1)]` is 3, not 4. -/

/-- The line sequence the claim asserts (with the start delimiter). -/
def c4ClaimLines : List Line :=
  [.literal 0 ("; Start of 0x0 area".data), .unknown 0 0, .xref 1 3 ("j".data),
   .label 1, .unknown 1 0, .unknown 2 0, .unknown 3 0,
   .literal 3 ("; End of 0x0 area".data)]

/-- **C4 counterexample**: rendering the scenario from area 0, offset 0 does
not produce the claimed sequence (no start delimiter is emitted for the
first area), and `addr2line[(1, -1)]` is not the index the claimed sequence
would give. -/
theorem c4_counterexample :
    ((render_win asRender noAna (Model.init 0 0) 0 0 100 (-1)).1.lines.map
        (fun lo => lo.line)) ≠ c4ClaimLines ∧
    (render_win asRender noAna (Model.init 0 0) 0 0 100 (-1)).1.addr2line.lookup (1, -1)
      ≠ some 4 := by
  decide

/-- **C4 (amended)**: the rendering produces exactly, in order: Unknown at
0, Xref at 1 from 3 tagged `"j"`, Label at 1, Unknown at 1, Unknown at 2,
Unknown at 3, `Literal("; End of 0x0 area")` — with no start delimiter for
the first area — the run completes all areas, and `addr2line[(1, -1)]` is 3,
the line of the Unknown at address 1. -/
theorem c4_theorem :
    ((render_win asRender noAna (Model.init 0 0) 0 0 100 (-1)).1.lines.map
        (fun lo => lo.line)) =
      [.unknown 0 0, .xref 1 3 ("j".data), .label 1, .unknown 1 0, .unknown 2 0,
       .unknown 3 0, .literal 3 ("; End of 0x0 area".data)] ∧
    (render_win asRender noAna (Model.init 0 0) 0 0 100 (-1)).2 = .finished ∧
    (render_win asRender noAna (Model.init 0 0) 0 0 100 (-1)).1.addr2line.lookup (1, -1)
      = some 3 := by
  decide

/-! ## C5: the budget credit before the target

The claim says the budget is incremented "for each emitted line" before the
target and that the number of *lines* at addresses ≥ target equals the
requested budget.  In the code (engine.py lines 740–741, 785) both the
credit and the debit happen once per *unit*, not per line: xref and label
lines consume no budget.  Rendering the C4 scenario with `target_addr = 1`
and budget 3 emits five lines at addresses ≥ 1 (xref, label and three
unknowns).  The amended claim counts non-virtual lines. -/

/-- `add_line` only appends to the line list. -/
theorem add_line_lines (m : Model) (addr : Nat) (l : Line) :
    (m.add_line addr l).lines =
      m.lines ++ [⟨l, if (addr : Int) ≠ m.last_addr then 0 else m.subcnt⟩] := by
  unfold Model.add_line
  dsimp only
  split_ifs <;> rfl

/-- Counting effect of one `add_line`. -/
theorem countReal_add_line (t : Int) (m : Model) (addr : Nat) (l : Line) :
    countRealAtLeast t ((m.add_line addr l).lines) =
      countRealAtLeast t m.lines +
        (if !l.virtual && ((l.ea : Int) ≥ t) then 1 else 0) := by
  rw [add_line_lines]
  unfold countRealAtLeast
  rw [List.filter_append, List.length_append]
  by_cases h : (!l.virtual && ((l.ea : Int) ≥ t)) = true <;>
    simp [List.filter_singleton, h]

/-- Virtual lines never change the real-line count. -/
theorem countReal_add_virtual (t : Int) (m : Model) (addr : Nat) (l : Line)
    (hv : l.virtual = true) :
    countRealAtLeast t ((m.add_line addr l).lines) = countRealAtLeast t m.lines := by
  rw [countReal_add_line]
  simp [hv]

/-- The xref-emission fold changes no real-line count. -/
theorem countReal_xfold (t : Int) (addr : Nat) :
    ∀ (l : List (Nat × Str)) (m : Model),
      countRealAtLeast t
        ((l.foldl (fun mm q => mm.add_line addr (.xref addr q.1 q.2)) m).lines) =
      countRealAtLeast t m.lines := by
  intro l
  induction l with
  | nil => intro m; rfl
  | cons q rest ih =>
      intro m
      rw [List.foldl_cons, ih]
      exact countReal_add_virtual t m addr (.xref addr q.1 q.2) rfl

/-- The unit dispatch produces a non-virtual line at the dispatched address. -/
theorem renderUnit_line (s : AddressSpace) (ana : Nat → Except PyErr Nat) (a : Area)
    (i addr f : Nat) (out : Line) (i' : Nat)
    (h : renderUnit s ana a i addr f = .ok (out, i')) :
    out.virtual = false ∧ out.ea = addr := by
  unfold renderUnit at h
  split_ifs at h with h1 h2 h3 h4
  · cases hb : a.bytes[i]? with
    | none => rw [hb] at h; cases h
    | some b =>
        rw [hb] at h
        injection h with h
        injection h with h hi
        subst h
        exact ⟨rfl, rfl⟩
  · cases hs : scanCont a.flags DATA_CONT (i + 1) 1 with
    | error e => rw [hs] at h; cases h
    | ok sz =>
        rw [hs] at h
        dsimp only at h
        cases hd : get_data s addr sz with
        | error e => rw [hd] at h; cases h
        | ok v =>
            rw [hd] at h
            injection h with h
            injection h with h hi
            subst h
            exact ⟨rfl, rfl⟩
  · cases hb : a.bytes[i]? with
    | none => rw [hb] at h; cases h
    | some b =>
        rw [hb] at h
        dsimp only at h
        cases hs : scanStr a.flags a.bytes (i + 1) 1 [Char.ofNat b] with
        | error e => rw [hs] at h; cases h
        | ok p =>
            rw [hs] at h
            cases p with
            | mk sz cs =>
                injection h with h
                injection h with h hi
                subst h
                exact ⟨rfl, rfl⟩
  · cases hn : ana addr with
    | error e => rw [hn] at h; cases h
    | ok insn_sz =>
        rw [hn] at h
        injection h with h
        injection h with h hi
        subst h
        exact ⟨rfl, rfl⟩

/-- One unfolded step of the inner loop body after the xref and label
emissions: accounting for the real line, the budget update and the stop
test.  `m2` is the model after the virtual emissions. -/
theorem renderArea_count (s : AddressSpace) (ana : Nat → Except PyErr Nat) (a : Area)
    (t : Int) :
    ∀ (fuel : Nat) (m : Model) (i : Nat) (nl : Int) (m' : Model) (nl' : Int)
      (st : Option RStop),
      renderArea s ana a m i nl t fuel = (m', nl', st) →
      (st = some .budget → (countRealAtLeast t m'.lines : Int) = countRealAtLeast t m.lines + nl) ∧
      (st = none → (countRealAtLeast t m'.lines : Int) = countRealAtLeast t m.lines + (nl - nl')) := by
  intro fuel
  induction fuel with
  | zero =>
      intro m i nl m' nl' st h
      rw [renderArea] at h
      injection h with h1 h2
      injection h2 with h2 h3
      subst h3
      exact ⟨fun hb => by simp at hb, fun hb => by simp at hb⟩
  | succ fuel ih =>
      intro m i nl m' nl' st h
      rw [renderArea] at h
      by_cases hi : i < a.flags.length
      · rw [dif_pos hi] at h
        dsimp only at h
        have hcnt1 : countRealAtLeast t (match get_xrefs s (a.start + i) with
            | none => m
            | some x => (sortByKey x).foldl
                (fun (mm : Model) (q : Nat × Str) => mm.add_line (a.start + i) (.xref (a.start + i) q.1 q.2)) m).lines
            = countRealAtLeast t m.lines := by
          cases get_xrefs s (a.start + i) with
          | none => rfl
          | some x => exact countReal_xfold t (a.start + i) (sortByKey x) m
        revert h hcnt1
        generalize (match get_xrefs s (a.start + i) with
            | none => m
            | some x => (sortByKey x).foldl
                (fun (mm : Model) (q : Nat × Str) =>
                  mm.add_line (a.start + i) (.xref (a.start + i) q.1 q.2)) m) = m1
        intro h hcnt1
        cases hlab : get_label s (a.start + i) with
        | error e =>
            rw [hlab] at h
            dsimp only at h
            injection h with h1 h2
            injection h2 with h2 h3
            subst h3
            exact ⟨fun hb => by simp at hb, fun hb => by simp at hb⟩
        | ok lab =>
            rw [hlab] at h
            dsimp only at h
            have hcnt2 : countRealAtLeast t (match lab with
                | some lt => if lt = [] then m1 else m1.add_line (a.start + i) (.label (a.start + i))
                | none => m1).lines = countRealAtLeast t m.lines := by
              cases lab with
              | none => exact hcnt1
              | some lt =>
                  dsimp only
                  by_cases hl : lt = []
                  · rw [if_pos hl]
                    exact hcnt1
                  · rw [if_neg hl]
                    rw [countReal_add_virtual t m1 (a.start + i) (.label (a.start + i)) rfl]
                    exact hcnt1
            revert h hcnt2
            generalize (match lab with
                | some lt => if lt = [] then m1 else m1.add_line (a.start + i) (.label (a.start + i))
                | none => m1) = m2
            intro h hcnt2
            cases hun : renderUnit s ana a i (a.start + i) a.flags[i] with
            | error e =>
                rw [hun] at h
                dsimp only at h
                injection h with h1 h2
                injection h2 with h2 h3
                subst h3
                exact ⟨fun hb => by simp at hb, fun hb => by simp at hb⟩
            | ok oi =>
                rw [hun] at h
                cases oi with
                | mk out i' =>
                  dsimp only at h
                  obtain ⟨hvout, heaout⟩ := renderUnit_line s ana a i (a.start + i) _ out i' hun
                  have hge : ¬(t ≥ 0 ∧ ((a.start + i : Nat) : Int) < t) →
                      (((a.start + i : Nat) : Int) ≥ t) := by
                    intro hc
                    have hnn : ((a.start + i : Nat) : Int) ≥ 0 := Int.natCast_nonneg _
                    omega
                  have hcnt3 : countRealAtLeast t ((m2.add_line (a.start + i) out).lines) =
                      countRealAtLeast t m2.lines +
                        (if ((a.start + i : Nat) : Int) ≥ t then 1 else 0) := by
                    rw [countReal_add_line, hvout, heaout]
                    simp
                  by_cases hc : t ≥ 0 ∧ ((a.start + i : Nat) : Int) < t
                  · rw [if_pos hc] at h
                    by_cases hstop : nl + 1 - 1 = 0
                    · rw [if_pos hstop] at h
                      injection h with h1 h2
                      injection h2 with h2 h3
                      subst h3
                      subst h1
                      refine ⟨fun _ => ?_, fun hb => by simp at hb⟩
                      rw [hcnt3, hcnt2, if_neg (by omega)]
                      omega
                    · rw [if_neg hstop] at h
                      have hrec := ih (m2.add_line (a.start + i) out) i' (nl + 1 - 1) m' nl' st h
                      constructor
                      · intro hb
                        have hx := hrec.1 hb
                        rw [hcnt3, hcnt2, if_neg (by omega)] at hx
                        omega
                      · intro hb
                        have hx := hrec.2 hb
                        rw [hcnt3, hcnt2, if_neg (by omega)] at hx
                        omega
                  · rw [if_neg hc] at h
                    have hgea := hge hc
                    by_cases hstop : nl - 1 = 0
                    · rw [if_pos hstop] at h
                      injection h with h1 h2
                      injection h2 with h2 h3
                      subst h3
                      subst h1
                      refine ⟨fun _ => ?_, fun hb => by simp at hb⟩
                      rw [hcnt3, hcnt2, if_pos hgea]
                      omega
                    · rw [if_neg hstop] at h
                      have hrec := ih (m2.add_line (a.start + i) out) i' (nl - 1) m' nl' st h
                      constructor
                      · intro hb
                        have hx := hrec.1 hb
                        rw [hcnt3, hcnt2, if_pos hgea] at hx
                        omega
                      · intro hb
                        have hx := hrec.2 hb
                        rw [hcnt3, hcnt2, if_pos hgea] at hx
                        omega
      · rw [dif_neg hi] at h
        injection h with h1 h2
        injection h2 with h2 h3
        subst h3
        subst h1
        refine ⟨fun hb => by simp at hb, fun _ => ?_⟩
        subst h2
        omega

/-- Budget accounting of the outer area loop: a budget-exhausted rendering
run added exactly `nl` real lines at addresses ≥ target. -/
theorem renderAreas_budget (s : AddressSpace) (ana : Nat → Except PyErr Nat) (t : Int) :
    ∀ (afuel fuel : Nat) (m : Model) (area_no offset : Nat) (start : Bool) (nl : Int)
      (m' : Model),
      renderAreas s ana m area_no offset start nl t fuel afuel = (m', .budget) →
      (countRealAtLeast t m'.lines : Int) = countRealAtLeast t m.lines + nl := by
  intro afuel
  induction afuel with
  | zero =>
      intro fuel m area_no offset start nl m' h
      rw [renderAreas] at h
      by_cases ha : area_no < s.area_list.length
      · rw [dif_pos ha] at h
        injection h with h1 h2
        cases h2
      · rw [dif_neg ha] at h
        injection h with h1 h2
        cases h2
  | succ afuel ih =>
      intro fuel m area_no offset start nl m' h
      rw [renderAreas] at h
      by_cases ha : area_no < s.area_list.length
      · rw [dif_pos ha] at h
        dsimp only at h
        set a := s.area_list[area_no] with haa
        set mi : Model × Nat := (if start then (m, offset)
          else (m.add_line a.start (.literal a.start (startLit a.start)), 0)) with hmi
        have hcnti : countRealAtLeast t mi.1.lines = countRealAtLeast t m.lines := by
          rw [hmi]
          by_cases hst : start
          · rw [if_pos hst]
          · rw [if_neg hst]
            exact countReal_add_virtual t m a.start (.literal a.start (startLit a.start)) rfl
        cases hra : renderArea s ana a mi.1 mi.2 nl t fuel with
        | mk m1 rest =>
          cases rest with
          | mk nl1 st1 =>
            rw [hra] at h
            cases st1 with
            | some st =>
                dsimp only at h
                injection h with h1 h2
                subst h1
                subst h2
                have hb := (renderArea_count s ana a t fuel mi.1 mi.2 nl m1 nl1 (some .budget) hra).1 rfl
                rw [hcnti] at hb
                exact hb
            | none =>
                dsimp only at h
                have hend : countRealAtLeast t
                    ((m1.add_line a.stop (.literal a.stop (endLit a.start))).lines) =
                    countRealAtLeast t m1.lines :=
                  countReal_add_virtual t m1 a.stop (.literal a.stop (endLit a.start)) rfl
                have hrec := ih fuel _ (area_no + 1) 0 false nl1 m' h
                rw [hend] at hrec
                have hdone := (renderArea_count s ana a t fuel mi.1 mi.2 nl m1 nl1 none hra).2 rfl
                rw [hcnti] at hdone
                omega
      · rw [dif_neg ha] at h
        injection h with h1 h2
        cases h2

/-- Fixture: the rendered model of the C5 counterexample run (target 1,
budget 3). -/
def c5run : Model × RStop := render_win asRender noAna (Model.init 1 0) 0 0 3 1

/-- **C5 counterexample**: with `target_addr = 1` and `num_lines = 3` the run
stops on budget but five lines are emitted at addresses ≥ 1 (the xref and
label lines consume no budget), contradicting the claimed equality between
emitted lines past the target and the requested budget. -/
theorem c5_counterexample :
    c5run.2 = .budget ∧
    countAtLeast 1 c5run.1.lines = 5 ∧
    countAtLeast 1 c5run.1.lines ≠ 3 := by
  decide

/-- **C5 (amended)**: the budget credit (engine.py lines 740–741) and debit
(line 785) each happen once per unit, so whenever a rendering run returns by
exhausting its budget, the number of non-virtual lines emitted at addresses
≥ `target_addr` equals the requested `num_lines`; virtual lines (xrefs,
labels, delimiters) consume no budget. -/
theorem c5_theorem (s : AddressSpace) (ana : Nat → Except PyErr Nat) (m : Model)
    (area_no offset : Nat) (num_lines target : Int) (m' : Model)
    (h : render_win s ana m area_no offset num_lines target = (m', .budget)) :
    (countRealAtLeast target m'.lines : Int) =
      countRealAtLeast target m.lines + num_lines := by
  unfold render_win at h
  exact renderAreas_budget s ana target (s.area_list.length + 1) (renderFuel s)
    m area_no offset true num_lines m' h

/-- **C5 witness**: a concrete budget-exhausted run (budget 2, no target)
adds exactly two real lines. -/
theorem c5_witness :
    (countRealAtLeast (-1)
        (render_win asRender noAna (Model.init 0 0) 0 0 2 (-1)).1.lines : Int) =
      countRealAtLeast (-1) (Model.init 0 0).lines + 2 :=
  c5_theorem asRender noAna (Model.init 0 0) 0 0 2 (-1)
    (render_win asRender noAna (Model.init 0 0) 0 0 2 (-1)).1 (by decide)

/-! ## C7: the analysis driver terminates, decodes at most 40000
instructions per invocation, and fires the callback every 1000 decodes

Termination itself is witnessed by `analyzeLoop` being defined by
well-founded recursion on the lexicographic measure (budget, worklist
length), with the processor modelled as total functions (`ana`/`emu`/`out`
terminate, `emu` pushes a finite list). -/

/-- One decode extends the callback schedule exactly when the counter
crosses a multiple of 1000. -/
theorem cbPattern_succ (cnt : Nat) :
    cbPattern (cnt + 1) =
      if (cnt + 1) % 1000 = 0 then cbPattern cnt ++ [cnt + 1] else cbPattern cnt := by
  unfold cbPattern
  by_cases h : (cnt + 1) % 1000 = 0
  · rw [if_pos h]
    have hq : (cnt + 1) / 1000 = cnt / 1000 + 1 := by omega
    rw [hq, List.range_succ, List.map_append, List.map_singleton]
    congr 2
    omega
  · rw [if_neg h]
    have hq : (cnt + 1) / 1000 = cnt / 1000 := by omega
    rw [hq]

/-- Invariant of the `analyze` loop: the decode counter grows by at most the
budget, and the callback list stays on the schedule. -/
theorem analyzeLoop_spec {σ : Type} (p : Proc σ) :
    ∀ (limit : Nat) (stack : List Nat) (st : σ) (spc : AddressSpace) (cnt : Nat),
      ((analyzeLoop p st spc stack limit cnt (cbPattern cnt)).cnt ≤ cnt + limit) ∧
      ((analyzeLoop p st spc stack limit cnt (cbPattern cnt)).callbacks =
          cbPattern (analyzeLoop p st spc stack limit cnt (cbPattern cnt)).cnt) := by
  intro limit
  induction limit using Nat.strong_induction_on with
  | _ limit ihL =>
      intro stack
      induction stack with
      | nil =>
          intro st spc cnt
          simp [analyzeLoop]
      | cons ea rest ihS =>
          intro st spc cnt
          match limit, ihL with
          | 0, _ => simp [analyzeLoop]
          | limit' + 1, ihL =>
            rw [analyzeLoop]
            cases hana : p.ana st ea with
            | error e =>
                cases e with
                | invalidAddr a0 =>
                    dsimp only
                    exact ⟨by have := (ihS st spc cnt).1; omega, (ihS st spc cnt).2⟩

                | typeError => exact ⟨by dsimp only; omega, by dsimp only⟩
                | indexError => exact ⟨by dsimp only; omega, by dsimp only⟩
                | keyError => exact ⟨by dsimp only; omega, by dsimp only⟩
                | assertionError => exact ⟨by dsimp only; omega, by dsimp only⟩
                | valueError => exact ⟨by dsimp only; omega, by dsimp only⟩
                | fuelOut => exact ⟨by dsimp only; omega, by dsimp only⟩
            | ok r =>
                cases r with
                | mk insn_sz st1 =>
                  dsimp only
                  by_cases hz : insn_sz = 0
                  · subst hz
                    rw [if_pos rfl]
                    exact ⟨by have := (ihS st1 spc cnt).1; omega, (ihS st1 spc cnt).2⟩
                  · rw [if_neg hz]
                    cases hemu : p.emu st1 ea spc with
                    | mk ok1 rst =>
                      cases rst with
                      | mk pushed rst2 =>
                        cases rst2 with
                        | mk st2 spc2 =>
                          cases ok1 with
                          | false => exact ⟨by dsimp only; omega, by dsimp only⟩
                          | true =>
                              dsimp only
                              cases hmc : make_code spc2 ea insn_sz with
                              | error e => exact ⟨by dsimp only; omega, by dsimp only⟩
                              | ok spc3 =>
                                  dsimp only
                                  rw [← cbPattern_succ cnt]
                                  have hrec := ihL limit' (by omega) (pushed.reverse ++ rest)
                                    (p.out st2) spc3 (cnt + 1)
                                  exact ⟨by have := hrec.1; omega, hrec.2⟩

/-- **C7 (confirmed)**: each invocation of `analyze()` terminates (the
defining recursion is well-founded given a terminating processor), decodes
at most 40000 instructions, and has invoked the progress callback exactly
once after every 1000 decoded instructions. -/
theorem c7_theorem {σ : Type} (p : Proc σ) (st : σ) (spc : AddressSpace)
    (stack : List Nat) :
    (analyze p st spc stack).cnt ≤ 40000 ∧
    (analyze p st spc stack).callbacks =
      (List.range ((analyze p st spc stack).cnt / 1000)).map (fun i => 1000 * (i + 1)) := by
  have h := analyzeLoop_spec p 40000 stack st spc 0
  exact ⟨h.1, h.2⟩

/-! ## C8: `resolve_label(get_label(a)) == a`

As universally stated the claim is false: `set_label` can store the same
string at two addresses (the spec itself notes label collisions are possible
via `set_label`), and `resolve_label` then returns the first of them.  The
amended claim adds the table invariants the rest of the system maintains:
auto markers equal their key, every entry materializes (so auto markers sit
at valid addresses), and materialization is injective across entries. -/

/-- `lookup` finds only pairs of the list. -/
theorem lookup_mem {α β : Type} [DecidableEq α] :
    ∀ (l : List (α × β)) (k : α) (v : β), l.lookup k = some v → (k, v) ∈ l := by
  intro l
  induction l with
  | nil => intro k v h; simp [List.lookup] at h
  | cons p rest ih =>
      intro k v h
      cases p with
      | mk a b =>
          by_cases hk : k = a
          · subst hk
            simp only [List.lookup, beq_self_eq_true] at h
            injection h with h
            subst h
            exact List.mem_cons_self _ _
          · have hb : (k == a) = false := by simp [hk]
            simp only [List.lookup, hb] at h
            exact List.mem_cons_of_mem _ (ih k v h)

/-- Fixture: two user labels with the same string `"foo"` at addresses 1
and 2. -/
def asLbl : AddressSpace := set_label (set_label asThree 1 ("foo".data)) 2 ("foo".data)

/-- **C8 counterexample**: address 2 has the (user) label `"foo"`, but
`resolve_label(get_label(2))` returns address 1 — the first table entry with
that string — not 2. -/
theorem c8_counterexample :
    get_label asLbl 2 = .ok (some ("foo".data)) ∧
    resolve_label asLbl ("foo".data) = .ok (some 1) ∧
    resolve_label asLbl ("foo".data) ≠ .ok (some 2) := by
  decide

/-- The `resolve_label` loop returns the key of the looked-for entry when
every entry materializes, materialization is injective, and the entry occurs
in the scanned suffix. -/
theorem resolveLoop_finds (s : AddressSpace) (a : Nat) (v : LabelVal) (m : Str)
    (hm : labelMat s (a, v) = .ok m)
    (hav : (a, v) ∈ s.labels)
    (hmat : ∀ p ∈ s.labels, ∃ mp, labelMat s p = .ok mp)
    (hinj : ∀ p ∈ s.labels, ∀ q ∈ s.labels, p ≠ q → labelMat s p ≠ labelMat s q) :
    ∀ l : List (Nat × LabelVal), (∀ p ∈ l, p ∈ s.labels) → (a, v) ∈ l →
      resolveLoop s m l = .ok (some a) := by
  intro l
  induction l with
  | nil => intro _ hmem; simp at hmem
  | cons p rest ih =>
      intro hsub hmem
      have hp : p ∈ s.labels := hsub p (List.mem_cons_self _ _)
      have hsub' : ∀ q ∈ rest, q ∈ s.labels := fun q hq => hsub q (List.mem_cons_of_mem _ hq)
      cases p with
      | mk k w =>
        cases w with
        | str t =>
            rw [resolveLoop]
            by_cases ht : t = m
            · rw [if_pos ht]
              have hkt : labelMat s (k, LabelVal.str t) = .ok m := by
                rw [← ht]
                rfl
              have hpair : ((k, LabelVal.str t) : Nat × LabelVal) = (a, v) := by
                by_contra hne
                exact hinj _ hp _ hav hne (by rw [hkt, hm])
              injection hpair with h1 h2
              rw [h1]
            · rw [if_neg ht]
              rcases List.mem_cons.mp hmem with heq | hmem'
              · exfalso
                have hx : labelMat s (a, v) = .ok t := by rw [heq]; rfl
                rw [hx] at hm
                injection hm with hm
                exact ht hm
              · exact ih hsub' hmem'
        | num n =>
            obtain ⟨d, hd⟩ := hmat (k, .num n) hp
            have hd' : get_default_label s n = .ok d := hd
            rw [resolveLoop, hd']
            dsimp only
            by_cases hdm : d = m
            · rw [if_pos hdm]
              have hkd : labelMat s (k, LabelVal.num n) = .ok m := by
                rw [← hdm]
                exact hd
              have hpair : ((k, LabelVal.num n) : Nat × LabelVal) = (a, v) := by
                by_contra hne
                exact hinj _ hp _ hav hne (by rw [hkd, hm])
              injection hpair with h1 h2
              rw [h1]
            · rw [if_neg hdm]
              rcases List.mem_cons.mp hmem with heq | hmem'
              · exfalso
                have hx : labelMat s (a, v) = .ok d := by rw [heq]; exact hd
                rw [hx] at hm
                injection hm with hm
                exact hdm hm
              · exact ih hsub' hmem'

/-- **C8 (amended)**: for every address `a` with an entry in the labels table
— user string or auto marker — provided auto markers store their own key,
every entry materializes to a string (auto markers lie at valid addresses),
and distinct entries materialize to distinct strings, `get_label(a)` returns
that materialized string `m` and `resolve_label(m)` returns `a`. -/
theorem c8_theorem (s : AddressSpace) (a : Nat) (v : LabelVal)
    (hent : s.labels.lookup a = some v)
    (hnum : ∀ p ∈ s.labels, ∀ n : Nat, p.2 = LabelVal.num n → n = p.1)
    (hmat : ∀ p ∈ s.labels, ∃ mp, labelMat s p = .ok mp)
    (hinj : ∀ p ∈ s.labels, ∀ q ∈ s.labels, p ≠ q → labelMat s p ≠ labelMat s q) :
    ∃ m, labelMat s (a, v) = .ok m ∧ get_label s a = .ok (some m) ∧
      resolve_label s m = .ok (some a) := by
  have hav : (a, v) ∈ s.labels := lookup_mem s.labels a v hent
  obtain ⟨m, hm⟩ := hmat (a, v) hav
  refine ⟨m, hm, ?_, ?_⟩
  · unfold get_label
    rw [hent]
    cases v with
    | str t =>
        have hmt : (Except.ok t : Except PyErr Str) = .ok m := hm
        injection hmt with hmt
        rw [hmt]
    | num n =>
        have hn : n = a := hnum (a, .num n) hav n rfl
        subst hn
        have hm' : get_default_label s n = .ok m := hm
        unfold get_default_label at hm'
        dsimp only
        cases hpfx : get_default_label_pfx s n with
        | error e =>
            rw [hpfx] at hm'
            cases hm'
        | ok p =>
            rw [hpfx] at hm'
            dsimp only at hm'
            injection hm' with hm'
            dsimp only
            rw [hm']
  · unfold resolve_label
    exact resolveLoop_finds s a v m hm hav hmat hinj s.labels (fun p hp => hp) hav

/-- Fixture: a user label `"foo"` at 1 and an auto label at 2, both inside
the `[0, 2]` area so the auto label materializes. -/
def asAuto : AddressSpace := make_auto_label (set_label asThree 1 ("foo".data)) 2

/-- **C8 witness**: the amended claim at the auto-labelled address 2 of
`asAuto`. -/
theorem c8_witness :
    asAuto.labels.lookup 2 = some (LabelVal.num 2) ∧
    (∃ m, labelMat asAuto (2, LabelVal.num 2) = .ok m ∧
      get_label asAuto 2 = .ok (some m) ∧ resolve_label asAuto m = .ok (some 2)) := by
  refine ⟨by decide, ?_⟩
  apply c8_theorem asAuto 2 (LabelVal.num 2) (by decide) ?hnum ?hmat (by decide)
  case hnum =>
    intro p hp n hn
    fin_cases hp
    · cases hn
    · injection hn with hn
      omega
  case hmat =>
    intro p hp
    fin_cases hp
    · exact ⟨_, rfl⟩
    · exact ⟨_, rfl⟩

/-! ## C9: the `last_area` cache never changes `addr2area`'s result -/

/-- `addr2area` equals the bare linear scan. -/
theorem addr2area_eq_pureScan (s : AddressSpace) (addr : Nat) :
    addr2area s addr = pureScan addr s.area_list := by
  unfold addr2area addr2idx
  generalize s.area_list = l
  induction l with
  | nil => simp [pureScan]
  | cons x rest ih =>
      rw [List.findIdx?_cons]
      by_cases hp : x.start ≤ addr ∧ addr ≤ x.stop
      · simp [pureScan, hp]
      · rw [if_neg (by simpa using hp), List.findIdx?_succ]
        simp only [pureScan, if_neg hp]
        rw [← ih]
        cases hk : rest.findIdx? (fun a => decide (a.start ≤ addr ∧ addr ≤ a.stop)) with
        | none => simp
        | some k => simp

/-- On pairwise-disjoint areas the linear scan finds exactly the area
containing the address. -/
theorem pureScan_mem (addr : Nat) :
    ∀ (l : List Area), l.Pairwise (fun a b => a.stop < b.start ∨ b.stop < a.start) →
      ∀ a ∈ l, a.start ≤ addr → addr ≤ a.stop →
        pureScan addr l = some (addr - a.start, a) := by
  intro l
  induction l with
  | nil => intro _ a ha; simp at ha
  | cons x rest ih =>
      intro hdisj a ha h1 h2
      rcases List.pairwise_cons.mp hdisj with ⟨hhead, htail⟩
      rcases List.mem_cons.mp ha with rfl | ha'
      · simp only [pureScan]
        rw [if_pos ⟨h1, h2⟩]
      · have hx : ¬(x.start ≤ addr ∧ addr ≤ x.stop) := by
          rcases hhead a ha' with hlt | hlt <;> omega
        simp only [pureScan]
        rw [if_neg hx]
        exact ih htail a ha' h1 h2

/-- The linear scan returns nothing when no area contains the address. -/
theorem pureScan_none (addr : Nat) :
    ∀ (l : List Area), (∀ a ∈ l, ¬(a.start ≤ addr ∧ addr ≤ a.stop)) →
      pureScan addr l = none := by
  intro l
  induction l with
  | nil => intro _; rfl
  | cons x rest ih =>
      intro h
      simp only [pureScan]
      rw [if_neg (h x (by simp))]
      exact ih (fun a ha => h a (by simp [ha]))

/-- **C9 (confirmed)**: with pairwise non-overlapping areas and a cache slot
that is empty or holds one of the areas, the cached `addr2area` returns
exactly what the pure linear scan returns: `(addr - start, area)` for the
area containing the address, `(None, None)` otherwise.  The cache affects
only which area is cached, never the returned value. -/
theorem c9_theorem (s : AddressSpace) (last : Option Area) (addr : Nat)
    (hdisj : s.area_list.Pairwise (fun a b => a.stop < b.start ∨ b.stop < a.start))
    (hcache : last = none ∨ ∃ c ∈ s.area_list, last = some c) :
    (addr2area_cached last s.area_list addr).1 = addr2area s addr ∧
    (∀ a ∈ s.area_list, a.start ≤ addr → addr ≤ a.stop →
        addr2area s addr = some (addr - a.start, a)) ∧
    ((∀ a ∈ s.area_list, ¬(a.start ≤ addr ∧ addr ≤ a.stop)) → addr2area s addr = none) := by
  have hfst : ∀ l : List Area, (addr2area_cached.cacheScan last addr l).1 = pureScan addr l := by
    intro l
    induction l with
    | nil => rfl
    | cons x rest ih =>
        simp only [addr2area_cached.cacheScan, pureScan]
        by_cases hp : x.start ≤ addr ∧ addr ≤ x.stop
        · rw [if_pos hp, if_pos hp]
        · rw [if_neg hp, if_neg hp]
          exact ih
  refine ⟨?_, ?_, ?_⟩
  · rw [addr2area_eq_pureScan]
    rcases hcache with rfl | ⟨c, hc, rfl⟩
    · exact hfst s.area_list
    · unfold addr2area_cached
      dsimp only
      by_cases hp : c.start ≤ addr ∧ addr ≤ c.stop
      · rw [if_pos hp]
        exact (pureScan_mem addr s.area_list hdisj c hc hp.1 hp.2).symm
      · rw [if_neg hp]
        exact hfst s.area_list
  · intro a ha h1 h2
    rw [addr2area_eq_pureScan]
    exact pureScan_mem addr s.area_list hdisj a ha h1 h2
  · intro h
    rw [addr2area_eq_pureScan]
    exact pureScan_none addr s.area_list h

/-- Fixture: two disjoint areas for the cache-equivalence witness. -/
def asTwoAreas : AddressSpace := add_area (add_area emptyAS 0 2 []) 10 12 []

/-- Fixture: the second area of `asTwoAreas`. -/
def areaHigh : Area := ⟨10, 12, [], List.replicate 3 0, List.replicate 3 0⟩

/-- **C9 witness**: the cache equivalence applied with the cache holding the
second area while the address lies in the first. -/
theorem c9_witness :
    (asTwoAreas.area_list.Pairwise (fun a b => a.stop < b.start ∨ b.stop < a.start) ∧
     (areaHigh ∈ asTwoAreas.area_list)) ∧
    ((addr2area_cached (some areaHigh) asTwoAreas.area_list 1).1 = addr2area asTwoAreas 1 ∧
     (∀ a ∈ asTwoAreas.area_list, a.start ≤ 1 → 1 ≤ a.stop →
        addr2area asTwoAreas 1 = some (1 - a.start, a)) ∧
     ((∀ a ∈ asTwoAreas.area_list, ¬(a.start ≤ 1 ∧ 1 ≤ a.stop)) →
        addr2area asTwoAreas 1 = none)) :=
  ⟨⟨by decide, by decide⟩,
   c9_theorem asTwoAreas (some areaHigh) 1 (by decide) (.inr ⟨areaHigh, by decide, rfl⟩)⟩

/-- **C10 witness**: the amended frame statement applied at a concrete
address space. -/
theorem c10_witness :
    addr2idx asThree 1 = some 0 ∧
    ((∃ s₁, set_flags asThree 1 1 CODE 0 = .ok s₁ ∧ framePreserved asThree s₁ 0 1 1) ∧
     (∃ s₂, make_undefined asThree 1 1 = .ok s₂ ∧ framePreserved asThree s₂ 0 1 1) ∧
     (∃ s₃, make_code asThree 1 1 = .ok s₃ ∧ framePreserved asThree s₃ 0 1 1) ∧
     (∃ s₄, make_data asThree 1 1 = .ok s₄ ∧ framePreserved asThree s₄ 0 1 1)) :=
  ⟨by decide, c10_theorem asThree 1 1 0 areaThree (by decide) (by decide) (by decide)
     (by decide) CODE 0⟩

/-! ## C3: persistence save/load round-trips

The counterexample shows a label string with embedded whitespace does not
survive the cycle; under the amended conditions every table round-trips to
its key-sorted form and the flag buffers are restored byte-exactly. -/

/-! ### Digit and numeral round-trips -/

theorem hexDigit_hexChar (d : Nat) (h : d < 16) : hexDigit? (hexChar d) = some d := by
  interval_cases d <;> decide

theorem isWs_hexChar (d : Nat) (h : d < 16) : isWs (hexChar d) = false := by
  interval_cases d <;> decide

theorem decDigit_decChar (d : Nat) (h : d < 10) : decDigit? (decChar d) = some d := by
  interval_cases d <;> decide

theorem isWs_decChar (d : Nat) (h : d < 10) : isWs (decChar d) = false := by
  interval_cases d <;> decide

theorem parseDigits_append (f : Char → Option Nat) (b : Nat) (s t : Str) (a : Nat) :
    parseDigits f b (s ++ t) a = (parseDigits f b s a).bind (fun a2 => parseDigits f b t a2) := by
  induction s generalizing a with
  | nil => simp [parseDigits]
  | cons c cs ih =>
      simp only [List.cons_append, parseDigits]
      cases f c with
      | none => rfl
      | some d => exact ih _

theorem parse_natToHexAux (fuel : Nat) : ∀ (n acc : Nat), n ≤ fuel →
    parseDigits hexDigit? 16 (natToHexAux fuel n) acc =
      some (acc * 16 ^ (natToHexAux fuel n).length + n) := by
  induction fuel with
  | zero =>
      intro n acc h
      interval_cases n
      simp [natToHexAux, parseDigits, hexDigit_hexChar]
  | succ fuel ih =>
      intro n acc h
      by_cases hn : n < 16
      · simp [natToHexAux, hn, parseDigits, hexDigit_hexChar n hn]
      · have hrec : natToHexAux (fuel + 1) n = natToHexAux fuel (n / 16) ++ [hexChar (n % 16)] := by
          simp [natToHexAux, hn]
        have h16 : n / 16 ≤ fuel := by
          have : n / 16 < n := Nat.div_lt_self (by omega) (by omega)
          omega
        rw [hrec, parseDigits_append, ih (n / 16) acc h16]
        have hm : n % 16 < 16 := Nat.mod_lt _ (by omega)
        simp only [Option.some_bind, parseDigits, hexDigit_hexChar _ hm, List.length_append,
          List.length_cons, List.length_nil, Nat.zero_add, pow_succ, ← Nat.mul_assoc]
        congr 1
        generalize acc * 16 ^ (natToHexAux fuel (n / 16)).length = X
        omega

theorem natToHexAux_ne_nil (fuel n : Nat) : natToHexAux fuel n ≠ [] := by
  cases fuel with
  | zero => simp [natToHexAux]
  | succ fuel =>
      by_cases hn : n < 16 <;> simp [natToHexAux, hn]

theorem parse_zeros_hex (k : Nat) (s : Str) :
    parseDigits hexDigit? 16 (List.replicate k '0' ++ s) 0 = parseDigits hexDigit? 16 s 0 := by
  induction k with
  | zero => simp
  | succ k ih =>
      have h0 : hexDigit? '0' = some 0 := by decide
      simp only [List.replicate_succ, List.cons_append, parseDigits, h0]
      simpa using ih

theorem parse_hex8 (n : Nat) : parseDigits hexDigit? 16 (hex8 n) 0 = some n := by
  unfold hex8 padLeft
  rw [parse_zeros_hex]
  have := parse_natToHexAux n n 0 (le_refl n)
  simpa [natToHex] using this

theorem hex8_ne_nil (n : Nat) : hex8 n ≠ [] := by
  unfold hex8 padLeft
  intro h
  rcases List.append_eq_nil.mp h with ⟨-, h2⟩
  exact natToHexAux_ne_nil n n h2

theorem int16_hex8 (n : Nat) : int16 (hex8 n) = .ok n := by
  unfold int16
  cases hh : hex8 n with
  | nil => exact absurd hh (hex8_ne_nil n)
  | cons c cs =>
      rw [← hh, parse_hex8]
      rw [hh]

theorem natToHexAux_ws_free (fuel : Nat) : ∀ (n : Nat), ∀ c ∈ natToHexAux fuel n, isWs c = false := by
  induction fuel with
  | zero =>
      intro n c hc
      simp only [natToHexAux, List.mem_singleton] at hc
      subst hc
      exact isWs_hexChar _ (Nat.mod_lt _ (by omega))
  | succ fuel ih =>
      intro n c hc
      by_cases hn : n < 16
      · simp only [natToHexAux, if_pos hn, List.mem_singleton] at hc
        subst hc
        exact isWs_hexChar _ hn
      · simp only [natToHexAux, if_neg hn, List.mem_append, List.mem_singleton] at hc
        rcases hc with hc | hc
        · exact ih _ c hc
        · subst hc
          exact isWs_hexChar _ (Nat.mod_lt _ (by omega))

theorem hex8_ws_free (n : Nat) : ∀ c ∈ hex8 n, isWs c = false := by
  intro c hc
  unfold hex8 padLeft at hc
  rcases List.mem_append.mp hc with hc | hc
  · have := List.eq_of_mem_replicate hc
    subst this
    decide
  · exact natToHexAux_ws_free n n c hc

theorem parse_natToDecAux (fuel : Nat) : ∀ (n acc : Nat), n ≤ fuel →
    parseDigits decDigit? 10 (natToDecAux fuel n) acc =
      some (acc * 10 ^ (natToDecAux fuel n).length + n) := by
  induction fuel with
  | zero =>
      intro n acc h
      interval_cases n
      simp [natToDecAux, parseDigits, decDigit_decChar]
  | succ fuel ih =>
      intro n acc h
      by_cases hn : n < 10
      · simp [natToDecAux, hn, parseDigits, decDigit_decChar n hn]
      · have hrec : natToDecAux (fuel + 1) n = natToDecAux fuel (n / 10) ++ [decChar (n % 10)] := by
          simp [natToDecAux, hn]
        have h10 : n / 10 ≤ fuel := by
          have : n / 10 < n := Nat.div_lt_self (by omega) (by omega)
          omega
        rw [hrec, parseDigits_append, ih (n / 10) acc h10]
        have hm : n % 10 < 10 := Nat.mod_lt _ (by omega)
        simp only [Option.some_bind, parseDigits, decDigit_decChar _ hm, List.length_append,
          List.length_cons, List.length_nil, Nat.zero_add, pow_succ, ← Nat.mul_assoc]
        congr 1
        generalize acc * 10 ^ (natToDecAux fuel (n / 10)).length = X
        omega

theorem parse_natToDec (n : Nat) : parseDigits decDigit? 10 (natToDec n) 0 = some n := by
  have := parse_natToDecAux n n 0 (le_refl n)
  simpa [natToDec] using this

theorem natToDecAux_ne_nil (fuel n : Nat) : natToDecAux fuel n ≠ [] := by
  cases fuel with
  | zero => simp [natToDecAux]
  | succ fuel => by_cases hn : n < 10 <;> simp [natToDecAux, hn]

theorem int10_natToDec (n : Nat) : int10 (natToDec n) = .ok n := by
  unfold int10
  cases hh : natToDec n with
  | nil => exact absurd hh (natToDecAux_ne_nil n n)
  | cons c cs =>
      rw [← hh, parse_natToDec]
      rw [hh]

theorem natToDecAux_digits (fuel : Nat) : ∀ (n : Nat), ∀ c ∈ natToDecAux fuel n, (decDigit? c).isSome := by
  induction fuel with
  | zero =>
      intro n c hc
      simp only [natToDecAux, List.mem_singleton] at hc
      subst hc
      rw [decDigit_decChar _ (Nat.mod_lt _ (by omega))]
      rfl
  | succ fuel ih =>
      intro n c hc
      by_cases hn : n < 10
      · simp only [natToDecAux, if_pos hn, List.mem_singleton] at hc
        subst hc
        rw [decDigit_decChar _ hn]
        rfl
      · simp only [natToDecAux, if_neg hn, List.mem_append, List.mem_singleton] at hc
        rcases hc with hc | hc
        · exact ih _ c hc
        · subst hc
          rw [decDigit_decChar _ (Nat.mod_lt _ (by omega))]
          rfl

theorem natToDec_ws_free (n : Nat) : ∀ c ∈ natToDec n, isWs c = false := by
  intro c hc
  have main : ∀ fuel m, ∀ c ∈ natToDecAux fuel m, isWs c = false := by
    intro fuel
    induction fuel with
    | zero =>
        intro m c hc
        simp only [natToDecAux, List.mem_singleton] at hc
        subst hc
        exact isWs_decChar _ (Nat.mod_lt _ (by omega))
    | succ fuel ih =>
        intro m c hc
        by_cases hn : m < 10
        · simp only [natToDecAux, if_pos hn, List.mem_singleton] at hc
          subst hc
          exact isWs_decChar _ hn
        · simp only [natToDecAux, if_neg hn, List.mem_append, List.mem_singleton] at hc
          rcases hc with hc | hc
          · exact ih _ c hc
          · subst hc
            exact isWs_decChar _ (Nat.mod_lt _ (by omega))
  exact main n n c hc

/-! ### String splitting lemmas -/

theorem takeWhile_append_all {p : Char → Bool} (xs ys : Str) (h : ∀ x ∈ xs, p x = true) :
    List.takeWhile p (xs ++ ys) = xs ++ List.takeWhile p ys := by
  induction xs with
  | nil => simp
  | cons c cs ih =>
      rw [List.cons_append, List.takeWhile_cons, if_pos (h c (by simp)),
        ih (fun x hx => h x (by simp [hx])), List.cons_append]

theorem dropWhile_append_all {p : Char → Bool} (xs ys : Str) (h : ∀ x ∈ xs, p x = true) :
    List.dropWhile p (xs ++ ys) = List.dropWhile p ys := by
  induction xs with
  | nil => simp
  | cons c cs ih =>
      simp only [List.cons_append, List.dropWhile_cons, h c (by simp), if_true]
      exact ih (fun x hx => h x (by simp [hx]))

theorem splitWsAux_token (rest : Str) : ∀ (s cur : Str), (∀ c ∈ s, isWs c = false) →
    splitWsAux (s ++ rest) cur = splitWsAux rest (s.reverse ++ cur) := by
  intro s
  induction s with
  | nil => intro cur h; simp
  | cons c cs ih =>
      intro cur h
      have hc : isWs c = false := h c (by simp)
      simp only [List.cons_append, splitWsAux, hc, Bool.false_eq_true, if_false,
        List.reverse_cons, List.append_assoc, List.singleton_append]
      exact ih (c :: cur) (fun x hx => h x (by simp [hx]))

theorem splitWs_single (tok : Str) (hne : tok ≠ []) (hws : ∀ c ∈ tok, isWs c = false) :
    splitWs tok = [tok] := by
  unfold splitWs
  have := splitWsAux_token [] tok [] hws
  rw [List.append_nil] at this
  rw [this]
  have hrne : tok.reverse ++ [] ≠ [] := by simp [hne]
  simp only [splitWsAux, List.append_nil]
  rw [if_neg (by simpa using hne)]
  simp

theorem splitWs_two (t1 t2 : Str) (h1 : t1 ≠ []) (h2 : t2 ≠ [])
    (hw1 : ∀ c ∈ t1, isWs c = false) (hw2 : ∀ c ∈ t2, isWs c = false) :
    splitWs (t1 ++ ' ' :: t2) = [t1, t2] := by
  unfold splitWs
  rw [splitWsAux_token (' ' :: t2) t1 [] hw1]
  have hsp : isWs ' ' = true := by decide
  simp only [splitWsAux, hsp, if_true, List.append_nil]
  rw [if_neg (by simpa using h1)]
  have hs2 : splitWsAux t2 [] = [t2] := splitWs_single t2 h2 hw2
  rw [hs2]
  simp

theorem rstripWs_eq_self (s : Str) (c : Char) (r : Str) (hrev : s.reverse = c :: r)
    (hc : isWs c = false) : rstripWs s = s := by
  unfold rstripWs
  rw [hrev]
  simp only [List.dropWhile_cons, hc, Bool.false_eq_true, if_false]
  rw [← hrev, List.reverse_reverse]

theorem rstripWs_append (t1 t2 : Str) (h2 : t2 ≠ []) (hw2 : ∀ c ∈ t2, isWs c = false) :
    rstripWs (t1 ++ t2) = t1 ++ t2 := by
  rcases List.exists_cons_of_ne_nil (show t2.reverse ≠ [] by simpa using h2) with ⟨c, r, hcr⟩
  have hc : isWs c = false := by
    have hmem : c ∈ t2.reverse := by rw [hcr]; simp
    exact hw2 c (by simpa using hmem)
  refine rstripWs_eq_self _ c (r ++ t1.reverse) ?_ hc
  rw [List.reverse_append, hcr]
  simp

theorem rstripWs_ws_free (s : Str) (hne : s ≠ []) (hw : ∀ c ∈ s, isWs c = false) :
    rstripWs s = s := by
  rcases List.exists_cons_of_ne_nil (show s.reverse ≠ [] by simpa using hne) with ⟨c, r, hcr⟩
  refine rstripWs_eq_self s c r hcr (hw c ?_)
  have : c ∈ s.reverse := by rw [hcr]; simp
  simpa using this

/-! ### Association-list and sorting lemmas -/

theorem lookup_nil_k {K V : Type} [DecidableEq K] (k : K) :
    ([] : List (K × V)).lookup k = none := rfl

theorem lookup_append_none {K V : Type} [DecidableEq K] (l1 l2 : List (K × V)) (k : K)
    (h : l1.lookup k = none) : (l1 ++ l2).lookup k = l2.lookup k := by
  induction l1 with
  | nil => simp
  | cons p l ih =>
      obtain ⟨a, b⟩ := p
      rw [List.cons_append]
      simp only [List.lookup] at h ⊢
      cases hk : (k == a) with
      | true => simp [hk] at h
      | false =>
          simp only [hk] at h ⊢
          exact ih h

theorem dictSet_notmem {K V : Type} [DecidableEq K] (tbl : List (K × V)) (k : K) (v : V)
    (h : tbl.lookup k = none) : dictSet tbl k v = tbl ++ [(k, v)] := by
  unfold dictSet
  rw [h]
  simp

theorem lookup_none_fst {K V : Type} [DecidableEq K] (tbl : List (K × V)) (k : K)
    (h : tbl.lookup k = none) : ∀ p ∈ tbl, p.1 ≠ k := by
  induction tbl with
  | nil => simp
  | cons q l ih =>
      obtain ⟨a, b⟩ := q
      simp only [List.lookup] at h
      cases hk : (k == a) with
      | true => simp [hk] at h
      | false =>
          simp only [hk] at h
          intro p hp
          rcases List.mem_cons.mp hp with hp | hp
          · subst hp
            intro he
            have hka : k = (a, b).1 := he.symm
            subst hka
            simp at hk
          · exact ih h p hp

theorem lookup_append_self {K V : Type} [DecidableEq K] (tbl : List (K × V)) (k : K) (v : V)
    (h : tbl.lookup k = none) : (tbl ++ [(k, v)]).lookup k = some v := by
  rw [lookup_append_none tbl _ k h]
  simp [List.lookup]

theorem dictSet_replace_last {K V : Type} [DecidableEq K] (tbl : List (K × V)) (k : K) (w w' : V)
    (h : tbl.lookup k = none) : dictSet (tbl ++ [(k, w)]) k w' = tbl ++ [(k, w')] := by
  unfold dictSet
  rw [lookup_append_self tbl k w h]
  simp only [Option.isSome_some, if_true, List.map_append]
  congr 1
  · apply List.map_congr_left ?_ |>.trans (List.map_id _)
    intro p hp
    have := lookup_none_fst tbl k h p hp
    simp [this]
  · simp

theorem insertByKey_perm {V : Type} (p : Nat × V) (l : List (Nat × V)) :
    List.Perm (insertByKey p l) (p :: l) := by
  induction l with
  | nil => simp [insertByKey]
  | cons q rest ih =>
      unfold insertByKey
      by_cases h : p.1 ≤ q.1
      · rw [if_pos h]
      · rw [if_neg h]
        exact (ih.cons q).trans (List.Perm.swap p q rest)

theorem sortByKey_perm {V : Type} (l : List (Nat × V)) : List.Perm (sortByKey l) l := by
  induction l with
  | nil => simp [sortByKey]
  | cons p rest ih =>
      unfold sortByKey
      exact (insertByKey_perm p (sortByKey rest)).trans (List.Perm.cons p ih)

theorem lookup_single_ne {K V : Type} [DecidableEq K] (a k : K) (v : V) (h : k ≠ a) :
    ([(a, v)] : List (K × V)).lookup k = none := by
  have hb : (k == a) = false := beq_eq_false_iff_ne.mpr h
  simp [List.lookup, hb]

theorem load_labels_sorted : ∀ (M tbl : List (Nat × LabelVal)),
    (∀ p ∈ M, labelOK p = true) → (∀ p ∈ M, tbl.lookup p.1 = none) →
    (M.map Prod.fst).Nodup →
    load_labels (M.map (fun p => labelLine p.1 p.2)) tbl = .ok (tbl ++ M) := by
  intro M
  induction M with
  | nil => intro tbl _ _ _; simp [load_labels]
  | cons p M ih =>
      intro tbl hok hlk hnd
      obtain ⟨a, v⟩ := p
      have hlka : tbl.lookup a = none := hlk (a, v) (by simp)
      have hnd' := hnd
      simp only [List.map_cons, List.nodup_cons, List.mem_map] at hnd'
      obtain ⟨hna, hndM⟩ := hnd'
      have hrec : ∀ q ∈ M, (tbl ++ [(a, v)]).lookup q.1 = none := by
        intro q hq
        rw [lookup_append_none _ _ _ (hlk q (by simp [hq]))]
        exact lookup_single_ne a q.1 v (fun he => hna ⟨q, hq, he⟩)
      have hokM : ∀ q ∈ M, labelOK q = true := fun q hq => hok q (by simp [hq])
      simp only [List.map_cons, load_labels]
      cases v with
      | num n =>
          have hn0 : n = a := by simpa [labelOK] using hok (a, .num n) (by simp)
          have hn : a = n := hn0.symm
          subst hn
          rw [show labelLine a (.num a) = hex8 a by simp [labelLine]]
          rw [splitWs_single (hex8 a) (hex8_ne_nil a) (hex8_ws_free a)]
          dsimp only
          rw [int16_hex8]
          dsimp only
          rw [dictSet_notmem tbl a (.num a) hlka]
          have hres := ih (tbl ++ [(a, LabelVal.num a)]) hokM hrec hndM
          simpa using hres
      | str t =>
          have hts : t ≠ [] ∧ ∀ c ∈ t, isWs c = false := by
            have := hok (a, .str t) (by simp)
            simp only [labelOK, Bool.and_eq_true, List.all_eq_true] at this
            refine ⟨by simpa [List.isEmpty_iff] using this.1, ?_⟩
            intro c hc
            simpa using this.2 c hc
          rw [show labelLine a (.str t) = hex8 a ++ ' ' :: t by simp [labelLine]]
          rw [splitWs_two (hex8 a) t (hex8_ne_nil a) hts.1 (hex8_ws_free a) hts.2]
          dsimp only
          rw [int16_hex8]
          dsimp only
          rw [dictSet_notmem tbl a (.str t) hlka]
          have hres := ih (tbl ++ [(a, LabelVal.str t)]) hokM hrec hndM
          simpa using hres

theorem load_save_labels (L : List (Nat × LabelVal))
    (hok : ∀ p ∈ L, labelOK p = true) (hnd : (L.map Prod.fst).Nodup) :
    load_labels (save_labels L) [] = .ok (sortByKey L) := by
  unfold save_labels
  have hperm := sortByKey_perm L
  have := load_labels_sorted (sortByKey L) []
    (fun p hp => hok p (hperm.mem_iff.mp hp))
    (fun p _ => rfl)
    (((hperm.map Prod.fst).nodup_iff).mpr hnd)
  simpa using this

/-! ### JSON string codec round-trip -/

theorem escFold_append (s : Str) (t u : List Char) :
    (s.foldr (fun c a => escChar c ++ a) t) ++ u = s.foldr (fun c a => escChar c ++ a) (t ++ u) := by
  induction s with
  | nil => rfl
  | cons c cs ih => simp only [List.foldr_cons, List.append_assoc, ih]

theorem escChar_length_pos (c : Char) : 1 ≤ (escChar c).length := by
  rw [escChar.eq_def]
  dsimp only
  split_ifs
  all_goals (try rw [List.cons_append])
  all_goals exact Nat.succ_le_succ (Nat.zero_le _)

theorem escFold_length (s : Str) (t : List Char) :
    s.length + t.length ≤ (s.foldr (fun c a => escChar c ++ a) t).length := by
  induction s with
  | nil => simp
  | cons c cs ih =>
      simp only [List.foldr_cons, List.length_cons, List.length_append]
      have := escChar_length_pos c
      omega

theorem natToHexAux_length_le (fuel : Nat) : ∀ (n k : Nat), n ≤ fuel → n < 16 ^ (k + 1) →
    (natToHexAux fuel n).length ≤ k + 1 := by
  induction fuel with
  | zero =>
      intro n k h _
      interval_cases n
      simp [natToHexAux]
  | succ fuel ih =>
      intro n k h hk
      by_cases hn : n < 16
      · simp [natToHexAux, hn]
      · have hkpos : 1 ≤ k := by
          by_contra hc
          push_neg at hc
          interval_cases k
          simp at hk
          omega
        obtain ⟨k', rfl⟩ : ∃ k', k = k' + 1 := ⟨k - 1, by omega⟩
        have hdiv : n / 16 < n := Nat.div_lt_self (by omega) (by omega)
        have h1 : n / 16 ≤ fuel := by omega
        have h2 : n / 16 < 16 ^ (k' + 1) := by
          rw [Nat.div_lt_iff_lt_mul (by omega)]
          calc n < 16 ^ (k' + 1 + 1) := hk
            _ = 16 ^ (k' + 1) * 16 := by rw [pow_succ]
        simp only [natToHexAux, if_neg hn, List.length_append, List.length_cons, List.length_nil]
        have := ih (n / 16) k' h1 h2
        omega

theorem hex4_len (v : Nat) (h : v < 0x10000) : (hex4 v).length = 4 := by
  unfold hex4 padLeft
  have hle : (natToHex v).length ≤ 4 := by
    have := natToHexAux_length_le v v 3 (le_refl v) (by omega)
    simpa [natToHex] using this
  simp only [List.length_append, List.length_replicate]
  omega

theorem parse_hex4 (v : Nat) : parseDigits hexDigit? 16 (hex4 v) 0 = some v := by
  unfold hex4 padLeft
  rw [parse_zeros_hex]
  have := parse_natToHexAux v v 0 (le_refl v)
  simpa [natToHex] using this

theorem unescHex4_parse (a b c d : Char) :
    unescHex4 a b c d = parseDigits hexDigit? 16 [a, b, c, d] 0 := by
  simp only [unescHex4, parseDigits]
  cases hexDigit? a with
  | none => rfl
  | some x =>
      cases hexDigit? b with
      | none => rfl
      | some y =>
          cases hexDigit? c with
          | none => rfl
          | some z =>
              cases hexDigit? d with
              | none => rfl
              | some w =>
                  dsimp only
                  congr 1
                  ring

theorem hex4_cells (v : Nat) (h : v < 0x10000) :
    ∃ a b c d, hex4 v = [a, b, c, d] ∧ unescHex4 a b c d = some v := by
  have hlen := hex4_len v h
  have hp := parse_hex4 v
  match hh : hex4 v with
  | [a, b, c, d] =>
      refine ⟨a, b, c, d, rfl, ?_⟩
      rw [unescHex4_parse, ← hh, hp]
  | [] => rw [hh] at hlen; simp at hlen
  | [_] => rw [hh] at hlen; simp at hlen
  | [_, _] => rw [hh] at hlen; simp at hlen
  | [_, _, _] => rw [hh] at hlen; simp at hlen
  | _ :: _ :: _ :: _ :: _ :: _ => rw [hh] at hlen; simp at hlen

theorem parseJStrAux_quote (f : Nat) (rest : List Char) :
    parseJStrAux (f + 1) ('"' :: rest) = some ([], rest) := by
  simp only [parseJStrAux]

theorem parseJStrAux_esc_quote (f : Nat) (body : List Char) :
    parseJStrAux (f + 1) ('\\' :: '"' :: body) = consFst '"' <$> parseJStrAux f body := by
  simp only [parseJStrAux]

theorem parseJStrAux_esc_back (f : Nat) (body : List Char) :
    parseJStrAux (f + 1) ('\\' :: '\\' :: body) = consFst '\\' <$> parseJStrAux f body := by
  simp only [parseJStrAux]

theorem parseJStrAux_esc_n (f : Nat) (body : List Char) :
    parseJStrAux (f + 1) ('\\' :: 'n' :: body) = consFst '\n' <$> parseJStrAux f body := by
  simp only [parseJStrAux]

theorem parseJStrAux_esc_r (f : Nat) (body : List Char) :
    parseJStrAux (f + 1) ('\\' :: 'r' :: body) = consFst (Char.ofNat 13) <$> parseJStrAux f body := by
  simp only [parseJStrAux]

theorem parseJStrAux_esc_t (f : Nat) (body : List Char) :
    parseJStrAux (f + 1) ('\\' :: 't' :: body) = consFst '\t' <$> parseJStrAux f body := by
  simp only [parseJStrAux]

theorem parseJStrAux_esc_b (f : Nat) (body : List Char) :
    parseJStrAux (f + 1) ('\\' :: 'b' :: body) = consFst (Char.ofNat 8) <$> parseJStrAux f body := by
  simp only [parseJStrAux]

theorem parseJStrAux_esc_f (f : Nat) (body : List Char) :
    parseJStrAux (f + 1) ('\\' :: 'f' :: body) = consFst (Char.ofNat 12) <$> parseJStrAux f body := by
  simp only [parseJStrAux]

theorem parseJStrAux_esc_u (f : Nat) (body : List Char) (a b c d : Char) (v : Nat)
    (hu : unescHex4 a b c d = some v) (h1 : v < 0xd800 ∨ 0xe000 ≤ v) :
    parseJStrAux (f + 1) ('\\' :: 'u' :: a :: b :: c :: d :: body) =
      consFst (Char.ofNat v) <$> parseJStrAux f body := by
  simp only [parseJStrAux, hu]
  rw [if_neg (by omega), if_neg (by omega)]

theorem parseJStrAux_esc_pair (f : Nat) (body : List Char) (a b c d e g i j : Char) (v w : Nat)
    (hu : unescHex4 a b c d = some v) (hw : unescHex4 e g i j = some w)
    (h1 : 0xd800 ≤ v) (h2 : v < 0xdc00) (h3 : 0xdc00 ≤ w) (h4 : w < 0xe000) :
    parseJStrAux (f + 1) ('\\' :: 'u' :: a :: b :: c :: d :: '\\' :: 'u' :: e :: g :: i :: j :: body) =
      consFst (Char.ofNat (0x10000 + (v - 0xd800) * 0x400 + (w - 0xdc00))) <$> parseJStrAux f body := by
  simp only [parseJStrAux, hu, hw]
  rw [if_pos (by omega), if_pos (by omega)]

theorem parseJStrAux_plain (f : Nat) (c : Char) (body : List Char)
    (h1 : c ≠ '"') (h2 : c ≠ '\\') (h3 : 0x20 ≤ c.toNat) :
    parseJStrAux (f + 1) (c :: body) = consFst c <$> parseJStrAux f body := by
  rw [parseJStrAux.eq_def]
  split
  all_goals first
    | rfl
    | (rename_i heq
       first
         | (injection heq; contradiction)
         | simp_all)

theorem parseJStrAux_escape : ∀ (s : Str) (fuel : Nat) (rest : List Char), s.length < fuel →
    parseJStrAux fuel (s.foldr (fun c a => escChar c ++ a) ('"' :: rest)) = some (s, rest) := by
  intro s
  induction s with
  | nil =>
      intro fuel rest h
      cases fuel with
      | zero => omega
      | succ f => exact parseJStrAux_quote f rest
  | cons c cs ih =>
      intro fuel rest h
      cases fuel with
      | zero => omega
      | succ f =>
          have hih := ih f rest (by simp at h; omega)
          rw [List.foldr_cons]
          by_cases hq : c = '"'
          · subst hq
            rw [show escChar '"' = ['\\', '"'] from rfl]
            simp only [List.cons_append, List.nil_append]
            rw [parseJStrAux_esc_quote, hih]
            rfl
          by_cases hbs : c = '\\'
          · subst hbs
            rw [show escChar '\\' = ['\\', '\\'] from rfl]
            simp only [List.cons_append, List.nil_append]
            rw [parseJStrAux_esc_back, hih]
            rfl
          by_cases hn10 : c.toNat = 10
          · have hc : c = '\n' := by
              rw [← Char.ofNat_toNat c, hn10]
            subst hc
            rw [show escChar '\n' = ['\\', 'n'] from rfl]
            simp only [List.cons_append, List.nil_append]
            rw [parseJStrAux_esc_n, hih]
            rfl
          by_cases hn13 : c.toNat = 13
          · have hc : c = Char.ofNat 13 := by rw [← Char.ofNat_toNat c, hn13]
            subst hc
            rw [show escChar (Char.ofNat 13) = ['\\', 'r'] from by decide]
            simp only [List.cons_append, List.nil_append]
            rw [parseJStrAux_esc_r, hih]
            rfl
          by_cases hn9 : c.toNat = 9
          · have hc : c = '\t' := by rw [← Char.ofNat_toNat c, hn9]
            subst hc
            rw [show escChar '\t' = ['\\', 't'] from rfl]
            simp only [List.cons_append, List.nil_append]
            rw [parseJStrAux_esc_t, hih]
            rfl
          by_cases hn8 : c.toNat = 8
          · have hc : c = Char.ofNat 8 := by rw [← Char.ofNat_toNat c, hn8]
            subst hc
            rw [show escChar (Char.ofNat 8) = ['\\', 'b'] from by decide]
            simp only [List.cons_append, List.nil_append]
            rw [parseJStrAux_esc_b, hih]
            rfl
          by_cases hn12 : c.toNat = 12
          · have hc : c = Char.ofNat 12 := by rw [← Char.ofNat_toNat c, hn12]
            subst hc
            rw [show escChar (Char.ofNat 12) = ['\\', 'f'] from by decide]
            simp only [List.cons_append, List.nil_append]
            rw [parseJStrAux_esc_f, hih]
            rfl
          by_cases hctl : c.toNat < 0x20
          · have hesc : escChar c = '\\' :: 'u' :: hex4 c.toNat := by
              rw [escChar.eq_def]
              dsimp only
              rw [if_neg hq, if_neg hbs, if_neg hn10, if_neg hn13, if_neg hn9, if_neg hn8,
                if_neg hn12, if_pos hctl]
            obtain ⟨a, b, c', d, hcells, hunesc⟩ := hex4_cells c.toNat (by omega)
            rw [hesc, hcells]
            simp only [List.cons_append, List.nil_append]
            rw [parseJStrAux_esc_u f _ a b c' d c.toNat hunesc (Or.inl (by omega)), hih]
            rw [Char.ofNat_toNat]
            rfl
          by_cases hprint : c.toNat < 0x7f
          · have hesc : escChar c = [c] := by
              rw [escChar.eq_def]
              dsimp only
              rw [if_neg hq, if_neg hbs, if_neg hn10, if_neg hn13, if_neg hn9, if_neg hn8,
                if_neg hn12, if_neg hctl, if_pos hprint]
            rw [hesc, List.singleton_append]
            rw [parseJStrAux_plain f c _ hq hbs (by omega), hih]
            rfl
          by_cases hbmp : c.toNat < 0x10000
          · have hesc : escChar c = '\\' :: 'u' :: hex4 c.toNat := by
              rw [escChar.eq_def]
              dsimp only
              rw [if_neg hq, if_neg hbs, if_neg hn10, if_neg hn13, if_neg hn9, if_neg hn8,
                if_neg hn12, if_neg hctl, if_neg hprint, if_pos hbmp]
            obtain ⟨a, b, c', d, hcells, hunesc⟩ := hex4_cells c.toNat (by omega)
            rw [hesc, hcells]
            simp only [List.cons_append, List.nil_append]
            have hval0 : c.toNat < 0xd800 ∨ (0xdfff < c.toNat ∧ c.toNat < 0x110000) := c.valid
            have hval : c.toNat < 0xd800 ∨ 0xe000 ≤ c.toNat := by omega
            rw [parseJStrAux_esc_u f _ a b c' d c.toNat hunesc hval, hih]
            rw [Char.ofNat_toNat]
            rfl
          · have hval0 : c.toNat < 0xd800 ∨ (0xdfff < c.toNat ∧ c.toNat < 0x110000) := c.valid
            have hvlt : c.toNat < 0x110000 := by omega
            have hesc : escChar c =
                ('\\' :: 'u' :: hex4 (0xd800 + (c.toNat - 0x10000) / 0x400)) ++
                  '\\' :: 'u' :: hex4 (0xdc00 + (c.toNat - 0x10000) % 0x400) := by
              rw [escChar.eq_def]
              dsimp only
              rw [if_neg hq, if_neg hbs, if_neg hn10, if_neg hn13, if_neg hn9, if_neg hn8,
                if_neg hn12, if_neg hctl, if_neg hprint, if_neg hbmp]
            have hdivlt : (c.toNat - 0x10000) / 0x400 < 0x400 := by omega
            have hmodlt : (c.toNat - 0x10000) % 0x400 < 0x400 := Nat.mod_lt _ (by omega)
            obtain ⟨a, b, c', d, hc1, hu1⟩ :=
              hex4_cells (0xd800 + (c.toNat - 0x10000) / 0x400) (by omega)
            obtain ⟨e, g, i, j, hc2, hu2⟩ :=
              hex4_cells (0xdc00 + (c.toNat - 0x10000) % 0x400) (by omega)
            rw [hesc, hc1, hc2]
            simp only [List.cons_append, List.nil_append, List.append_assoc]
            rw [parseJStrAux_esc_pair f _ a b c' d e g i j _ _ hu1 hu2
              (by omega) (by omega) (by omega) (by omega)]
            have harg : 0x10000 + (0xd800 + (c.toNat - 0x10000) / 0x400 - 0xd800) * 0x400 +
                (0xdc00 + (c.toNat - 0x10000) % 0x400 - 0xdc00) = c.toNat := by omega
            rw [harg, Char.ofNat_toNat, hih]
            rfl

theorem jsonLoadsStr_dumpsStr (s : Str) : jsonLoadsStr (jsonDumpsStr s) = some s := by
  unfold jsonLoadsStr jsonDumpsStr
  have hskip : skipWsJ ('"' :: s.foldr (fun c acc => escChar c ++ acc) ['"']) =
      '"' :: s.foldr (fun c acc => escChar c ++ acc) ['"'] := by
    unfold skipWsJ
    rw [List.dropWhile_cons, if_neg (by decide)]
  rw [hskip]
  have hlen : s.length < (s.foldr (fun c acc => escChar c ++ acc) ['"']).length + 1 := by
    have := escFold_length s ['"']
    simp at this
    omega
  have hparse := parseJStrAux_escape s
    ((s.foldr (fun c acc => escChar c ++ acc) ['"']).length + 1) [] hlen
  rw [show (('"' : Char) :: ([] : List Char)) = ['"'] from rfl] at hparse
  split
  · rename_i r heq
    injection heq with h1 h2
    subst h2
    unfold parseJStr
    rw [hparse]
    rfl
  · rename_i hne
    exact absurd rfl (hne (s.foldr (fun c acc => escChar c ++ acc) ['"']))

/-! ### Comments round-trip -/

theorem splitN1_line (tok rest : Str) (hne : tok ≠ []) (hws : ∀ c ∈ tok, isWs c = false)
    (hhead : ∃ c r', rest = c :: r' ∧ isWs c = false) :
    splitN1 (tok ++ ' ' :: rest) = some (tok, rest) := by
  obtain ⟨c0, r', rfl, hc0⟩ := hhead
  obtain ⟨t0, ts, rfl⟩ := List.exists_cons_of_ne_nil hne
  have hsp : isWs ' ' = true := by decide
  unfold splitN1
  dsimp only
  have hdrop1 : List.dropWhile (fun c => isWs c) ((t0 :: ts) ++ ' ' :: c0 :: r') =
      (t0 :: ts) ++ ' ' :: c0 :: r' := by
    rw [List.cons_append, List.dropWhile_cons, if_neg (by simp [hws t0 (by simp)])]
  rw [hdrop1]
  have htake : List.takeWhile (fun c => !isWs c) ((t0 :: ts) ++ ' ' :: c0 :: r') = t0 :: ts := by
    rw [takeWhile_append_all _ _ (fun x hx => by simp [hws x hx])]
    rw [List.takeWhile_cons]
    simp [hsp]
  have hdrop2 : List.dropWhile (fun c => !isWs c) ((t0 :: ts) ++ ' ' :: c0 :: r') =
      ' ' :: c0 :: r' := by
    rw [dropWhile_append_all _ _ (fun x hx => by simp [hws x hx])]
    rw [List.dropWhile_cons]
    simp [hsp]
  rw [htake, hdrop2]
  have hdrop3 : List.dropWhile (fun c => isWs c) (' ' :: c0 :: r') = c0 :: r' := by
    rw [List.dropWhile_cons, if_pos hsp, List.dropWhile_cons, if_neg (by simp [hc0])]
  rw [hdrop3]
  rw [if_neg (by simp), if_neg (by simp)]

theorem load_comments_sorted : ∀ (M tbl : List (Nat × Str)),
    (∀ p ∈ M, tbl.lookup p.1 = none) → (M.map Prod.fst).Nodup →
    load_comments (M.map (fun p => hex8 p.1 ++ [' '] ++ jsonDumpsStr p.2)) tbl = .ok (tbl ++ M) := by
  intro M
  induction M with
  | nil => intro tbl _ _; simp [load_comments]
  | cons p M ih =>
      intro tbl hlk hnd
      obtain ⟨a, v⟩ := p
      have hlka : tbl.lookup a = none := hlk (a, v) (by simp)
      simp only [List.map_cons, List.nodup_cons, List.mem_map] at hnd
      obtain ⟨hna, hndM⟩ := hnd
      have hrec : ∀ q ∈ M, (tbl ++ [(a, v)]).lookup q.1 = none := by
        intro q hq
        rw [lookup_append_none _ _ _ (hlk q (by simp [hq]))]
        exact lookup_single_ne a q.1 v (fun he => hna ⟨q, hq, he⟩)
      simp only [List.map_cons, load_comments]
      have hline : hex8 a ++ [' '] ++ jsonDumpsStr v = hex8 a ++ ' ' :: jsonDumpsStr v := by
        simp
      rw [hline, splitN1_line (hex8 a) (jsonDumpsStr v) (hex8_ne_nil a) (hex8_ws_free a)
        ⟨'"', _, rfl, by decide⟩]
      dsimp only
      rw [int16_hex8]
      dsimp only
      rw [jsonLoadsStr_dumpsStr]
      dsimp only
      rw [dictSet_notmem tbl a v hlka]
      have hres := ih (tbl ++ [(a, v)]) hrec hndM
      simpa using hres

theorem load_save_comments (L : List (Nat × Str)) (hnd : (L.map Prod.fst).Nodup) :
    load_comments (save_comments L) [] = .ok (sortByKey L) := by
  unfold save_comments
  have hperm := sortByKey_perm L
  have := load_comments_sorted (sortByKey L) [] (fun p _ => rfl)
    (((hperm.map Prod.fst).nodup_iff).mpr hnd)
  simpa using this

/-! ### Arg-props JSON object codec -/

theorem skipWsJ_cons_nws (c : Char) (r : List Char) (h : isWs c = false) :
    skipWsJ (c :: r) = c :: r := by
  unfold skipWsJ
  rw [List.dropWhile_cons, if_neg (by simp [h])]

theorem skipWsJ_cons_ws (r : List Char) : skipWsJ (' ' :: r) = skipWsJ r := by
  unfold skipWsJ
  rw [List.dropWhile_cons, if_pos (by decide)]

theorem jsonDumpsStr_append (k : Str) (S : List Char) :
    jsonDumpsStr k ++ S = '"' :: k.foldr (fun c a => escChar c ++ a) ('"' :: S) := by
  unfold jsonDumpsStr
  rw [List.cons_append, escFold_append]
  rfl

theorem parseJStr_dumps (k : Str) (S : List Char) :
    parseJStr (k.foldr (fun c a => escChar c ++ a) ('"' :: S)) = some (k, S) := by
  have hlen : k.length < (k.foldr (fun c a => escChar c ++ a) ('"' :: S)).length + 1 := by
    have h2 := escFold_length k ('"' :: S)
    simp only [List.length_cons] at h2
    omega
  exact parseJStrAux_escape k _ S hlen

theorem natToDec_cons (v : Nat) : ∃ c cs, natToDec v = c :: cs ∧ isWs c = false ∧
    (decDigit? c).isSome = true := by
  cases hh : natToDec v with
  | nil => exact absurd hh (natToDecAux_ne_nil v v)
  | cons c cs =>
      refine ⟨c, cs, rfl, ?_, ?_⟩
      · exact natToDec_ws_free v c (by rw [hh]; simp)
      · have := natToDecAux_digits v v c (by rw [show natToDecAux v v = natToDec v from rfl, hh]; simp)
        simpa using this

theorem parseNatDec_natToDec (v : Nat) (rest : Str)
    (hr : rest = [] ∨ ∃ c r', rest = c :: r' ∧ decDigit? c = none) :
    parseNatDec (natToDec v ++ rest) = some (v, rest) := by
  unfold parseNatDec
  dsimp only
  have hall : ∀ x ∈ natToDec v, ((decDigit? x).isSome : Bool) = true := by
    intro x hx
    have := natToDecAux_digits v v x hx
    simpa using this
  have htak : List.takeWhile (fun c => (decDigit? c).isSome) (natToDec v ++ rest) = natToDec v := by
    rw [takeWhile_append_all _ _ hall]
    rcases hr with rfl | ⟨c, r', rfl, hc⟩
    · simp
    · rw [List.takeWhile_cons, if_neg (by simp [hc])]
      simp
  have hdrp : List.dropWhile (fun c => (decDigit? c).isSome) (natToDec v ++ rest) = rest := by
    rw [dropWhile_append_all _ _ hall]
    rcases hr with rfl | ⟨c, r', rfl, hc⟩
    · simp
    · rw [List.dropWhile_cons, if_neg (by simp [hc])]
  rw [htak, hdrp]
  cases hh : natToDec v with
  | nil => exact absurd hh (natToDecAux_ne_nil v v)
  | cons c cs =>
      rw [← hh, parse_natToDec]
      rw [hh]

theorem parseInnerEntries_skip_space (f : Nat) (X : List Char) :
    parseInnerEntries (f + 1) (' ' :: X) = parseInnerEntries (f + 1) X := by
  simp only [parseInnerEntries]
  rw [skipWsJ_cons_ws]

theorem parseInnerEntries_round :
    ∀ (m : List (Str × Nat)) (fuel : Nat) (rest : List Char), m ≠ [] → m.length < fuel →
    parseInnerEntries fuel
        (joinSep ([',', ' '] : Str) (m.map (fun p => jsonDumpsStr p.1 ++ ([':', ' '] : Str) ++ natToDec p.2))
          ++ '\x7d' :: rest) =
      some (m, rest) := by
  intro m
  induction m with
  | nil => intro fuel rest hne _; exact absurd rfl hne
  | cons e m ih =>
      intro fuel rest _ hf
      obtain ⟨k, v⟩ := e
      cases fuel with
      | zero => omega
      | succ f =>
          obtain ⟨d0, ds, hdec, hdws, hddig⟩ := natToDec_cons v
          cases m with
          | nil =>
              have hstream :
                  joinSep ([',', ' '] : Str) ([(k, v)].map
                      (fun p => jsonDumpsStr p.1 ++ ([':', ' '] : Str) ++ natToDec p.2)) ++ '\x7d' :: rest
                    = '"' :: k.foldr (fun c a => escChar c ++ a)
                        ('"' :: ':' :: ' ' :: (natToDec v ++ '\x7d' :: rest)) := by
                simp only [List.map_cons, List.map_nil, joinSep]
                rw [List.append_assoc, List.append_assoc, jsonDumpsStr_append]
                rfl
              rw [hstream]
              simp only [parseInnerEntries]
              split
              · rename_i r heq
                injection heq with h1 h2
                subst h2
                rw [parseJStr_dumps]
                dsimp only
                rw [skipWsJ_cons_nws ':' _ (by decide)]
                split
                · rename_i r2 heq2
                  injection heq2 with h3 h4
                  subst h4
                  rw [skipWsJ_cons_ws]
                  rw [hdec, List.cons_append, skipWsJ_cons_nws d0 _ hdws, ← List.cons_append, ← hdec]
                  rw [parseNatDec_natToDec v _ (Or.inr ⟨'\x7d', rest, rfl, by decide⟩)]
                  dsimp only
                  rw [skipWsJ_cons_nws '\x7d' _ (by decide)]
                  split
                  · rename_i r4 heq4
                    exact absurd heq4 (by simp)
                  · rename_i r4 heq4
                    injection heq4 with h5 h6
                    subst h6
                    rfl
                  · rename_i x hne1 hne2
                    exact absurd rfl (hne2 rest)
                · rename_i hne
                  exact absurd rfl (hne _)
              · rename_i hne
                exact absurd rfl (hne _)
          | cons e2 m2 =>
              have hstream :
                  joinSep ([',', ' '] : Str) (((k, v) :: e2 :: m2).map
                      (fun p => jsonDumpsStr p.1 ++ ([':', ' '] : Str) ++ natToDec p.2)) ++ '\x7d' :: rest
                    = '"' :: k.foldr (fun c a => escChar c ++ a)
                        ('"' :: ':' :: ' ' :: (natToDec v ++ ',' :: ' ' ::
                          (joinSep ([',', ' '] : Str) ((e2 :: m2).map
                            (fun p => jsonDumpsStr p.1 ++ ([':', ' '] : Str) ++ natToDec p.2))
                            ++ '\x7d' :: rest))) := by
                simp only [List.map_cons, joinSep]
                simp only [List.append_assoc, List.cons_append, List.nil_append]
                rw [jsonDumpsStr_append]
              rw [hstream]
              simp only [parseInnerEntries]
              split
              · rename_i r heq
                injection heq with h1 h2
                subst h2
                rw [parseJStr_dumps]
                dsimp only
                rw [skipWsJ_cons_nws ':' _ (by decide)]
                split
                · rename_i r2 heq2
                  injection heq2 with h3 h4
                  subst h4
                  rw [skipWsJ_cons_ws]
                  rw [hdec, List.cons_append, skipWsJ_cons_nws d0 _ hdws, ← List.cons_append, ← hdec]
                  rw [parseNatDec_natToDec v _ (Or.inr ⟨',', _, rfl, by decide⟩)]
                  dsimp only
                  rw [skipWsJ_cons_nws ',' _ (by decide)]
                  split
                  · rename_i r4 heq4
                    injection heq4 with h5 h6
                    subst h6
                    cases f with
                    | zero => simp at hf
                    | succ f2 =>
                        rw [parseInnerEntries_skip_space]
                        rw [ih (f2 + 1) rest (by simp) (by simp at hf ⊢; omega)]
                  · rename_i r4 heq4
                    exact absurd heq4 (by simp)
                  · rename_i x hne1 hne2
                    exact absurd rfl (hne1 _)
                · rename_i hne
                  exact absurd rfl (hne _)
              · rename_i hne
                exact absurd rfl (hne _)

theorem inner_entries_head (m : List (Str × Nat)) (k : Str) (v : Nat) :
    ∃ T, joinSep ([',', ' '] : Str) (((k, v) :: m).map
        (fun p => jsonDumpsStr p.1 ++ ([':', ' '] : Str) ++ natToDec p.2)) = '"' :: T := by
  cases m with
  | nil =>
      refine ⟨k.foldr (fun c a => escChar c ++ a) ('"' :: (([':', ' '] : Str) ++ natToDec v)), ?_⟩
      simp only [List.map_cons, List.map_nil, joinSep]
      rw [List.append_assoc, jsonDumpsStr_append]
  | cons e2 m2 =>
      refine ⟨k.foldr (fun c a => escChar c ++ a) ('"' :: (([':', ' '] : Str) ++ natToDec v ++ ([',', ' '] : Str)
        ++ joinSep ([',', ' '] : Str) ((e2 :: m2).map
          (fun p => jsonDumpsStr p.1 ++ ([':', ' '] : Str) ++ natToDec p.2)))), ?_⟩
      simp only [List.map_cons, joinSep]
      simp only [List.append_assoc]
      rw [jsonDumpsStr_append]

theorem parseInnerObj_dumps (m : List (Str × Nat)) (fuel : Nat) (rest : List Char)
    (hf : m.length < fuel) :
    parseInnerObj fuel (dumpsInnerObj m ++ rest) = some (m, rest) := by
  have hstream : dumpsInnerObj m ++ rest =
      '\x7b' :: (joinSep ([',', ' '] : Str) (m.map
        (fun p => jsonDumpsStr p.1 ++ ([':', ' '] : Str) ++ natToDec p.2)) ++ '\x7d' :: rest) := by
    unfold dumpsInnerObj
    simp [List.append_assoc]
  rw [hstream]
  unfold parseInnerObj
  rw [skipWsJ_cons_nws '\x7b' _ (by decide)]
  split
  · rename_i r heq
    injection heq with h1 h2
    subst h2
    cases m with
    | nil =>
        simp only [List.map_nil, joinSep, List.nil_append]
        rw [skipWsJ_cons_nws '\x7d' _ (by decide)]
        split
        · rename_i r2 heq2
          injection heq2 with h3 h4
          subst h4
          rfl
        · rename_i hne
          exact absurd rfl (hne _)
    | cons e m2 =>
        obtain ⟨ke, ve⟩ := e
        obtain ⟨T, hT⟩ := inner_entries_head m2 ke ve
        rw [hT, List.cons_append, skipWsJ_cons_nws '"' _ (by decide)]
        split
        · rename_i r2 heq2
          exact absurd heq2 (by simp)
        · rw [← List.cons_append, ← hT]
          exact parseInnerEntries_round ((ke, ve) :: m2) fuel rest (by simp) hf
  · rename_i hne
    exact absurd rfl (hne _)

theorem parseInnerObj_skip_space (f : Nat) (X : List Char) :
    parseInnerObj f (' ' :: X) = parseInnerObj f X := by
  unfold parseInnerObj
  rw [skipWsJ_cons_ws]

theorem parseOuterEntries_skip_space (f : Nat) (X : List Char) :
    parseOuterEntries (f + 1) (' ' :: X) = parseOuterEntries (f + 1) X := by
  simp only [parseOuterEntries]
  rw [skipWsJ_cons_ws]

theorem parseOuterEntries_round :
    ∀ (m : List (Nat × List (Str × Nat))) (fuel : Nat) (rest : List Char), m ≠ [] →
    m.length + (m.map (fun p => p.2.length)).sum < fuel →
    parseOuterEntries fuel
        (joinSep ([',', ' '] : Str) (m.map
          (fun p => jsonDumpsStr (natToDec p.1) ++ ([':', ' '] : Str) ++ dumpsInnerObj p.2))
          ++ '\x7d' :: rest) =
      some (m.map (fun p => (natToDec p.1, p.2)), rest) := by
  intro m
  induction m with
  | nil => intro fuel rest hne _; exact absurd rfl hne
  | cons e m ih =>
      intro fuel rest _ hf
      obtain ⟨k, v⟩ := e
      cases fuel with
      | zero => omega
      | succ f =>
          have hvf : v.length < f := by
            simp only [List.map_cons, List.sum_cons, List.length_cons] at hf
            omega
          cases m with
          | nil =>
              have hstream :
                  joinSep ([',', ' '] : Str) ([(k, v)].map
                      (fun p => jsonDumpsStr (natToDec p.1) ++ ([':', ' '] : Str) ++ dumpsInnerObj p.2))
                    ++ '\x7d' :: rest
                    = '"' :: (natToDec k).foldr (fun c a => escChar c ++ a)
                        ('"' :: ':' :: ' ' :: (dumpsInnerObj v ++ '\x7d' :: rest)) := by
                simp only [List.map_cons, List.map_nil, joinSep]
                rw [List.append_assoc, List.append_assoc, jsonDumpsStr_append]
                rfl
              rw [hstream]
              simp only [parseOuterEntries]
              split
              · rename_i r heq
                injection heq with h1 h2
                subst h2
                rw [parseJStr_dumps]
                dsimp only
                rw [skipWsJ_cons_nws ':' _ (by decide)]
                split
                · rename_i r2 heq2
                  injection heq2 with h3 h4
                  subst h4
                  rw [parseInnerObj_skip_space, parseInnerObj_dumps v f _ hvf]
                  dsimp only
                  rw [skipWsJ_cons_nws '\x7d' _ (by decide)]
                  split
                  · rename_i r4 heq4
                    exact absurd heq4 (by simp)
                  · rename_i r4 heq4
                    injection heq4 with h5 h6
                    subst h6
                    rfl
                  · rename_i x hne1 hne2
                    exact absurd rfl (hne2 rest)
                · rename_i hne
                  exact absurd rfl (hne _)
              · rename_i hne
                exact absurd rfl (hne _)
          | cons e2 m2 =>
              have hstream :
                  joinSep ([',', ' '] : Str) (((k, v) :: e2 :: m2).map
                      (fun p => jsonDumpsStr (natToDec p.1) ++ ([':', ' '] : Str) ++ dumpsInnerObj p.2))
                    ++ '\x7d' :: rest
                    = '"' :: (natToDec k).foldr (fun c a => escChar c ++ a)
                        ('"' :: ':' :: ' ' :: (dumpsInnerObj v ++ ',' :: ' ' ::
                          (joinSep ([',', ' '] : Str) ((e2 :: m2).map
                            (fun p => jsonDumpsStr (natToDec p.1) ++ ([':', ' '] : Str) ++ dumpsInnerObj p.2))
                            ++ '\x7d' :: rest))) := by
                simp only [List.map_cons, joinSep]
                simp only [List.append_assoc, List.cons_append, List.nil_append]
                rw [jsonDumpsStr_append]
              rw [hstream]
              simp only [parseOuterEntries]
              split
              · rename_i r heq
                injection heq with h1 h2
                subst h2
                rw [parseJStr_dumps]
                dsimp only
                rw [skipWsJ_cons_nws ':' _ (by decide)]
                split
                · rename_i r2 heq2
                  injection heq2 with h3 h4
                  subst h4
                  rw [parseInnerObj_skip_space, parseInnerObj_dumps v f _ hvf]
                  dsimp only
                  rw [skipWsJ_cons_nws ',' _ (by decide)]
                  split
                  · rename_i r4 heq4
                    injection heq4 with h5 h6
                    subst h6
                    cases f with
                    | zero =>
                        simp only [List.length_cons, List.map_cons, List.sum_cons] at hf
                        omega
                    | succ f2 =>
                        rw [parseOuterEntries_skip_space]
                        have hb2 : (e2 :: m2).length +
                            (List.map (fun p => p.2.length) (e2 :: m2)).sum < f2 + 1 := by
                          simp only [List.map_cons, List.sum_cons, List.length_cons] at hf ⊢
                          omega
                        rw [ih (f2 + 1) rest (by simp) hb2]
                        rfl
                  · rename_i r4 heq4
                    exact absurd heq4 (by simp)
                  · rename_i x hne1 hne2
                    exact absurd rfl (hne1 _)
                · rename_i hne
                  exact absurd rfl (hne _)
              · rename_i hne
                exact absurd rfl (hne _)

theorem joinSep_length_ge (sep : Str) : ∀ xs : List Str,
    (xs.map List.length).sum ≤ (joinSep sep xs).length
  | [] => by simp [joinSep]
  | [x] => by simp [joinSep]
  | x :: y :: rest => by
      have ih := joinSep_length_ge sep (y :: rest)
      simp only [joinSep, List.map_cons, List.sum_cons, List.length_append] at ih ⊢
      omega

theorem jsonDumpsStr_length_ge (s : Str) : 2 ≤ (jsonDumpsStr s).length := by
  have h := escFold_length s ['"']
  unfold jsonDumpsStr
  rw [List.length_cons]
  exact Nat.succ_le_succ (le_trans (Nat.succ_le_succ (Nat.zero_le s.length)) h)

theorem inner_entry_count (v : List (Str × Nat)) :
    v.length ≤ ((v.map (fun p => jsonDumpsStr p.1 ++ ([':', ' '] : Str) ++ natToDec p.2)).map
      List.length).sum := by
  induction v with
  | nil => simp
  | cons p v ih =>
      have h1 := jsonDumpsStr_length_ge p.1
      simp only [List.map_cons, List.sum_cons, List.length_cons, List.length_append] at ih ⊢
      omega

theorem dumpsInnerObj_length_ge (v : List (Str × Nat)) :
    v.length + 2 ≤ (dumpsInnerObj v).length := by
  have h1 := joinSep_length_ge ([',', ' '] : Str)
    (v.map (fun p => jsonDumpsStr p.1 ++ ([':', ' '] : Str) ++ natToDec p.2))
  have h2 := inner_entry_count v
  unfold dumpsInnerObj
  simp only [List.length_append, List.length_cons, List.length_nil]
  omega

theorem outer_entry_sum (m : List (Nat × List (Str × Nat))) :
    m.length + (m.map (fun p => p.2.length)).sum ≤
      ((m.map (fun p => jsonDumpsStr (natToDec p.1) ++ ([':', ' '] : Str) ++ dumpsInnerObj p.2)).map
        List.length).sum := by
  induction m with
  | nil => simp
  | cons p m ih =>
      have h1 := jsonDumpsStr_length_ge (natToDec p.1)
      have h2 := dumpsInnerObj_length_ge p.2
      simp only [List.map_cons, List.sum_cons, List.length_cons, List.length_append] at ih ⊢
      omega

theorem dumpsArgProps_size (m : List (Nat × List (Str × Nat))) :
    m.length + (m.map (fun p => p.2.length)).sum ≤ (dumpsArgProps m).length := by
  have h1 := joinSep_length_ge ([',', ' '] : Str)
    (m.map (fun p => jsonDumpsStr (natToDec p.1) ++ ([':', ' '] : Str) ++ dumpsInnerObj p.2))
  have h2 := outer_entry_sum m
  unfold dumpsArgProps
  simp only [List.length_append, List.length_cons, List.length_nil]
  omega

theorem outer_entries_head (m : List (Nat × List (Str × Nat))) (k : Nat) (v : List (Str × Nat)) :
    ∃ T, joinSep ([',', ' '] : Str) (((k, v) :: m).map
        (fun p => jsonDumpsStr (natToDec p.1) ++ ([':', ' '] : Str) ++ dumpsInnerObj p.2)) = '"' :: T := by
  cases m with
  | nil =>
      refine ⟨(natToDec k).foldr (fun c a => escChar c ++ a)
        ('"' :: (([':', ' '] : Str) ++ dumpsInnerObj v)), ?_⟩
      simp only [List.map_cons, List.map_nil, joinSep]
      rw [List.append_assoc, jsonDumpsStr_append]
  | cons e2 m2 =>
      refine ⟨(natToDec k).foldr (fun c a => escChar c ++ a)
        ('"' :: (([':', ' '] : Str) ++ dumpsInnerObj v ++ ([',', ' '] : Str)
          ++ joinSep ([',', ' '] : Str) ((e2 :: m2).map
            (fun p => jsonDumpsStr (natToDec p.1) ++ ([':', ' '] : Str) ++ dumpsInnerObj p.2)))), ?_⟩
      simp only [List.map_cons, joinSep]
      simp only [List.append_assoc]
      rw [jsonDumpsStr_append]

theorem parseOuterObj_dumps (m : List (Nat × List (Str × Nat))) (fuel : Nat) (rest : List Char)
    (hf : m.length + (m.map (fun p => p.2.length)).sum < fuel) :
    parseOuterObj fuel (dumpsArgProps m ++ rest) =
      some (m.map (fun p => (natToDec p.1, p.2)), rest) := by
  have hstream : dumpsArgProps m ++ rest =
      '\x7b' :: (joinSep ([',', ' '] : Str) (m.map
        (fun p => jsonDumpsStr (natToDec p.1) ++ ([':', ' '] : Str) ++ dumpsInnerObj p.2))
        ++ '\x7d' :: rest) := by
    unfold dumpsArgProps
    simp [List.append_assoc]
  rw [hstream]
  unfold parseOuterObj
  rw [skipWsJ_cons_nws '\x7b' _ (by decide)]
  split
  · rename_i r heq
    injection heq with h1 h2
    subst h2
    cases m with
    | nil =>
        simp only [List.map_nil, joinSep, List.nil_append]
        rw [skipWsJ_cons_nws '\x7d' _ (by decide)]
        split
        · rename_i r2 heq2
          injection heq2 with h3 h4
          subst h4
          rfl
        · rename_i hne
          exact absurd rfl (hne _)
    | cons e m2 =>
        obtain ⟨ke, ve⟩ := e
        obtain ⟨T, hT⟩ := outer_entries_head m2 ke ve
        rw [hT, List.cons_append, skipWsJ_cons_nws '"' _ (by decide)]
        split
        · rename_i r2 heq2
          exact absurd heq2 (by simp)
        · rw [← List.cons_append, ← hT]
          exact parseOuterEntries_round ((ke, ve) :: m2) fuel rest (by simp) hf
  · rename_i hne
    exact absurd rfl (hne _)

theorem loadsArgProps_dumps (m : List (Nat × List (Str × Nat))) :
    loadsArgProps (dumpsArgProps m) = some (m.map (fun p => (natToDec p.1, p.2))) := by
  unfold loadsArgProps
  rw [show dumpsArgProps m = dumpsArgProps m ++ [] from (List.append_nil _).symm]
  rw [parseOuterObj_dumps m _ [] ?hfu]
  case hfu =>
    have := dumpsArgProps_size m
    simp only [List.length_append, List.length_nil]
    omega
  rfl

theorem mapM_dec_keys (v : List (Nat × List (Str × Nat))) :
    (v.map (fun p => (natToDec p.1, p.2))).mapM
        (fun p => (int10 p.1).map (fun k => (k, p.2))) = Except.ok v := by
  induction v with
  | nil => rfl
  | cons p v ih =>
      simp only [List.map_cons, List.mapM_cons, int10_natToDec, ih]
      rfl

theorem dumpsArgProps_head (v : List (Nat × List (Str × Nat))) :
    ∃ T, dumpsArgProps v = '\x7b' :: T ∧ isWs '\x7b' = false := by
  refine ⟨joinSep ([',', ' '] : Str) (v.map
    (fun p => jsonDumpsStr (natToDec p.1) ++ ([':', ' '] : Str) ++ dumpsInnerObj p.2))
    ++ ['\x7d'], ?_, by decide⟩
  unfold dumpsArgProps
  simp [List.append_assoc]

theorem load_arg_props_sorted : ∀ (M tbl : List (Nat × List (Nat × List (Str × Nat)))),
    (∀ p ∈ M, tbl.lookup p.1 = none) → (M.map Prod.fst).Nodup →
    load_arg_props (M.map (fun p => hex8 p.1 ++ [' '] ++ dumpsArgProps p.2)) tbl =
      .ok (tbl ++ M) := by
  intro M
  induction M with
  | nil => intro tbl _ _; simp [load_arg_props]
  | cons p M ih =>
      intro tbl hlk hnd
      obtain ⟨a, v⟩ := p
      have hlka : tbl.lookup a = none := hlk (a, v) (by simp)
      simp only [List.map_cons, List.nodup_cons, List.mem_map] at hnd
      obtain ⟨hna, hndM⟩ := hnd
      have hrec : ∀ q ∈ M, (tbl ++ [(a, v)]).lookup q.1 = none := by
        intro q hq
        rw [lookup_append_none _ _ _ (hlk q (by simp [hq]))]
        exact lookup_single_ne a q.1 v (fun he => hna ⟨q, hq, he⟩)
      simp only [List.map_cons, load_arg_props]
      have hline : hex8 a ++ [' '] ++ dumpsArgProps v = hex8 a ++ ' ' :: dumpsArgProps v := by
        simp
      obtain ⟨T, hT, hTws⟩ := dumpsArgProps_head v
      rw [hline, splitN1_line (hex8 a) (dumpsArgProps v) (hex8_ne_nil a) (hex8_ws_free a)
        ⟨'\x7b', T, hT, hTws⟩]
      dsimp only
      rw [int16_hex8]
      dsimp only
      rw [loadsArgProps_dumps]
      dsimp only
      rw [mapM_dec_keys]
      dsimp only
      rw [dictSet_notmem tbl a v hlka]
      have hres := ih (tbl ++ [(a, v)]) hrec hndM
      simpa using hres

theorem load_save_arg_props (L : List (Nat × List (Nat × List (Str × Nat))))
    (hnd : (L.map Prod.fst).Nodup) :
    load_arg_props (save_arg_props L) [] = .ok (sortByKey L) := by
  unfold save_arg_props
  have hperm := sortByKey_perm L
  have := load_arg_props_sorted (sortByKey L) [] (fun p _ => rfl)
    (((hperm.map Prod.fst).nodup_iff).mpr hnd)
  simpa using this

/-! ### Xrefs round-trip -/

theorem load_xref_srcs : ∀ (N acc : List (Nat × Str))
    (tbl0 : List (Nat × List (Nat × Str))) (a : Nat) (rest : List Str),
    tbl0.lookup a = none →
    (∀ q ∈ N, q.2 ≠ [] ∧ ∀ c ∈ q.2, isWs c = false) →
    (∀ q ∈ N, acc.lookup q.1 = none) → (N.map Prod.fst).Nodup →
    loadXrefsLoop (tbl0 ++ [(a, acc)]) (some a)
        (N.map (fun q => hex8 q.1 ++ [' '] ++ q.2) ++ [] :: rest)
      = loadXrefsLoop (tbl0 ++ [(a, acc ++ N)]) none rest := by
  intro N
  induction N with
  | nil =>
      intro acc tbl0 a rest _ _ _ _
      simp only [List.map_nil, List.nil_append, loadXrefsLoop]
      rw [show rstripWs [] = [] from rfl]
      simp
  | cons q N ih =>
      intro acc tbl0 a rest hta hok hacc hnd
      obtain ⟨fa, tag⟩ := q
      have htag : tag ≠ [] ∧ ∀ c ∈ tag, isWs c = false := hok (fa, tag) (by simp)
      simp only [List.map_cons, List.nodup_cons, List.mem_map] at hnd
      obtain ⟨hnfa, hndN⟩ := hnd
      simp only [List.map_cons, List.cons_append, loadXrefsLoop]
      have hline : hex8 fa ++ [' '] ++ tag = (hex8 fa ++ [' ']) ++ tag := by simp
      have hstrip : rstripWs (hex8 fa ++ [' '] ++ tag) = hex8 fa ++ [' '] ++ tag := by
        rw [hline, rstripWs_append _ tag htag.1 htag.2, ← hline]
      rw [hstrip]
      rw [if_neg (by simp [hex8_ne_nil fa])]
      have hsplit : splitWs (hex8 fa ++ [' '] ++ tag) = [hex8 fa, tag] := by
        have : hex8 fa ++ [' '] ++ tag = hex8 fa ++ ' ' :: tag := by simp
        rw [this, splitWs_two (hex8 fa) tag (hex8_ne_nil fa) htag.1 (hex8_ws_free fa) htag.2]
      rw [hsplit]
      dsimp only
      rw [int16_hex8]
      dsimp only
      rw [lookup_append_self tbl0 a acc hta]
      dsimp only [Option.getD_some]
      rw [dictSet_notmem acc fa tag (hacc (fa, tag) (by simp))]
      rw [dictSet_replace_last tbl0 a acc (acc ++ [(fa, tag)]) hta]
      have hres := ih (acc ++ [(fa, tag)]) tbl0 a rest hta
        (fun q2 hq2 => hok q2 (by simp [hq2]))
        (fun q2 hq2 => by
          rw [lookup_append_none _ _ _ (hacc q2 (by simp [hq2]))]
          exact lookup_single_ne fa q2.1 tag (fun he => hnfa ⟨q2, hq2, he⟩))
        hndN
      simpa using hres

theorem load_xrefs_blocks : ∀ (M tbl : List (Nat × List (Nat × Str))),
    (∀ p ∈ M, tbl.lookup p.1 = none) → (M.map Prod.fst).Nodup →
    (∀ p ∈ M, p.2 ≠ [] ∧ (∀ q ∈ p.2, q.2 ≠ [] ∧ ∀ c ∈ q.2, isWs c = false) ∧
      (p.2.map Prod.fst).Nodup) →
    loadXrefsLoop tbl none
        ((M.map (fun p => hex8 p.1 ::
          (sortByKey p.2).map (fun q => hex8 q.1 ++ [' '] ++ q.2) ++ [[]])).flatten)
      = .ok (tbl ++ M.map (fun p => (p.1, sortByKey p.2))) := by
  intro M
  induction M with
  | nil => intro tbl _ _ _; simp [loadXrefsLoop]
  | cons p M ih =>
      intro tbl hlk hnd hin
      obtain ⟨a, inner⟩ := p
      obtain ⟨hinne, hinok, hinnd⟩ := hin (a, inner) (by simp)
      have hperm := sortByKey_perm inner
      have hsne : sortByKey inner ≠ [] := by
        intro h0
        have hle := hperm.length_eq
        rw [h0] at hle
        simp only [List.length_nil] at hle
        exact hinne (List.length_eq_zero.mp hle.symm)
      have hsok : ∀ q ∈ sortByKey inner, q.2 ≠ [] ∧ ∀ c ∈ q.2, isWs c = false :=
        fun q hq => hinok q (hperm.mem_iff.mp hq)
      have hsnd : ((sortByKey inner).map Prod.fst).Nodup :=
        ((hperm.map Prod.fst).nodup_iff).mpr hinnd
      have hlka : tbl.lookup a = none := hlk (a, inner) (by simp)
      simp only [List.map_cons, List.nodup_cons, List.mem_map] at hnd
      obtain ⟨hna, hndM⟩ := hnd
      have hdecomp : ((hex8 a :: (sortByKey inner).map (fun q => hex8 q.1 ++ [' '] ++ q.2)
            ++ [[]]) : List Str)
          ++ (M.map (fun p => hex8 p.1 ::
              (sortByKey p.2).map (fun q => hex8 q.1 ++ [' '] ++ q.2) ++ [[]])).flatten
          = hex8 a :: ((sortByKey inner).map (fun q => hex8 q.1 ++ [' '] ++ q.2)
            ++ [] :: (M.map (fun p => hex8 p.1 ::
              (sortByKey p.2).map (fun q => hex8 q.1 ++ [' '] ++ q.2) ++ [[]])).flatten) := by
        simp
      rw [List.map_cons, List.flatten_cons, hdecomp]
      simp only [loadXrefsLoop]
      rw [rstripWs_ws_free (hex8 a) (hex8_ne_nil a) (hex8_ws_free a)]
      rw [if_neg (hex8_ne_nil a)]
      rw [int16_hex8]
      dsimp only
      obtain ⟨q0, N', hq0⟩ := List.exists_cons_of_ne_nil hsne
      obtain ⟨fa0, tag0⟩ := q0
      have hq0ok : tag0 ≠ [] ∧ ∀ c ∈ tag0, isWs c = false :=
        hsok (fa0, tag0) (by rw [hq0]; simp)
      rw [hq0, List.map_cons, List.cons_append]
      simp only [loadXrefsLoop]
      have hstrip : rstripWs (hex8 fa0 ++ [' '] ++ tag0) = hex8 fa0 ++ [' '] ++ tag0 := by
        have hl2 : hex8 fa0 ++ [' '] ++ tag0 = (hex8 fa0 ++ [' ']) ++ tag0 := by simp
        rw [hl2, rstripWs_append _ tag0 hq0ok.1 hq0ok.2, ← hl2]
      rw [hstrip]
      rw [if_neg (by simp [hex8_ne_nil fa0])]
      have hsplit : splitWs (hex8 fa0 ++ [' '] ++ tag0) = [hex8 fa0, tag0] := by
        have hl3 : hex8 fa0 ++ [' '] ++ tag0 = hex8 fa0 ++ ' ' :: tag0 := by simp
        rw [hl3, splitWs_two (hex8 fa0) tag0 (hex8_ne_nil fa0) hq0ok.1 (hex8_ws_free fa0) hq0ok.2]
      rw [hsplit]
      dsimp only
      rw [int16_hex8]
      dsimp only
      rw [hlka]
      dsimp only [Option.getD_none]
      rw [show dictSet ([] : List (Nat × Str)) fa0 tag0 = [(fa0, tag0)] from rfl]
      rw [dictSet_notmem tbl a [(fa0, tag0)] hlka]
      have hsrc := load_xref_srcs N' [(fa0, tag0)] tbl a
        ((M.map (fun p => hex8 p.1 ::
          (sortByKey p.2).map (fun q => hex8 q.1 ++ [' '] ++ q.2) ++ [[]])).flatten)
        hlka
        (fun q2 hq2 => hsok q2 (by rw [hq0]; simp [hq2]))
        (fun q2 hq2 => by
          apply lookup_single_ne
          intro he
          rw [hq0] at hsnd
          simp only [List.map_cons, List.nodup_cons, List.mem_map] at hsnd
          exact hsnd.1 ⟨q2, hq2, he⟩)
        (by
          rw [hq0] at hsnd
          simp only [List.map_cons, List.nodup_cons] at hsnd
          exact hsnd.2)
      rw [hsrc]
      have hres := ih (tbl ++ [(a, [(fa0, tag0)] ++ N')])
        (fun q2 hq2 => by
          rw [lookup_append_none _ _ _ (hlk q2 (by simp [hq2]))]
          exact lookup_single_ne a q2.1 _ (fun he => hna ⟨q2, hq2, he⟩))
        hndM
        (fun q2 hq2 => hin q2 (by simp [hq2]))
      rw [hres]
      rw [show ([(fa0, tag0)] ++ N' : List (Nat × Str)) = sortByKey inner from by
        rw [hq0]; simp]
      simp

theorem load_save_xrefs (X : List (Nat × List (Nat × Str)))
    (hnd : (X.map Prod.fst).Nodup)
    (hin : ∀ p ∈ X, p.2 ≠ [] ∧ (∀ q ∈ p.2, q.2 ≠ [] ∧ ∀ c ∈ q.2, isWs c = false) ∧
      (p.2.map Prod.fst).Nodup) :
    load_xrefs (save_xrefs X) [] = .ok ((sortByKey X).map (fun p => (p.1, sortByKey p.2))) := by
  unfold load_xrefs save_xrefs
  have hperm := sortByKey_perm X
  have := load_xrefs_blocks (sortByKey X) [] (fun p _ => rfl)
    ((hperm.map Prod.fst).nodup_iff.mpr hnd)
    (fun p hp => hin p (hperm.mem_iff.mp hp))
  simpa using this

/-! ### Areas round-trip -/

theorem unhexlify_hexlify (bs : List Nat) (h : ∀ b ∈ bs, b < 256) :
    unhexlify (hexlify bs) = .ok bs := by
  induction bs with
  | nil => rfl
  | cons b rest ih =>
      have hb : b < 256 := h b (by simp)
      have hdiv : b / 16 < 16 := by omega
      have hmod : b % 16 < 16 := Nat.mod_lt _ (by omega)
      have hstep : hexlify (b :: rest) =
          hexChar (b / 16) :: hexChar (b % 16) :: hexlify rest := by
        unfold hexlify
        simp
      rw [hstep]
      unfold unhexlify
      rw [hexDigit_hexChar _ hdiv, hexDigit_hexChar _ hmod]
      dsimp only
      rw [ih (fun x hx => h x (by simp [hx]))]
      have : b / 16 * 16 + b % 16 = b := by omega
      rw [this]

theorem hexlify_ws_free (bs : List Nat) (h : ∀ b ∈ bs, b < 256) :
    ∀ c ∈ hexlify bs, isWs c = false := by
  intro c hc
  unfold hexlify at hc
  rw [List.mem_flatten] at hc
  obtain ⟨l, hl, hcl⟩ := hc
  rw [List.mem_map] at hl
  obtain ⟨b, hb, rfl⟩ := hl
  have hblt : b < 256 := h b hb
  simp only [List.mem_cons, List.not_mem_nil, or_false] at hcl
  rcases hcl with rfl | rfl
  · exact isWs_hexChar _ (by omega)
  · exact isWs_hexChar _ (Nat.mod_lt _ (by omega))

theorem hexlify_ne_nil (bs : List Nat) (h : bs ≠ []) : hexlify bs ≠ [] := by
  obtain ⟨b, rest, rfl⟩ := List.exists_cons_of_ne_nil h
  unfold hexlify
  simp

theorem overwriteAt_nil (buf : List Nat) (i : Nat) : overwriteAt buf i [] = buf := by
  unfold overwriteAt
  simp

theorem overwriteAt_length (buf : List Nat) (i : Nat) (seg : List Nat)
    (h : i + seg.length ≤ buf.length) :
    (overwriteAt buf i seg).length = buf.length := by
  unfold overwriteAt
  simp only [List.length_append, List.length_take, List.length_drop]
  omega

theorem overwriteAt_compose (buf : List Nat) (i : Nat) (s1 s2 : List Nat)
    (h : i + s1.length + s2.length ≤ buf.length) :
    overwriteAt (overwriteAt buf i s1) (i + s1.length) s2 = overwriteAt buf i (s1 ++ s2) := by
  unfold overwriteAt
  have hi : i ≤ buf.length := by omega
  have hP : (List.take i buf ++ s1).length = i + s1.length := by
    rw [List.length_append, List.length_take_of_le hi]
  rw [show i + s1.length = (List.take i buf ++ s1).length from hP.symm]
  rw [List.take_left, List.drop_append, List.drop_drop]
  rw [hP]
  simp [List.append_assoc, Nat.add_assoc]

theorem chunksAux_props (fuel : Nat) : ∀ (l : List Nat), l.length ≤ fuel →
    (chunksAux fuel l).flatten = l ∧
    ∀ ch ∈ chunksAux fuel l, ch ≠ [] ∧ ∀ b ∈ ch, b ∈ l := by
  induction fuel with
  | zero =>
      intro l h
      have : l = [] := List.length_eq_zero.mp (by omega)
      subst this
      simp [chunksAux]
  | succ fuel ih =>
      intro l h
      cases l with
      | nil => simp [chunksAux]
      | cons c rest =>
          have hdrop : ((c :: rest).drop 32).length ≤ fuel := by
            rw [List.length_drop]
            simp only [List.length_cons] at h ⊢
            omega
          obtain ⟨ihf, ihm⟩ := ih ((c :: rest).drop 32) hdrop
          constructor
          · simp only [chunksAux, List.flatten_cons]
            rw [ihf, List.take_append_drop]
          · intro ch hch
            simp only [chunksAux, List.mem_cons] at hch
            rcases hch with rfl | hch
            · refine ⟨by simp, ?_⟩
              intro b hb
              exact List.mem_of_mem_take hb
            · obtain ⟨hne, hmem⟩ := ihm ch hch
              exact ⟨hne, fun b hb => List.mem_of_mem_drop (hmem b hb)⟩

theorem loadAreaChunks_round : ∀ (chunks : List (List Nat)) (buf : List Nat) (i : Nat)
    (rest : List Str),
    (∀ ch ∈ chunks, ch ≠ [] ∧ ∀ b ∈ ch, b < 256) →
    i + chunks.flatten.length ≤ buf.length →
    loadAreaChunks buf i ((chunks.map hexlify) ++ [] :: rest) =
      .ok (overwriteAt buf i chunks.flatten, rest) := by
  intro chunks
  induction chunks with
  | nil =>
      intro buf i rest _ _
      simp only [List.map_nil, List.nil_append, loadAreaChunks]
      rw [show rstripWs [] = [] from rfl]
      simp [overwriteAt_nil]
  | cons ch chs ih =>
      intro buf i rest hok hlen
      obtain ⟨hne, hlt⟩ := hok ch (by simp)
      simp only [List.map_cons, List.cons_append, loadAreaChunks]
      rw [rstripWs_ws_free (hexlify ch) (hexlify_ne_nil ch hne) (hexlify_ws_free ch hlt)]
      rw [if_neg (hexlify_ne_nil ch hne)]
      rw [unhexlify_hexlify ch hlt]
      dsimp only
      have hlen2 : i + ch.length + chs.flatten.length ≤ buf.length := by
        simp only [List.flatten_cons, List.length_append] at hlen
        omega
      have hbuf2 : (i + ch.length) + chs.flatten.length ≤ (overwriteAt buf i ch).length := by
        rw [overwriteAt_length buf i ch (by omega)]
        omega
      rw [List.append_eq]
      rw [ih (overwriteAt buf i ch) (i + ch.length) rest
        (fun c2 hc2 => hok c2 (by simp [hc2])) hbuf2]
      rw [overwriteAt_compose buf i ch chs.flatten hlen2]
      rfl

theorem overwriteAt_full (buf seg : List Nat) (h : seg.length = buf.length) :
    overwriteAt buf 0 seg = seg := by
  unfold overwriteAt
  rw [List.take_zero, List.nil_append, Nat.zero_add, h, List.drop_length, List.append_nil]

theorem load_save_areas : ∀ (areas areas2 : List Area),
    List.Forall₂ (fun a b => b.start = a.start ∧ b.stop = a.stop ∧
      b.flags.length = a.flags.length) areas areas2 →
    (∀ a ∈ areas, ∀ b ∈ a.flags, b < 256) →
    load_areas areas2 (save_areas areas) =
      .ok (List.zipWith (fun a b => { b with flags := a.flags }) areas areas2) := by
  intro areas areas2 hrel
  induction hrel with
  | nil => intro _; rfl
  | cons ha htail ih =>
      rename_i a b arest brest
      intro hflags
      obtain ⟨hstart, hstop, hlen⟩ := ha
      have hflt : ∀ x ∈ a.flags, x < 256 := hflags a (by simp)
      have hchunk := chunksAux_props a.flags.length a.flags (le_refl _)
      obtain ⟨hcf, hcm⟩ := hchunk
      have hdecomp : save_areas (a :: arest) =
          (hex8 a.start ++ [' '] ++ hex8 a.stop) ::
            ((chunksOf32 a.flags).map hexlify ++ [] :: save_areas arest) := by
        unfold save_areas
        simp
      rw [hdecomp]
      simp only [load_areas]
      have hsplit : splitWs (hex8 a.start ++ [' '] ++ hex8 a.stop) =
          [hex8 a.start, hex8 a.stop] := by
        have hl3 : hex8 a.start ++ [' '] ++ hex8 a.stop = hex8 a.start ++ ' ' :: hex8 a.stop := by
          simp
        rw [hl3, splitWs_two _ _ (hex8_ne_nil _) (hex8_ne_nil _) (hex8_ws_free _) (hex8_ws_free _)]
      rw [hsplit]
      dsimp only
      rw [int16_hex8]
      dsimp only
      rw [int16_hex8]
      dsimp only
      rw [if_pos ⟨hstart, hstop⟩]
      have hround := loadAreaChunks_round (chunksOf32 a.flags) b.flags 0 (save_areas arest)
        (fun ch hch => ⟨(hcm ch hch).1, fun x hx => hflt x ((hcm ch hch).2 x hx)⟩)
        (by
          rw [show (chunksOf32 a.flags).flatten = a.flags from hcf]
          omega)
      rw [show (chunksOf32 a.flags : List (List Nat)) = chunksAux a.flags.length a.flags from rfl]
        at hround ⊢
      rw [hround]
      dsimp only
      rw [show (chunksAux a.flags.length a.flags).flatten = a.flags from hcf]
      rw [overwriteAt_full b.flags a.flags hlen.symm]
      rw [ih (fun x hx => hflags x (by simp [hx]))]
      rfl

theorem c3_counterexample :
    load_labels (save_labels [(0, LabelVal.str ('a' :: ' ' :: 'b' :: []))]) [] =
      .ok [(0, LabelVal.str ['a'])] ∧
    ('a' :: ' ' :: 'b' :: [] : Str) ≠ ['a'] := by
  decide

theorem c3_theorem
    (L : List (Nat × LabelVal)) (C : List (Nat × Str))
    (A : List (Nat × List (Nat × List (Str × Nat))))
    (X : List (Nat × List (Nat × Str)))
    (ars ars2 : List Area)
    (hL1 : ∀ p ∈ L, labelOK p = true) (hL2 : (L.map Prod.fst).Nodup)
    (hC : (C.map Prod.fst).Nodup)
    (hA : (A.map Prod.fst).Nodup)
    (hX1 : (X.map Prod.fst).Nodup)
    (hX2 : ∀ p ∈ X, p.2 ≠ [] ∧ (∀ q ∈ p.2, q.2 ≠ [] ∧ ∀ c ∈ q.2, isWs c = false) ∧
      (p.2.map Prod.fst).Nodup)
    (hAr : List.Forall₂ (fun a b => b.start = a.start ∧ b.stop = a.stop ∧
      b.flags.length = a.flags.length) ars ars2)
    (hFl : ∀ a ∈ ars, ∀ b ∈ a.flags, b < 256) :
    load_labels (save_labels L) [] = .ok (sortByKey L) ∧
    load_comments (save_comments C) [] = .ok (sortByKey C) ∧
    load_arg_props (save_arg_props A) [] = .ok (sortByKey A) ∧
    load_xrefs (save_xrefs X) [] = .ok ((sortByKey X).map (fun p => (p.1, sortByKey p.2))) ∧
    load_areas ars2 (save_areas ars) =
      .ok (List.zipWith (fun a b => { b with flags := a.flags }) ars ars2) :=
  ⟨load_save_labels L hL1 hL2, load_save_comments C hC, load_save_arg_props A hA,
   load_save_xrefs X hX1 hX2, load_save_areas ars ars2 hAr hFl⟩

theorem c3_witness :
    load_labels (save_labels c3L) [] = .ok (sortByKey c3L) ∧
    load_comments (save_comments c3C) [] = .ok (sortByKey c3C) ∧
    load_arg_props (save_arg_props c3A) [] = .ok (sortByKey c3A) ∧
    load_xrefs (save_xrefs c3X) [] = .ok ((sortByKey c3X).map (fun p => (p.1, sortByKey p.2))) ∧
    load_areas c3Ar2 (save_areas c3Ar) =
      .ok (List.zipWith (fun a b => { b with flags := a.flags }) c3Ar c3Ar2) :=
  c3_theorem c3L c3C c3A c3X c3Ar c3Ar2 (by decide) (by decide) (by decide) (by decide)
    (by decide) (by decide) (List.Forall₂.cons (by decide) List.Forall₂.nil) (by decide)


theorem c6_counterexample :
    is_valid_addr c6AS 1 = true ∧
    render_around c6AS noAna 1 (-1) 1 = .error .assertionError := by
  decide

example : marchOK c6AS noAna ⟨0, 2, [], [7, 7, 7], [DATA, DATA_CONT, UNK]⟩ 3 0 = true := by
  decide

theorem add_line_fields (m : Model) (addr : Nat) (l : Line) :
    (m.add_line addr l).target_addr = m.target_addr ∧
    (m.add_line addr l).target_subno = m.target_subno ∧
    (m.add_line addr l).last_addr = (addr : Int) ∧
    ((m.add_line addr l).target_addr_lineno = m.target_addr_lineno ∨
      (m.add_line addr l).target_addr_lineno = (m.cnt : Int)) ∧
    ((m.add_line addr l).target_addr_lineno_0 = m.target_addr_lineno_0 ∨
      (m.add_line addr l).target_addr_lineno_0 = (m.cnt : Int)) := by
  unfold Model.add_line
  dsimp only
  split_ifs <;> simp_all

theorem add_line_mOK (T : Int) (m : Model) (addr : Nat) (l : Line) (h : mOK T m) :
    mOK T (m.add_line addr l) := by
  obtain ⟨h1, h2, h3⟩ := h
  obtain ⟨f1, _, _, f4, f5⟩ := add_line_fields m addr l
  refine ⟨by rw [f1, h1], ?_, ?_⟩
  · rcases f4 with f4 | f4
    · rw [f4]; exact h2
    · rw [f4]; right; exact Int.ofNat_nonneg m.cnt
  · rcases f5 with f5 | f5
    · rw [f5]; exact h3
    · rw [f5]; right; exact Int.ofNat_nonneg m.cnt

theorem add_line_l0_mono (m : Model) (addr : Nat) (l : Line)
    (h : 0 ≤ m.target_addr_lineno_0) : 0 ≤ (m.add_line addr l).target_addr_lineno_0 := by
  obtain ⟨_, _, _, _, f5⟩ := add_line_fields m addr l
  rcases f5 with f5 | f5
  · rw [f5]; exact h
  · rw [f5]; exact Int.ofNat_nonneg m.cnt

theorem add_line_latch0 (m : Model) (addr : Nat) (l : Line)
    (ht : (addr : Int) = m.target_addr)
    (h : m.last_addr ≠ (addr : Int) ∨ 0 ≤ m.target_addr_lineno_0) :
    0 ≤ (m.add_line addr l).target_addr_lineno_0 := by
  rcases h with h | h
  · unfold Model.add_line
    dsimp only
    split_ifs <;> simp_all [Int.ofNat_nonneg] <;> omega
  · exact add_line_l0_mono m addr l h

theorem add_line_inv2 (T : Int) (m : Model) (addr : Nat) (l : Line)
    (hT : m.target_addr = T) (haddr : (addr : Int) ≤ T) (h : inv2 T m) :
    inv2 T (m.add_line addr l) := by
  obtain ⟨_, _, f3, _, _⟩ := add_line_fields m addr l
  rcases lt_or_eq_of_le haddr with hlt | heq
  · left
    rw [f3]
    exact hlt
  · right
    apply add_line_latch0 m addr l (by rw [heq, hT])
    rcases h with h | h
    · left
      intro hc
      rw [hc, heq] at h
      exact lt_irrefl T h
    · right; exact h

theorem foldl_add_line_mOK (T : Int) (addr : Nat) (g : Nat × Str → Line) :
    ∀ (xs : List (Nat × Str)) (m : Model), mOK T m →
      mOK T (xs.foldl (fun mm q => mm.add_line addr (g q)) m) := by
  intro xs
  induction xs with
  | nil => intro m h; exact h
  | cons q xs ih => intro m h; exact ih _ (add_line_mOK T m addr (g q) h)

theorem foldl_add_line_inv2 (T : Int) (addr : Nat) (g : Nat × Str → Line)
    (haddr : (addr : Int) ≤ T) :
    ∀ (xs : List (Nat × Str)) (m : Model), mOK T m → inv2 T m →
      inv2 T (xs.foldl (fun mm q => mm.add_line addr (g q)) m) := by
  intro xs
  induction xs with
  | nil => intro m _ h; exact h
  | cons q xs ih =>
      intro m hok h
      exact ih _ (add_line_mOK T m addr (g q) hok)
        (add_line_inv2 T m addr (g q) hok.1 haddr h)

theorem foldl_add_line_l0_mono (addr : Nat) (g : Nat × Str → Line) :
    ∀ (xs : List (Nat × Str)) (m : Model), 0 ≤ m.target_addr_lineno_0 →
      0 ≤ (xs.foldl (fun mm q => mm.add_line addr (g q)) m).target_addr_lineno_0 := by
  intro xs
  induction xs with
  | nil => intro m h; exact h
  | cons q xs ih => intro m h; exact ih _ (add_line_l0_mono m addr (g q) h)

theorem contRange_spec (a : Area) (i i' : Nat) (h : contRange a i i' = true) :
    ∀ j (hj : j < a.flags.length), i < j → j < i' → isCont a.flags[j] = true := by
  intro j hj hij hji
  unfold contRange at h
  rw [List.all_eq_true] at h
  apply h
  have hget : ((a.flags.drop (i + 1)).take (i' - (i + 1)))[j - (i + 1)]? = some a.flags[j] := by
    rw [List.getElem?_take, if_pos (by omega), List.getElem?_drop]
    rw [show i + 1 + (j - (i + 1)) = j from by omega]
    exact List.getElem?_eq_getElem hj
  obtain ⟨hb, heq⟩ := List.getElem?_eq_some_iff.mp hget
  exact heq ▸ List.getElem_mem hb

theorem marchOK_unfold (s : AddressSpace) (ana : Nat → Except PyErr Nat) (a : Area)
    (fuel i : Nat) :
    marchOK s ana a fuel i =
      if i = a.flags.length then true
      else match fuel with
        | 0 => false
        | fuel + 1 =>
          if h : i < a.flags.length then
            !isCont a.flags[i] &&
            (match renderUnit s ana a i (a.start + i) a.flags[i] with
             | .error _ => false
             | .ok (_, i') =>
                 decide (i < i') && decide (i' ≤ a.flags.length) &&
                   contRange a i i' && marchOK s ana a fuel i')
          else false := by
  rw [marchOK.eq_def]

theorem marchOK_step (s : AddressSpace) (ana : Nat → Except PyErr Nat) (a : Area)
    (g i : Nat) (hlt : i < a.flags.length) (hm : marchOK s ana a g i = true) :
    isCont a.flags[i] = false ∧
    ∃ out i', renderUnit s ana a i (a.start + i) a.flags[i] = .ok (out, i') ∧
      i < i' ∧ i' ≤ a.flags.length ∧ contRange a i i' = true ∧
      marchOK s ana a (g - 1) i' = true := by
  cases g with
  | zero =>
      rw [marchOK_unfold, if_neg (by omega)] at hm
      exact absurd hm (by simp)
  | succ g =>
      rw [marchOK_unfold, if_neg (by omega)] at hm
      dsimp only at hm
      rw [dif_pos hlt] at hm
      rw [Bool.and_eq_true] at hm
      obtain ⟨h1, h2⟩ := hm
      refine ⟨by simpa using h1, ?_⟩
      cases hr : renderUnit s ana a i (a.start + i) a.flags[i] with
      | error e => rw [hr] at h2; exact absurd h2 (by simp)
      | ok p =>
          obtain ⟨out, i'⟩ := p
          rw [hr] at h2
          dsimp only at h2
          simp only [Bool.and_eq_true, decide_eq_true_eq] at h2
          exact ⟨out, i', rfl, h2.1.1.1, h2.1.1.2, h2.1.2, by simpa using h2.2⟩

theorem marchOK_mono (s : AddressSpace) (ana : Nat → Except PyErr Nat) (a : Area) :
    ∀ g g' i, g ≤ g' → marchOK s ana a g i = true → marchOK s ana a g' i = true := by
  intro g
  induction g with
  | zero =>
      intro g' i _ hm
      rw [marchOK_unfold] at hm
      by_cases he : i = a.flags.length
      · rw [marchOK_unfold, if_pos he]
      · rw [if_neg he] at hm
        exact absurd hm (by simp)
  | succ g ih =>
      intro g' i hg hm
      by_cases he : i = a.flags.length
      · rw [marchOK_unfold, if_pos he]
      · rw [marchOK_unfold, if_neg he] at hm
        cases g' with
        | zero => omega
        | succ g' =>
            rw [marchOK_unfold, if_neg he]
            dsimp only at hm ⊢
            by_cases hlt : i < a.flags.length
            · rw [dif_pos hlt] at hm ⊢
              rw [Bool.and_eq_true] at hm ⊢
              refine ⟨hm.1, ?_⟩
              have h2 := hm.2
              cases hr : renderUnit s ana a i (a.start + i) a.flags[i] with
              | error e => rw [hr] at h2; exact absurd h2 (by simp)
              | ok p =>
                  obtain ⟨out, i'⟩ := p
                  rw [hr] at h2
                  dsimp only at h2 ⊢
                  simp only [Bool.and_eq_true] at h2 ⊢
                  exact ⟨h2.1, ih g' i' (by omega) h2.2⟩
            · rw [dif_neg hlt] at hm
              exact absurd hm (by simp)

theorem marchOK_visit (s : AddressSpace) (ana : Nat → Except PyErr Nat) (a : Area) :
    ∀ g i p (hm : marchOK s ana a g i = true) (hip : i ≤ p) (hp : p < a.flags.length)
      (hh : isCont a.flags[p] = false), marchOK s ana a g p = true := by
  intro g
  induction g with
  | zero =>
      intro i p hm hip hp _
      rw [marchOK_unfold] at hm
      by_cases he : i = a.flags.length
      · omega
      · rw [if_neg he] at hm
        exact absurd hm (by simp)
  | succ g ih =>
      intro i p hm hip hp hhead
      rcases Nat.eq_or_lt_of_le hip with rfl | hlt
      · exact hm
      · have hilt : i < a.flags.length := by omega
        obtain ⟨h1, out, i', hr, hii', hi'len, hcr, hm'⟩ :=
          marchOK_step s ana a (g + 1) i hilt hm
        have hpi' : i' ≤ p := by
          by_contra hc
          push_neg at hc
          have := contRange_spec a i i' hcr p hp hlt hc
          rw [hhead] at this
          exact absurd this (by simp)
        have hv := ih i' p (by simpa using hm') hpi' hp hhead
        exact marchOK_mono s ana a g (g + 1) p (by omega) hv

theorem adjust_head (a : Area) :
    ∀ off (hoff : off < a.flags.length)
      (h0 : ∀ hl : 0 < a.flags.length, isCont a.flags[0] = false),
      ∃ p, adjust_offset_reverse off a = .ok p ∧ p ≤ off ∧
        ∃ hp : p < a.flags.length, isCont a.flags[p] = false := by
  intro off
  induction off with
  | zero =>
      intro hlt h0
      exact ⟨0, rfl, le_refl 0, hlt, h0 hlt⟩
  | succ off ih =>
      intro hlt h0
      have hget : a.flags[off + 1]? = some a.flags[off + 1] := List.getElem?_eq_getElem hlt
      by_cases hc : isCont a.flags[off + 1] = true
      · obtain ⟨p, hp, hple, hplt, hph⟩ := ih (by omega) h0
        refine ⟨p, ?_, by omega, hplt, hph⟩
        rw [adjust_offset_reverse, hget]
        dsimp only
        rw [if_pos (by simpa [isCont] using hc)]
        exact hp
      · refine ⟨off + 1, ?_, le_refl _, hlt, by simpa using hc⟩
        rw [adjust_offset_reverse, hget]
        dsimp only
        rw [if_neg (by simpa [isCont] using hc)]

theorem adjust_exact (a : Area) (off : Nat) (hlt : off < a.flags.length)
    (hh : isCont a.flags[off] = false) :
    adjust_offset_reverse off a = .ok off := by
  cases off with
  | zero => rfl
  | succ off =>
      rw [adjust_offset_reverse, List.getElem?_eq_getElem hlt]
      dsimp only
      rw [if_neg (by simpa [isCont] using hh)]


theorem get_flags_ok (s : AddressSpace) (hlens : areaLensOK s) (addr : Nat)
    (hval : (addr2area s addr).isSome = true) :
    ∃ f, get_flags s addr = .ok f := by
  unfold get_flags
  cases h2 : addr2area s addr with
  | none => rw [h2] at hval; exact absurd hval (by simp)
  | some p =>
      obtain ⟨off, a⟩ := p
      unfold addr2area at h2
      cases hidx : addr2idx s addr with
      | none => rw [hidx] at h2; exact absurd h2 (by simp)
      | some k =>
          rw [hidx] at h2
          dsimp only at h2
          obtain ⟨a2, ha2, h1, h2b⟩ := addr2idx_some s addr k hidx
          rw [ha2] at h2
          dsimp only at h2
          injection h2 with h2
          injection h2 with hoff ha
          subst ha
          subst hoff
          have hmem : a2 ∈ s.area_list := by
            rcases List.getElem?_eq_some_iff.mp ha2 with ⟨hk, he⟩
            exact he ▸ List.getElem_mem hk
          obtain ⟨hse, hlen⟩ := hlens a2 hmem
          have hoff2 : addr - a2.start < a2.flags.length := by omega
          dsimp only
          rw [List.getElem?_eq_getElem hoff2]
          exact ⟨a2.flags[addr - a2.start], rfl⟩

theorem get_label_ok (s : AddressSpace) (hlens : areaLensOK s) (addr : Nat)
    (hval : (addr2area s addr).isSome = true) :
    ∃ v, get_label s addr = .ok v := by
  unfold get_label
  cases hl : s.labels.lookup addr with
  | none => exact ⟨none, rfl⟩
  | some lv =>
      cases lv with
      | str t => exact ⟨some t, rfl⟩
      | num n =>
          obtain ⟨f, hf⟩ := get_flags_ok s hlens addr hval
          unfold get_default_label_pfx
          rw [hf]
          dsimp only
          split_ifs <;> exact ⟨_, rfl⟩

theorem valid_of_area (s : AddressSpace) (hlens : areaLensOK s) (a : Area)
    (ha : a ∈ s.area_list) (i : Nat) (hi : i < a.flags.length) :
    (addr2area s (a.start + i)).isSome = true := by
  unfold addr2area addr2idx
  cases hF : s.area_list.findIdx?
      (fun ar => decide (ar.start ≤ a.start + i ∧ a.start + i ≤ ar.stop)) with
  | none =>
      rw [List.findIdx?_eq_none_iff] at hF
      obtain ⟨hse, hlen⟩ := hlens a ha
      have hcontr : ¬(a.start ≤ a.start + i ∧ a.start + i ≤ a.stop) := by
        simpa using hF a ha
      push_neg at hcontr
      have h3 := hcontr (by omega)
      omega
  | some k =>
      obtain ⟨a2, ha2, _⟩ := findIdxP_some _ _ _ hF
      dsimp only
      rw [ha2]
      rfl

theorem xrefLines_mOK (T : Int) (s : AddressSpace) (addr : Nat) (m : Model) (h : mOK T m) :
    mOK T (xrefLines s addr m) := by
  unfold xrefLines
  cases get_xrefs s addr with
  | none => exact h
  | some x => exact foldl_add_line_mOK T addr (fun q => .xref addr q.1 q.2) _ m h

theorem xrefLines_l0_mono (s : AddressSpace) (addr : Nat) (m : Model)
    (h : 0 ≤ m.target_addr_lineno_0) : 0 ≤ (xrefLines s addr m).target_addr_lineno_0 := by
  unfold xrefLines
  cases get_xrefs s addr with
  | none => exact h
  | some x => exact foldl_add_line_l0_mono addr (fun q => .xref addr q.1 q.2) _ m h

theorem xrefLines_inv2 (T : Int) (s : AddressSpace) (addr : Nat) (m : Model)
    (hok : mOK T m) (haddr : (addr : Int) ≤ T) (h : inv2 T m) :
    inv2 T (xrefLines s addr m) := by
  unfold xrefLines
  cases get_xrefs s addr with
  | none => exact h
  | some x => exact foldl_add_line_inv2 T addr (fun q => .xref addr q.1 q.2) haddr _ m hok h

theorem labLineAdd_mOK (T : Int) (addr : Nat) (lab : Option Str) (m : Model) (h : mOK T m) :
    mOK T (labLineAdd addr lab m) := by
  unfold labLineAdd
  cases lab with
  | none => exact h
  | some t =>
      dsimp only
      split_ifs
      · exact h
      · exact add_line_mOK T m addr _ h

theorem labLineAdd_l0_mono (addr : Nat) (lab : Option Str) (m : Model)
    (h : 0 ≤ m.target_addr_lineno_0) : 0 ≤ (labLineAdd addr lab m).target_addr_lineno_0 := by
  unfold labLineAdd
  cases lab with
  | none => exact h
  | some t =>
      dsimp only
      split_ifs
      · exact h
      · exact add_line_l0_mono m addr _ h

theorem labLineAdd_inv2 (T : Int) (addr : Nat) (lab : Option Str) (m : Model)
    (hok : mOK T m) (haddr : (addr : Int) ≤ T) (h : inv2 T m) :
    inv2 T (labLineAdd addr lab m) := by
  unfold labLineAdd
  cases lab with
  | none => exact h
  | some t =>
      dsimp only
      split_ifs
      · exact h
      · exact add_line_inv2 T m addr _ hok.1 haddr h

theorem renderArea_unfold (s : AddressSpace) (ana : Nat → Except PyErr Nat) (a : Area)
    (m : Model) (i : Nat) (nl T : Int) (fuel : Nat) :
    renderArea s ana a m i nl T (fuel + 1) =
      (if _hi : i < a.flags.length then
        match get_label s (a.start + i) with
        | .error e => (xrefLines s (a.start + i) m,
            (if T ≥ 0 ∧ ((a.start + i : Nat) : Int) < T then nl + 1 else nl), some (.err e))
        | .ok lab =>
          match renderUnit s ana a i (a.start + i) a.flags[i] with
          | .error e => (labLineAdd (a.start + i) lab (xrefLines s (a.start + i) m),
              (if T ≥ 0 ∧ ((a.start + i : Nat) : Int) < T then nl + 1 else nl), some (.err e))
          | .ok (out, i') =>
              if ((if T ≥ 0 ∧ ((a.start + i : Nat) : Int) < T then nl + 1 else nl) - 1) = 0 then
                ((labLineAdd (a.start + i) lab (xrefLines s (a.start + i) m)).add_line
                    (a.start + i) out,
                  (if T ≥ 0 ∧ ((a.start + i : Nat) : Int) < T then nl + 1 else nl) - 1,
                  some .budget)
              else renderArea s ana a
                ((labLineAdd (a.start + i) lab (xrefLines s (a.start + i) m)).add_line
                  (a.start + i) out)
                i' ((if T ≥ 0 ∧ ((a.start + i : Nat) : Int) < T then nl + 1 else nl) - 1) T fuel
      else (m, nl, none)) := rfl

theorem renderArea_safe (s : AddressSpace) (ana : Nat → Except PyErr Nat) (a : Area)
    (T : Int) (hlens : areaLensOK s) (ha : a ∈ s.area_list) :
    ∀ fuel i m (nl : Int) (hm : marchOK s ana a a.flags.length i = true)
      (hfuel : a.flags.length - i < fuel) (hok : mOK T m),
      ∃ m' nl' st, renderArea s ana a m i nl T fuel = (m', nl', st) ∧
        (st = none ∨ st = some RStop.budget) ∧ mOK T m' ∧
        (0 ≤ m.target_addr_lineno_0 → 0 ≤ m'.target_addr_lineno_0) := by
  intro fuel
  induction fuel with
  | zero => intro i m nl _ hfuel _; omega
  | succ fuel ih =>
      intro i m nl hm hfuel hok
      rw [renderArea_unfold]
      by_cases hi : i < a.flags.length
      · rw [dif_pos hi]
        obtain ⟨hhead, out, i', hr, hii', hi'len, hcr, hm'⟩ :=
          marchOK_step s ana a a.flags.length i hi hm
        obtain ⟨v, hv⟩ := get_label_ok s hlens (a.start + i)
          (valid_of_area s hlens a ha i hi)
        rw [hv]
        dsimp only
        rw [hr]
        dsimp only
        have hok3 : mOK T ((labLineAdd (a.start + i) v
            (xrefLines s (a.start + i) m)).add_line (a.start + i) out) :=
          add_line_mOK T _ _ _ (labLineAdd_mOK T _ v _ (xrefLines_mOK T s _ m hok))
        have hmono3 : 0 ≤ m.target_addr_lineno_0 →
            0 ≤ ((labLineAdd (a.start + i) v
              (xrefLines s (a.start + i) m)).add_line (a.start + i) out).target_addr_lineno_0 :=
          fun h => add_line_l0_mono _ _ _ (labLineAdd_l0_mono _ v _ (xrefLines_l0_mono s _ m h))
        by_cases hb : ((if T ≥ 0 ∧ ((a.start + i : Nat) : Int) < T then nl + 1 else nl) - 1) = 0
        · rw [if_pos hb]
          exact ⟨_, _, some .budget, rfl, Or.inr rfl, hok3, hmono3⟩
        · rw [if_neg hb]
          obtain ⟨m', nl', st, hrec, hst, hok', hmono'⟩ := ih i' _ _
            (marchOK_mono s ana a (a.flags.length - 1) a.flags.length i' (by omega) hm')
            (by omega) hok3
          exact ⟨m', nl', st, hrec, hst, hok', fun h => hmono' (hmono3 h)⟩
      · rw [dif_neg hi]
        exact ⟨m, nl, none, rfl, Or.inl rfl, hok, fun h => h⟩

theorem renderArea_below (s : AddressSpace) (ana : Nat → Except PyErr Nat) (a : Area)
    (T : Int) (hlens : areaLensOK s) (ha : a ∈ s.area_list)
    (hstop : (a.stop : Int) < T) (hT0 : 0 ≤ T) :
    ∀ fuel i m (nl : Int) (hm : marchOK s ana a a.flags.length i = true)
      (hfuel : a.flags.length - i < fuel) (hnl : 1 ≤ nl) (hok : mOK T m)
      (hinv : inv2 T m),
      ∃ m', renderArea s ana a m i nl T fuel = (m', nl, none) ∧
        mOK T m' ∧ inv2 T m' ∧
        (0 ≤ m.target_addr_lineno_0 → 0 ≤ m'.target_addr_lineno_0) := by
  intro fuel
  induction fuel with
  | zero => intro i m nl _ hfuel _ _ _; omega
  | succ fuel ih =>
      intro i m nl hm hfuel hnl hok hinv
      rw [renderArea_unfold]
      by_cases hi : i < a.flags.length
      · rw [dif_pos hi]
        obtain ⟨hse, hlen⟩ := hlens a ha
        have haddr : ((a.start + i : Nat) : Int) < T := by
          have : a.start + i ≤ a.stop := by omega
          omega
        have haddrle : ((a.start + i : Nat) : Int) ≤ T := le_of_lt haddr
        obtain ⟨hhead, out, i', hr, hii', hi'len, hcr, hm'⟩ :=
          marchOK_step s ana a a.flags.length i hi hm
        obtain ⟨v, hv⟩ := get_label_ok s hlens (a.start + i)
          (valid_of_area s hlens a ha i hi)
        rw [hv]
        dsimp only
        rw [hr]
        dsimp only
        have hcond : T ≥ 0 ∧ ((a.start + i : Nat) : Int) < T := ⟨hT0, haddr⟩
        rw [if_pos hcond]
        rw [show nl + 1 - 1 = nl from by omega]
        have hbne : ¬(nl = 0) := by omega
        rw [if_neg hbne]
        have hok3 : mOK T ((labLineAdd (a.start + i) v
            (xrefLines s (a.start + i) m)).add_line (a.start + i) out) :=
          add_line_mOK T _ _ _ (labLineAdd_mOK T _ v _ (xrefLines_mOK T s _ m hok))
        have hinv3 : inv2 T ((labLineAdd (a.start + i) v
            (xrefLines s (a.start + i) m)).add_line (a.start + i) out) := by
          apply add_line_inv2 T _ _ _ (labLineAdd_mOK T _ v _ (xrefLines_mOK T s _ m hok)).1
            haddrle
          exact labLineAdd_inv2 T _ v _ (xrefLines_mOK T s _ m hok) haddrle
            (xrefLines_inv2 T s _ m hok haddrle hinv)
        have hmono3 : 0 ≤ m.target_addr_lineno_0 →
            0 ≤ ((labLineAdd (a.start + i) v
              (xrefLines s (a.start + i) m)).add_line (a.start + i) out).target_addr_lineno_0 :=
          fun h => add_line_l0_mono _ _ _ (labLineAdd_l0_mono _ v _ (xrefLines_l0_mono s _ m h))
        obtain ⟨m', hrec, hok', hinv', hmono'⟩ := ih i' _ nl
          (marchOK_mono s ana a (a.flags.length - 1) a.flags.length i' (by omega) hm')
          (by omega) hnl hok3 hinv3
        exact ⟨m', hrec, hok', hinv', fun h => hmono' (hmono3 h)⟩
      · rw [dif_neg hi]
        exact ⟨m, rfl, hok, hinv, fun h => h⟩

theorem renderArea_at (s : AddressSpace) (ana : Nat → Except PyErr Nat) (a : Area)
    (T : Int) (hlens : areaLensOK s) (ha : a ∈ s.area_list) (ot : Nat)
    (hot : ot < a.flags.length) (hoT : ((a.start + ot : Nat) : Int) = T)
    (hoh : isCont a.flags[ot] = false) :
    ∀ fuel i m (nl : Int) (hm : marchOK s ana a a.flags.length i = true)
      (hfuel : a.flags.length - i < fuel) (hile : i ≤ ot)
      (hnl : i = ot ∨ 1 ≤ nl) (hok : mOK T m) (hinv : inv2 T m),
      ∃ m' nl' st, renderArea s ana a m i nl T fuel = (m', nl', st) ∧
        (st = none ∨ st = some RStop.budget) ∧ mOK T m' ∧
        0 ≤ m'.target_addr_lineno_0 := by
  intro fuel
  induction fuel with
  | zero => intro i m nl _ hfuel _ _ _ _; omega
  | succ fuel ih =>
      intro i m nl hm hfuel hile hnl hok hinv
      have hT0 : 0 ≤ T := by omega
      rw [renderArea_unfold]
      have hi : i < a.flags.length := by omega
      rw [dif_pos hi]
      obtain ⟨hhead, out, i', hr, hii', hi'len, hcr, hm'⟩ :=
        marchOK_step s ana a a.flags.length i hi hm
      obtain ⟨v, hv⟩ := get_label_ok s hlens (a.start + i)
        (valid_of_area s hlens a ha i hi)
      rw [hv]
      dsimp only
      rw [hr]
      dsimp only
      rcases Nat.eq_or_lt_of_le hile with heq | hlt
      · -- the unit at the target address itself
        subst heq
        have hncond : ¬(T ≥ 0 ∧ ((a.start + i : Nat) : Int) < T) := by
          rintro ⟨_, hlt⟩
          omega
        rw [if_neg hncond]
        have hmem := labLineAdd_mOK T (a.start + i) v (xrefLines s (a.start + i) m) (xrefLines_mOK T s (a.start + i) m hok)
        have hok3 : mOK T ((labLineAdd (a.start + i) v
            (xrefLines s (a.start + i) m)).add_line (a.start + i) out) :=
          add_line_mOK T _ _ _ hmem
        have hinv3 : inv2 T ((labLineAdd (a.start + i) v
            (xrefLines s (a.start + i) m)).add_line (a.start + i) out) := by
          apply add_line_inv2 T _ _ _ hmem.1 (le_of_eq hoT)
          exact labLineAdd_inv2 T _ v _ (xrefLines_mOK T s _ m hok) (le_of_eq hoT)
            (xrefLines_inv2 T s _ m hok (le_of_eq hoT) hinv)
        have hlast : ((labLineAdd (a.start + i) v
            (xrefLines s (a.start + i) m)).add_line (a.start + i) out).last_addr
            = ((a.start + i : Nat) : Int) :=
          (add_line_fields _ _ _).2.2.1
        have hl0 : 0 ≤ ((labLineAdd (a.start + i) v
            (xrefLines s (a.start + i) m)).add_line (a.start + i) out).target_addr_lineno_0 := by
          rcases hinv3 with h | h
          · rw [hlast, hoT] at h
            exact absurd h (lt_irrefl T)
          · exact h
        by_cases hb : nl - 1 = 0
        · rw [if_pos hb]
          exact ⟨_, _, some .budget, rfl, Or.inr rfl, hok3, hl0⟩
        · rw [if_neg hb]
          obtain ⟨m', nl', st, hrec, hst, hok', hmono'⟩ :=
            renderArea_safe s ana a T hlens ha fuel i' _ (nl - 1)
              (marchOK_mono s ana a (a.flags.length - 1) a.flags.length i' (by omega) hm')
              (by omega) hok3
          exact ⟨m', nl', st, hrec, hst, hok', hmono' hl0⟩
      · -- still strictly below the target
        have hnl1 : 1 ≤ nl := by
          rcases hnl with h | h
          · omega
          · exact h
        have haddr : ((a.start + i : Nat) : Int) < T := by
          rw [← hoT]
          have : a.start + i < a.start + ot := by omega
          omega
        have hcond : T ≥ 0 ∧ ((a.start + i : Nat) : Int) < T := ⟨hT0, haddr⟩
        rw [if_pos hcond]
        rw [show nl + 1 - 1 = nl from by omega]
        have hbne : ¬(nl = 0) := by omega
        rw [if_neg hbne]
        have hmem := labLineAdd_mOK T (a.start + i) v (xrefLines s (a.start + i) m) (xrefLines_mOK T s (a.start + i) m hok)
        have hok3 : mOK T ((labLineAdd (a.start + i) v
            (xrefLines s (a.start + i) m)).add_line (a.start + i) out) :=
          add_line_mOK T _ _ _ hmem
        have hinv3 : inv2 T ((labLineAdd (a.start + i) v
            (xrefLines s (a.start + i) m)).add_line (a.start + i) out) := by
          apply add_line_inv2 T _ _ _ hmem.1 (le_of_lt haddr)
          exact labLineAdd_inv2 T _ v _ (xrefLines_mOK T s _ m hok) (le_of_lt haddr)
            (xrefLines_inv2 T s _ m hok (le_of_lt haddr) hinv)
        have hi'ot : i' ≤ ot := by
          by_contra hc
          push_neg at hc
          have := contRange_spec a i i' hcr ot hot hlt hc
          rw [hoh] at this
          exact absurd this (by simp)
        obtain ⟨m', nl', st, hrec, hst, hok', hl0'⟩ := ih i' _ nl
          (marchOK_mono s ana a (a.flags.length - 1) a.flags.length i' (by omega) hm')
          (by omega) hi'ot (Or.inr hnl1) hok3 hinv3
        exact ⟨m', nl', st, hrec, hst, hok', hl0'⟩

theorem renderAreas_unfold (s : AddressSpace) (ana : Nat → Except PyErr Nat)
    (m : Model) (area_no offset : Nat) (start : Bool) (nl T : Int)
    (fuel afuel : Nat) :
    renderAreas s ana m area_no offset start nl T fuel (afuel + 1) =
      if h : area_no < s.area_list.length then
        let a := s.area_list[area_no]
        let mi : Model × Nat :=
          if start then (m, offset)
          else (m.add_line a.start (.literal a.start (startLit a.start)), 0)
        match renderArea s ana a mi.1 mi.2 nl T fuel with
        | (m, _, some st) => (m, st)
        | (m, nl2, none) =>
            renderAreas s ana (m.add_line a.stop (.literal a.stop (endLit a.start)))
              (area_no + 1) 0 false nl2 T fuel afuel
      else (m, .finished) := rfl

theorem renderAreas_tail (s : AddressSpace) (ana : Nat → Except PyErr Nat) (T : Int)
    (hlens : areaLensOK s)
    (hmarch : ∀ a ∈ s.area_list, marchOK s ana a a.flags.length 0 = true)
    (fuel : Nat) (hfuel : ∀ a ∈ s.area_list, a.flags.length < fuel) :
    ∀ afuel k m (nl : Int), s.area_list.length - k < afuel → mOK T m →
      ∃ m' st, renderAreas s ana m k 0 false nl T fuel afuel = (m', st) ∧
        (st = RStop.budget ∨ st = RStop.finished) ∧ mOK T m' ∧
        (0 ≤ m.target_addr_lineno_0 → 0 ≤ m'.target_addr_lineno_0) := by
  intro afuel
  induction afuel with
  | zero => intro k m nl h _; omega
  | succ afuel ih =>
      intro k m nl hfa hok
      by_cases hk : k < s.area_list.length
      · rw [renderAreas_unfold, dif_pos hk]
        dsimp only
        rw [if_neg Bool.false_ne_true]
        dsimp only
        have hmem : s.area_list[k] ∈ s.area_list := List.getElem_mem hk
        obtain ⟨m1, nl1, st, hrec, hst, hok1, hl0m1⟩ :=
          renderArea_safe s ana s.area_list[k] T hlens hmem fuel 0
            (m.add_line s.area_list[k].start
              (.literal s.area_list[k].start (startLit s.area_list[k].start))) nl
            (hmarch _ hmem) (by have := hfuel _ hmem; omega)
            (add_line_mOK T m _ _ hok)
        rw [hrec]
        rcases hst with rfl | rfl
        · dsimp only
          obtain ⟨m', st', hrec2, hst2, hok2, hl0m2⟩ := ih (k + 1)
            (m1.add_line s.area_list[k].stop
              (.literal s.area_list[k].stop (endLit s.area_list[k].start))) nl1
            (by omega) (add_line_mOK T m1 _ _ hok1)
          refine ⟨m', st', hrec2, hst2, hok2, fun h => hl0m2 ?_⟩
          exact add_line_l0_mono _ _ _ (hl0m1 (add_line_l0_mono _ _ _ h))
        · exact ⟨m1, RStop.budget, rfl, Or.inl rfl, hok1,
            fun h => hl0m1 (add_line_l0_mono _ _ _ h)⟩
      · rw [renderAreas_unfold, dif_neg hk]
        exact ⟨m, RStop.finished, rfl, Or.inr rfl, hok, fun h => h⟩

theorem renderAreas_target (s : AddressSpace) (ana : Nat → Except PyErr Nat) (T : Int)
    (hlens : areaLensOK s)
    (hsort : s.area_list.Pairwise (fun x y => x.stop < y.start))
    (hmarch : ∀ a ∈ s.area_list, marchOK s ana a a.flags.length 0 = true)
    (fuel : Nat) (hfuel : ∀ a ∈ s.area_list, a.flags.length < fuel)
    (tidx : Nat) (htidx : tidx < s.area_list.length) (ot : Nat)
    (hot : ot < s.area_list[tidx].flags.length)
    (hoT : ((s.area_list[tidx].start + ot : Nat) : Int) = T)
    (hoh : isCont s.area_list[tidx].flags[ot] = false) :
    ∀ afuel k (off : Nat) (start : Bool) m (nl : Int) (hk : k ≤ tidx)
      (hfa : s.area_list.length - k < afuel)
      (hm : marchOK s ana (s.area_list[k])
         (s.area_list[k]).flags.length (if start then off else 0) = true)
      (hile : k = tidx → (if start then off else 0) ≤ ot)
      (hnl : (k = tidx ∧ (if start then off else 0) = ot) ∨ 1 ≤ nl)
      (hok : mOK T m) (hinv : inv2 T m),
      ∃ m' st, renderAreas s ana m k off start nl T fuel afuel = (m', st) ∧
        (st = RStop.budget ∨ st = RStop.finished) ∧ mOK T m' ∧
        0 ≤ m'.target_addr_lineno_0 := by
  have hT0 : 0 ≤ T := by omega
  have hpair := List.pairwise_iff_getElem.mp hsort
  have hstopT : ∀ j (hj : j < tidx), ((s.area_list[j]).stop : Int) < T := by
    intro j hj
    have h1 := hpair j tidx (by omega) htidx hj
    have h2 : s.area_list[tidx].start ≤ s.area_list[tidx].start + ot := Nat.le_add_right _ _
    omega
  have hstartT : ∀ j (hj : j ≤ tidx), ((s.area_list[j]).start : Int) ≤ T := by
    intro j hj
    rcases Nat.eq_or_lt_of_le hj with rfl | hjlt
    · have h2 : s.area_list[j].start ≤ s.area_list[j].start + ot := Nat.le_add_right _ _
      omega
    · have h1 := (hlens _ (List.getElem_mem (show j < s.area_list.length by omega))).1
      have h2 := hstopT j hjlt
      omega
  intro afuel
  induction afuel with
  | zero => intro k off start m nl hk hfa _ _ _ _ _; omega
  | succ afuel ih =>
      intro k off start m nl hk hfa hm hile hnl hok hinv
      have hklen : k < s.area_list.length := by omega
      rw [renderAreas_unfold, dif_pos hklen]
      dsimp only
      suffices H : ∀ (m1 : Model) (i0 : Nat), mOK T m1 → inv2 T m1 →
          marchOK s ana (s.area_list[k])
            (s.area_list[k]).flags.length i0 = true →
          (k = tidx → i0 ≤ ot) → ((k = tidx ∧ i0 = ot) ∨ 1 ≤ nl) →
          ∃ m' st,
            (match renderArea s ana (s.area_list[k]) m1 i0 nl T fuel with
             | (m, _, some st) => (m, st)
             | (m, nl2, none) =>
                 renderAreas s ana
                   (m.add_line (s.area_list[k]).stop
                     (.literal (s.area_list[k]).stop (endLit (s.area_list[k]).start)))
                   (k + 1) 0 false nl2 T fuel afuel) = (m', st) ∧
            (st = RStop.budget ∨ st = RStop.finished) ∧ mOK T m' ∧
            0 ≤ m'.target_addr_lineno_0 by
        cases start
        · rw [if_neg Bool.false_ne_true]
          rw [if_neg Bool.false_ne_true] at hm hile hnl
          dsimp only
          refine H _ 0 (add_line_mOK T m _ _ hok) ?_ hm hile hnl
          exact add_line_inv2 T m _ _ hok.1 (hstartT k hk) hinv
        · rw [if_pos rfl]
          rw [if_pos rfl] at hm hile hnl
          dsimp only
          exact H m off hok hinv hm hile hnl
      intro m1 i0 hok1 hinv1 hm1 hile1 hnl1
      have hmem : (s.area_list[k]) ∈ s.area_list := List.getElem_mem hklen
      rcases Nat.eq_or_lt_of_le hk with heq | hlt
      · -- this is the target area
        subst heq
        obtain ⟨m2, nl2, st, hrec, hst, hok2, hl02⟩ :=
          renderArea_at s ana (s.area_list[k]) T hlens hmem ot hot hoT hoh
            fuel i0 m1 nl hm1 (by have := hfuel _ hmem; omega) (hile1 rfl)
            (by rcases hnl1 with ⟨_, h⟩ | h; exact Or.inl h; exact Or.inr h)
            hok1 hinv1
        rw [hrec]
        rcases hst with rfl | rfl
        · dsimp only
          obtain ⟨m', st', hrec2, hst2, hok3, hl0m3⟩ :=
            renderAreas_tail s ana T hlens hmarch fuel hfuel afuel (k + 1)
              (m2.add_line (s.area_list[k]).stop
                (.literal (s.area_list[k]).stop (endLit (s.area_list[k]).start)))
              nl2 (by omega) (add_line_mOK T m2 _ _ hok2)
          exact ⟨m', st', hrec2, hst2, hok3, hl0m3 (add_line_l0_mono _ _ _ hl02)⟩
        · exact ⟨m2, RStop.budget, rfl, Or.inl rfl, hok2, hl02⟩
      · -- an area strictly below the target
        have hnl' : 1 ≤ nl := by
          rcases hnl1 with ⟨hkk, _⟩ | h
          · omega
          · exact h
        obtain ⟨m2, hrec, hok2, hinv2, _⟩ :=
          renderArea_below s ana (s.area_list[k]) T hlens hmem (hstopT k hlt) hT0
            fuel i0 m1 nl hm1 (by have := hfuel _ hmem; omega) hnl' hok1 hinv1
        rw [hrec]
        dsimp only
        obtain ⟨m', st', hrec2, hst2, hok3, hl03⟩ := ih (k + 1) 0 false
          (m2.add_line (s.area_list[k]).stop
            (.literal (s.area_list[k]).stop (endLit (s.area_list[k]).start)))
          nl (by omega) (by omega)
          (by simpa using hmarch _ (List.getElem_mem (show k + 1 < s.area_list.length by omega)))
          (by intro _; simp) (Or.inr hnl')
          (add_line_mOK T m2 _ _ hok2)
          (add_line_inv2 T m2 _ _ hok2.1 (le_of_lt (hstopT k hlt)) hinv2)
        exact ⟨m', st', hrec2, hst2, hok3, hl03⟩

theorem indexOfArea_getElem (s : AddressSpace) (hlens : areaLensOK s)
    (hsort : s.area_list.Pairwise (fun x y => x.stop < y.start))
    (k : Nat) (hk : k < s.area_list.length) :
    indexOfArea s (s.area_list[k]) = .ok k := by
  have hpair := List.pairwise_iff_getElem.mp hsort
  have hfind : s.area_list.findIdx? (fun x => x == s.area_list[k]) = some k := by
    rw [List.findIdx?_eq_some_iff_getElem]
    refine ⟨hk, by simp, ?_⟩
    intro j hj
    have hjk := hpair j k (by omega) hk hj
    have hle := (hlens _ (List.getElem_mem (show j < s.area_list.length by omega))).1
    have hle2 := (hlens _ (List.getElem_mem hk)).1
    simp only [Bool.not_eq_true, beq_eq_false_iff_ne, ne_eq]
    intro he
    rw [he] at hjk hle
    omega
  rw [indexOfArea, hfind]

theorem backWalkLoop_spec (s : AddressSpace) (hlens : areaLensOK s) :
    ∀ fuel (off : Int) (n : Nat) (cur : Area) (hn : n < s.area_list.length)
      (hcur : cur = s.area_list[n]) (hoff : off < 0) (hfuel : n < fuel),
      ∃ k, ∃ hk : k < s.area_list.length, ∃ w : Int,
        backWalkLoop s fuel ((n : Int) - 1) off cur = (s.area_list[k], w) ∧
        k ≤ n ∧
        (w < 0 ∨ (0 ≤ w ∧ k < n ∧
          w < ((s.area_list[k]).stop : Int) - ((s.area_list[k]).start : Int) + 1)) := by
  intro fuel
  induction fuel with
  | zero => intro off n cur hn hcur hoff hfuel; omega
  | succ fuel ih =>
      intro off n cur hn hcur hoff hfuel
      cases n with
      | zero =>
          rw [backWalkLoop]
          rw [if_neg (show ¬(0 ≤ ((0 : Nat) : Int) - 1) from by omega)]
          exact ⟨0, hn, off, by rw [hcur], le_refl 0, Or.inl hoff⟩
      | succ nn =>
          rw [backWalkLoop]
          rw [if_pos (show (0 : Int) ≤ ((nn + 1 : Nat) : Int) - 1 from by omega)]
          have hnn : nn < s.area_list.length := by omega
          have htn : (((nn + 1 : Nat) : Int) - 1).toNat = nn := by omega
          rw [htn, List.getElem?_eq_getElem hnn]
          dsimp only
          by_cases hstop : 0 ≤ off + ((s.area_list[nn].stop : Int) - (s.area_list[nn].start : Int) + 1)
          · rw [if_pos hstop]
            exact ⟨nn, hnn, _, rfl, by omega, Or.inr ⟨hstop, by omega, by omega⟩⟩
          · rw [if_neg hstop]
            push_neg at hstop
            obtain ⟨k, hk, w, hrec, hkn, hw⟩ := ih
              (off + ((s.area_list[nn].stop : Int) - (s.area_list[nn].start : Int) + 1))
              nn (s.area_list[nn]) hnn rfl hstop (by omega)
            refine ⟨k, hk, w, ?_, by omega, ?_⟩
            · rw [show ((nn + 1 : Nat) : Int) - 1 - 1 = (nn : Int) - 1 from by omega]
              exact hrec
            · rcases hw with h | ⟨h1, h2, h3⟩
              · exact Or.inl h
              · exact Or.inr ⟨h1, by omega, h3⟩

theorem addr2area_elim (s : AddressSpace) (addr off0 : Nat) (a0 : Area)
    (h : addr2area s addr = some (off0, a0)) :
    ∃ tidx, ∃ ht : tidx < s.area_list.length,
      a0 = s.area_list[tidx] ∧ a0.start ≤ addr ∧ addr ≤ a0.stop ∧
      off0 = addr - a0.start := by
  unfold addr2area at h
  cases hi : addr2idx s addr with
  | none => rw [hi] at h; exact absurd h (by simp)
  | some i =>
      rw [hi] at h
      dsimp only at h
      obtain ⟨a, ha, h1, h2⟩ := addr2idx_some s addr i hi
      rw [ha] at h
      simp only [Option.some.injEq, Prod.mk.injEq] at h
      obtain ⟨hoff, haa⟩ := h
      subst haa
      obtain ⟨hb, heq⟩ := List.getElem?_eq_some_iff.mp ha
      exact ⟨i, hb, heq.symm, h1, h2, hoff.symm⟩

theorem renderFuel_big (s : AddressSpace) :
    ∀ a ∈ s.area_list, a.flags.length < renderFuel s := by
  intro a ha
  have h : a.flags.length ≤ (s.area_list.map (fun a => a.flags.length)).sum :=
    List.single_le_sum (fun _ _ => Nat.zero_le _) _ (List.mem_map_of_mem _ ha)
  unfold renderFuel
  omega

/-- C6: for a valid address the claim as stated fails: `render_partial_around`
asserts `target_addr_lineno_0 >= 0`, but when `addr` lies in the middle of a
unit (its flag is a continuation flag) no line is ever emitted at `addr`
itself, the latch stays `-1` and the assertion raises (see the
counterexample).  Amended: provided `addr` is the head of a unit and the
address space is well-formed -- area sizes consistent with their address
ranges, areas sorted and disjoint, and every area rendering unit-by-unit to
completion -- `render_partial_around(addr, subno, context_lines)` returns a
model with `target_addr_lineno_0 >= 0`, and `target_addr_lineno >= 0` as
well, because when the exact `subno` was not found it falls back to
`target_addr_lineno_0`. -/
theorem c6_theorem (s : AddressSpace) (ana : Nat → Except PyErr Nat)
    (addr : Nat) (subno : Int) (context_lines : Nat)
    (hlens : areaLensOK s)
    (hsort : s.area_list.Pairwise (fun x y => x.stop < y.start))
    (hmarch : ∀ a ∈ s.area_list, marchOK s ana a a.flags.length 0 = true)
    (off0 : Nat) (a0 : Area)
    (hfound : addr2area s addr = some (off0, a0))
    (hhead : ∃ ho : off0 < a0.flags.length, isCont (a0.flags[off0]) = false) :
    ∃ model, render_around s ana addr subno context_lines = .ok (some model) ∧
      0 ≤ model.target_addr_lineno_0 ∧ 0 ≤ model.target_addr_lineno := by
  obtain ⟨tidx, htidx, ha0, hstart, hstop, hoff0⟩ := addr2area_elim s addr off0 a0 hfound
  subst ha0
  obtain ⟨hofflen, hoffhead⟩ := hhead
  have hfuelA := renderFuel_big s
  have hoT : ((s.area_list[tidx].start + off0 : Nat) : Int) = (addr : Int) := by omega
  have hidx0 := indexOfArea_getElem s hlens hsort tidx htidx
  simp only [render_around]
  rw [hfound]
  dsimp only
  by_cases hneg : ((off0 : Nat) : Int) - ((context_lines * MAX_UNIT_SIZE : Nat) : Int) < 0
  · rw [if_pos hneg, hidx0]
    dsimp only
    obtain ⟨k, hK, w, hwalk, hkle, hwprop⟩ := backWalkLoop_spec s hlens
      (s.area_list.length + 1) _ tidx _ htidx rfl hneg (by omega)
    rw [hwalk]
    dsimp only
    have hlensk := hlens _ (List.getElem_mem hK)
    have hi2len : (if w < 0 then (0 : Int) else w).toNat <
        (s.area_list[k]).flags.length := by
      rcases hwprop with h | ⟨h1, _, h3⟩
      · rw [if_pos h]
        omega
      · rw [if_neg (by omega)]
        omega
    have hi2le : k = tidx → (if w < 0 then (0 : Int) else w).toNat ≤ off0 := by
      intro hkt
      rcases hwprop with h | ⟨_, h2, _⟩
      · rw [if_pos h]; omega
      · omega
    have hctx : context_lines = 0 →
        k = tidx ∧ (if w < 0 then (0 : Int) else w).toNat = off0 := by
      intro h0c
      rw [h0c] at hneg
      simp only [Nat.zero_mul, Nat.cast_zero] at hneg
      omega
    have h0 : ∀ hl : 0 < (s.area_list[k]).flags.length,
        isCont ((s.area_list[k]).flags[0]) = false := fun hl =>
      (marchOK_step s ana _ _ 0 hl (hmarch _ (List.getElem_mem hK))).1
    obtain ⟨p, hadj, hple, hplt, hph⟩ :=
      adjust_head (s.area_list[k]) ((if w < 0 then (0 : Int) else w).toNat) hi2len h0
    rw [hadj]
    dsimp only
    rw [indexOfArea_getElem s hlens hsort k hK]
    dsimp only
    have hvisit := marchOK_visit s ana (s.area_list[k])
      (s.area_list[k]).flags.length 0 p (hmarch _ (List.getElem_mem hK))
      (Nat.zero_le _) hplt hph
    have hnlc : (k = tidx ∧ p = off0) ∨ 1 ≤ (context_lines : Int) := by
      cases Nat.eq_zero_or_pos context_lines with
      | inl h0c =>
          obtain ⟨hk0, hi20⟩ := hctx h0c
          subst hk0
          have hex := adjust_exact (s.area_list[k]) off0 hofflen hoffhead
          rw [hi20] at hadj
          rw [hadj] at hex
          injection hex with hx
          exact Or.inl ⟨rfl, hx⟩
      | inr hpos => exact Or.inr (by omega)
    obtain ⟨m', st, hwin, hst, hok', hl0'⟩ :=
      renderAreas_target s ana (addr : Int) hlens hsort hmarch (renderFuel s) hfuelA
        tidx htidx off0 hofflen hoT hoffhead (s.area_list.length + 1) k p true
        (Model.init (addr : Int) subno) (context_lines : Int) hkle (by omega)
        (by simpa using hvisit)
        (fun hkt => by simpa using le_trans hple (hi2le hkt))
        (by simpa using hnlc)
        ⟨rfl, Or.inl rfl, Or.inl rfl⟩
        (Or.inl (by simp [Model.init]; omega))
    have hwin' : render_win s ana (Model.init (addr : Int) subno) k p
        (context_lines : Int) (addr : Int) = (m', st) := hwin
    rw [hwin']
    rcases hst with rfl | rfl
    · dsimp only
      rw [if_neg (show ¬(m'.target_addr_lineno_0 < 0) from by omega)]
      refine ⟨_, rfl, ?_, ?_⟩
      · split_ifs <;> exact hl0'
      · by_cases hln : m'.target_addr_lineno = -1
        · rw [if_pos hln]
          exact hl0'
        · rw [if_neg hln]
          rcases hok'.2.1 with h | h
          · exact absurd h hln
          · exact h
    · dsimp only
      rw [if_neg (show ¬(m'.target_addr_lineno_0 < 0) from by omega)]
      refine ⟨_, rfl, ?_, ?_⟩
      · split_ifs <;> exact hl0'
      · by_cases hln : m'.target_addr_lineno = -1
        · rw [if_pos hln]
          exact hl0'
        · rw [if_neg hln]
          rcases hok'.2.1 with h | h
          · exact absurd h hln
          · exact h
  · rw [if_neg hneg]
    dsimp only
    push_neg at hneg
    have hi2len : (if ((off0 : Nat) : Int) - ((context_lines * MAX_UNIT_SIZE : Nat) : Int) < 0
        then (0 : Int)
        else ((off0 : Nat) : Int) - ((context_lines * MAX_UNIT_SIZE : Nat) : Int)).toNat <
        (s.area_list[tidx]).flags.length := by
      rw [if_neg (by omega)]
      omega
    have h0 : ∀ hl : 0 < (s.area_list[tidx]).flags.length,
        isCont ((s.area_list[tidx]).flags[0]) = false := fun hl =>
      (marchOK_step s ana _ _ 0 hl (hmarch _ (List.getElem_mem htidx))).1
    obtain ⟨p, hadj, hple, hplt, hph⟩ :=
      adjust_head (s.area_list[tidx]) _ hi2len h0
    rw [hadj]
    dsimp only
    rw [hidx0]
    dsimp only
    have hvisit := marchOK_visit s ana (s.area_list[tidx])
      (s.area_list[tidx]).flags.length 0 p (hmarch _ (List.getElem_mem htidx))
      (Nat.zero_le _) hplt hph
    have hple' : p ≤ off0 := by
      have : (if ((off0 : Nat) : Int) - ((context_lines * MAX_UNIT_SIZE : Nat) : Int) < 0
          then (0 : Int)
          else ((off0 : Nat) : Int) - ((context_lines * MAX_UNIT_SIZE : Nat) : Int)).toNat
          ≤ off0 := by
        rw [if_neg (by omega)]
        omega
      omega
    have hnlc : (tidx = tidx ∧ p = off0) ∨ 1 ≤ (context_lines : Int) := by
      cases Nat.eq_zero_or_pos context_lines with
      | inl h0c =>
          have hi20 : (if ((off0 : Nat) : Int) - ((context_lines * MAX_UNIT_SIZE : Nat) : Int) < 0
              then (0 : Int)
              else ((off0 : Nat) : Int) - ((context_lines * MAX_UNIT_SIZE : Nat) : Int)).toNat
              = off0 := by
            rw [if_neg (by omega)]
            rw [h0c]
            simp
          have hex := adjust_exact (s.area_list[tidx]) off0 hofflen hoffhead
          rw [hi20] at hadj
          rw [hadj] at hex
          injection hex with hx
          exact Or.inl ⟨rfl, hx⟩
      | inr hpos => exact Or.inr (by omega)
    obtain ⟨m', st, hwin, hst, hok', hl0'⟩ :=
      renderAreas_target s ana (addr : Int) hlens hsort hmarch (renderFuel s) hfuelA
        tidx htidx off0 hofflen hoT hoffhead (s.area_list.length + 1) tidx p true
        (Model.init (addr : Int) subno) (context_lines : Int) (le_refl tidx) (by omega)
        (by simpa using hvisit)
        (fun _ => by simpa using hple')
        (by simpa using hnlc)
        ⟨rfl, Or.inl rfl, Or.inl rfl⟩
        (Or.inl (by simp [Model.init]; omega))
    have hwin' : render_win s ana (Model.init (addr : Int) subno) tidx p
        (context_lines : Int) (addr : Int) = (m', st) := hwin
    rw [hwin']
    rcases hst with rfl | rfl
    · dsimp only
      rw [if_neg (show ¬(m'.target_addr_lineno_0 < 0) from by omega)]
      refine ⟨_, rfl, ?_, ?_⟩
      · split_ifs <;> exact hl0'
      · by_cases hln : m'.target_addr_lineno = -1
        · rw [if_pos hln]
          exact hl0'
        · rw [if_neg hln]
          rcases hok'.2.1 with h | h
          · exact absurd h hln
          · exact h
    · dsimp only
      rw [if_neg (show ¬(m'.target_addr_lineno_0 < 0) from by omega)]
      refine ⟨_, rfl, ?_, ?_⟩
      · split_ifs <;> exact hl0'
      · by_cases hln : m'.target_addr_lineno = -1
        · rw [if_pos hln]
          exact hl0'
        · rw [if_neg hln]
          rcases hok'.2.1 with h | h
          · exact absurd h hln
          · exact h

theorem c6_witness :
    ∃ model, render_around c6AS noAna 0 (-1) 1 = .ok (some model) ∧
      0 ≤ model.target_addr_lineno_0 ∧ 0 ≤ model.target_addr_lineno :=
  c6_theorem c6AS noAna 0 (-1) 1 (by unfold areaLensOK; decide) (by decide) (by decide) 0
    ⟨0, 2, [], [7, 7, 7], [DATA, DATA_CONT, UNK]⟩ (by decide) ⟨by decide, by decide⟩

end SAB
